import Mathlib

/-!
# Verification of the minesweeper game engine

A shallow embedding of `src/minesweeper.rs` (the game engine of
`wgpu-minesweeper`).  Rust `u8`/`u16` values are modelled as `Nat`
(all counters in the engine are bounded by `width*height ≤ 255*255`,
far below the wrap-around point, and the proofs below establish the
invariants that keep subtractions non-negative on reachable states).
Panics (failed `assert!`, out-of-range indexing, and `rand`'s
empty-range panic) are modelled as `none` of an `Option` result.
Randomness (`rand::rng()`) is modelled by an explicit stream
`rng : Nat → Nat`; the `i`-th call of `random_range(0..n)` returns
`rng i % n` (and `none`, the panic, when `n = 0`), so quantifying over
all streams quantifies over all possible draw outcomes.
-/

namespace Mines

/-- Position in a minesweeper grid: `(row, col)`, mirroring `type Pos = (Row, Col)`. -/
abbrev Pos := Nat × Nat

/-- All the different textures a cell can have (Rust `enum CellImage`). -/
inductive CellImage where
  | Zero | One | Two | Three | Four | Five | Six | Seven | Eight
  | Mine | WronglyFlagged | SelectedMine | Hidden | Flagged | QuestionMarked
deriving DecidableEq, Repr, Inhabited

namespace CellImage

/-- `CellImage::from_number`.  The Rust function panics for inputs `> 8`;
that branch is unreachable at every call site (the argument is a count of
mines among at most 8 neighbours of a non-mine cell, proved where used),
so the junk value returned for `> 8` never matters. -/
def from_number (num : Nat) : CellImage :=
  match num with
  | 0 => Zero
  | 1 => One
  | 2 => Two
  | 3 => Three
  | 4 => Four
  | 5 => Five
  | 6 => Six
  | 7 => Seven
  | 8 => Eight
  | _ => Eight

/-- `CellImage::shown`: whether the image represents a revealed cell. -/
def shown (c : CellImage) : Bool :=
  match c with
  | Hidden => false
  | Flagged => false
  | QuestionMarked => false
  | _ => true

end CellImage

/-- A cell in the minesweeper grid (Rust `struct Cell`). -/
structure Cell where
  image : CellImage
  mine : Bool
deriving DecidableEq, Repr, Inhabited

/-- The state of a minesweeper game (Rust `enum GameState`). -/
inductive GameState where
  | BeforeGame | DuringGame | AfterGame
deriving DecidableEq, Repr, Inhabited

/-- The grid of cells (Rust `struct GameGrid { data: Vec<Vec<Cell>> }`).
The 2D vector is modelled as a total function together with its actual
dimensions `gh` (number of rows) and `gw` (the row length); out-of-range
reads of the `Vec` never occur on the paths exercised by the public
operations modelled below. -/
structure GameGrid where
  data : Nat → Nat → Cell
  gw : Nat
  gh : Nat

namespace GameGrid

/-- `GameGrid::resize`: reallocates (all cells `Hidden`, `mine = false`)
only if the dimensions differ.  In Rust the width of an empty grid reads
back as `0` regardless of the requested width, hence the `gw` adjustment
for `h = 0`. -/
def resize (G : GameGrid) (w h : Nat) : GameGrid :=
  if h ≠ G.gh ∨ w ≠ G.gw then
    { data := fun _ _ => { image := CellImage.Hidden, mine := false },
      gw := if h = 0 then 0 else w, gh := h }
  else G

end GameGrid

/-- A game of minesweeper (Rust `struct Game`). -/
structure Game where
  grid : GameGrid
  game_state : GameState
  width : Nat
  height : Nat
  flags : Nat
  hidden : Nat
  total_mines : Nat

namespace Game

/-- Read the cell at `p` (Rust `self.grid[pos]`). -/
def getCell (g : Game) (p : Pos) : Cell := g.grid.data p.1 p.2

/-- Write the cell at `p` (Rust `self.grid[pos] = ...` via `IndexMut`). -/
def setCell (g : Game) (p : Pos) (c : Cell) : Game :=
  { g with grid := { g.grid with data := fun r k => if (r, k) = p then c else g.grid.data r k } }

/-- Update only the image of the cell at `p`. -/
def setImage (g : Game) (p : Pos) (img : CellImage) : Game :=
  g.setCell p { image := img, mine := (g.getCell p).mine }

/-- Update only the mine flag of the cell at `p`. -/
def setMine (g : Game) (p : Pos) (b : Bool) : Game :=
  g.setCell p { image := (g.getCell p).image, mine := b }

/-- The empty grid `GameGrid { data: Vec::new() }`. -/
def emptyGrid : GameGrid :=
  { data := fun _ _ => { image := CellImage.Hidden, mine := false }, gw := 0, gh := 0 }

/-- `Game::new`.  The Rust constructor `assert!`s
`width*height > mines && width != 0 && height != 0 && mines != 0`;
the failure (a panic) is modelled as `none`. -/
def new (width height mines : Nat) : Option Game :=
  if width * height > mines ∧ width ≠ 0 ∧ height ≠ 0 ∧ mines ≠ 0 then
    some { grid := emptyGrid
           game_state := GameState.BeforeGame
           width := width
           height := height
           flags := 0
           hidden := width * height
           total_mines := mines }
  else none

/-- `Game::reset`. -/
def reset (g : Game) : Game :=
  { g with flags := 0, game_state := GameState.BeforeGame }

/-- `Game::resize`: reset plus storing the new configuration; the grid
reallocation itself is deferred to the next `start_game`.  Note the Rust
method performs no validation of the inputs. -/
def resize (g : Game) (width height num_mines : Nat) : Game :=
  { g.reset with width := width, height := height, total_mines := num_mines }

/-- The in-bounds candidates among `{x-1, x, x+1}` (one axis of the
3×3-neighbourhood loop of `Game::get_3x3`, which runs over
`row_difference in -1..=1` filtering `0 <= v < bound`). -/
def around1 (x bound : Nat) : List Nat :=
  (if x = 0 then [x, x + 1] else [x - 1, x, x + 1]).filter (fun v => v < bound)

/-- `Game::get_3x3`: the in-bounds part of the 3×3 block centred at `p`
(including `p` itself), in row-major order. -/
def get_3x3 (g : Game) (p : Pos) : List Pos :=
  (around1 p.1 g.height).flatMap fun r => (around1 p.2 g.width).map fun c => (r, c)

/-- `Vec::swap_remove(i)`: replace element `i` by the last element and
pop the last element.  (Rust panics when `i` is out of range; every call
below has `i` in range.) -/
def swapRemove (l : List α) (i : Nat) : List α :=
  match l.getLast? with
  | none => l
  | some last => (l.set i last).dropLast

/-- `Game::get_neighbors`: `get_3x3` minus the cell itself, removed via
`swap_remove` at the first index holding `p`. -/
def get_neighbors (g : Game) (p : Pos) : List Pos :=
  let l := g.get_3x3 p
  match l.findIdx? (fun q => q = p) with
  | some i => swapRemove l i
  | none => l

/-- `Game::get_hidden_neighbors`. -/
def get_hidden_neighbors (g : Game) (p : Pos) : List Pos :=
  (g.get_neighbors p).filter fun q => (g.getCell q).image = CellImage.Hidden

/-- `Game::get_mines_around`: number of mines in the 3×3 block
(technically including the cell itself, as the Rust comment notes). -/
def get_mines_around (g : Game) (p : Pos) : Nat :=
  (g.get_3x3 p).countP fun q => (g.getCell q).mine

/-- `Game::toggle_tofrom_given`.  Note the Rust `assert!` here compares
`pos.1 < self.height && pos.0 < self.width` — column against height and
row against width, the transposed orientation of the bounds checks in
`left_click`/`right_click`. -/
def toggle_tofrom_given (g : Game) (pos : Pos) (given : CellImage) :
    Option (Game × (Pos × CellImage)) :=
  if pos.2 < g.height ∧ pos.1 < g.width then
    let c := g.getCell pos
    if c.image = given then
      some ({ g.setImage pos CellImage.Flagged with flags := g.flags + 1 },
            (pos, CellImage.Flagged))
    else
      let g1 := if c.image = CellImage.Flagged then { g with flags := g.flags - 1 } else g
      some (g1.setImage pos given, (pos, given))
  else none

/-- `Game::toggle_tofrom_hidden`. -/
def toggle_tofrom_hidden (g : Game) (pos : Pos) : Option (Game × (Pos × CellImage)) :=
  g.toggle_tofrom_given pos CellImage.Hidden

/-- `Game::toggle_tofrom_question_marked`. -/
def toggle_tofrom_question_marked (g : Game) (pos : Pos) : Option (Game × (Pos × CellImage)) :=
  g.toggle_tofrom_given pos CellImage.QuestionMarked

end Game

/-- All grid positions of an `h × w` grid in row-major order
(the iteration order of `for row in 0..height { for col in 0..width }`). -/
def rowMajor (h w : Nat) : List Pos :=
  (List.range h).flatMap fun r => (List.range w).map fun c => (r, c)

/-- The grid scan of the losing branch of `Game::show`: every unrevealed
(`Hidden`) mine becomes `Mine`, every flagged non-mine becomes
`WronglyFlagged`, and each change is recorded in order. -/
def lossScan (g : Game) : List Pos → Game × List (Pos × CellImage)
  | [] => (g, [])
  | q :: rest =>
    let c := g.getCell q
    if c.mine ∧ c.image = CellImage.Hidden then
      let s := lossScan (g.setImage q CellImage.Mine) rest
      (s.1, (q, CellImage.Mine) :: s.2)
    else if ¬ c.mine ∧ c.image = CellImage.Flagged then
      let s := lossScan (g.setImage q CellImage.WronglyFlagged) rest
      (s.1, (q, CellImage.WronglyFlagged) :: s.2)
    else lossScan g rest

/-- The grid scan of `Game::handle_win`: every mine not already flagged
becomes `Flagged`, recording each change. -/
def winScan (g : Game) : List Pos → Game × List (Pos × CellImage)
  | [] => (g, [])
  | q :: rest =>
    let c := g.getCell q
    if c.mine ∧ c.image ≠ CellImage.Flagged then
      let s := winScan (g.setImage q CellImage.Flagged) rest
      (s.1, (q, CellImage.Flagged) :: s.2)
    else winScan g rest

namespace Game

/-- `Game::handle_win`: move to `AfterGame`, flag all mines, set
`flags := total_mines`. -/
def handle_win (g : Game) : Game × List (Pos × CellImage) :=
  let s := winScan { g with game_state := GameState.AfterGame } (rowMajor g.height g.width)
  ({ s.1 with flags := s.1.total_mines }, s.2)

end Game

/-- `rand`'s `random_range(0..n)` for the draw value `r` of the stream:
uniform over `[0, n)` as `r` ranges over all naturals, and a panic
(`none`) when the range `0..n` is empty. -/
def randRange? (r n : Nat) : Option Nat :=
  if n = 0 then none else some (r % n)

/-- The reveal loop of `Game::show` (the stack-driven flood fill), with
the stack top at the head of the list.  The `fuel` argument makes the
recursion structural; `Game.show_cells` supplies fuel that is proved
sufficient (`9 * hiddenCells + |stack| < fuel` always holds there), so
the `0`-fuel branch is unreachable.  A popped out-of-bounds position
models the Rust `Vec` index panic as `none`; all pushed positions are
in bounds, so this can only involve the initial seeds. -/
def showLoopF : Nat → Game → List Pos → Option (Game × List (Pos × CellImage))
  | 0, _, _ => none
  | _ + 1, g, [] => some (g, [])
  | fuel + 1, g, p :: rest =>
    if p.1 < g.height ∧ p.2 < g.width then
      if (g.getCell p).image = CellImage.Hidden then
        let n := g.get_mines_around p
        let g' := { g.setImage p (CellImage.from_number n) with hidden := g.hidden - 1 }
        (showLoopF fuel g'
            ((if n = 0 then (g'.get_hidden_neighbors p).reverse else []) ++ rest)).map
          fun r => (r.1, (p, CellImage.from_number n) :: r.2)
      else showLoopF fuel g rest
    else none

namespace Game

/-- `Game::show` (named `show_cells` here because `show` is a Lean
keyword): if any seed is a mine the game is lost and the whole grid is
rescanned; otherwise the seeds are revealed with 0-propagation.  The
Rust work stack is a `Vec` popped from the back, so the seed list is
reversed to put the stack top first. -/
def show_cells (g : Game) (cells : List Pos) : Option (Game × List (Pos × CellImage)) :=
  match cells.find? (fun p => (g.getCell p).mine) with
  | some p =>
    let g1 := { g.setImage p CellImage.SelectedMine with game_state := GameState.AfterGame }
    let s := lossScan g1 (rowMajor g1.height g1.width)
    some (s.1, (p, CellImage.SelectedMine) :: s.2)
  | none => showLoopF (9 * (g.height * g.width) + cells.length + 1) g cells.reverse

end Game

/-- Lexicographic maximum on positions (Rust's derived `Ord` on tuples,
as used by `safe_cells.iter().max()`). -/
def posMax (a b : Pos) : Pos :=
  if a.1 < b.1 ∨ (a.1 = b.1 ∧ a.2 < b.2) then b else a

/-- The safe-zone shrink loop of `Game::start_game` (run when the mine
count exceeds the number of cells outside the safe zone): each round
draws an index below `len - 1`, redirects it to the last index if it
hits the clicked cell, `swap_remove`s the chosen safe cell and makes it
a mine.  `none` models the panic of sampling an empty range. -/
def shrinkLoop (rng : Nat → Nat) (clicked : Pos) :
    Nat → Nat → Game → List Pos → Option (Game × List Pos × Nat)
  | i, 0, g, safe => some (g, safe, i)
  | i, k + 1, g, safe =>
    match randRange? (rng i) (safe.length - 1) with
    | none => none
    | some idx =>
      let idxm := if safe.getD idx (0, 0) = clicked then safe.length - 1 else idx
      let target := safe.getD idxm (0, 0)
      shrinkLoop rng clicked (i + 1) k (g.setMine target true) (Game.swapRemove safe idxm)

/-- Row-major listing of the rectangle `[r0, r1) × [c0, c1)` (one
`fill_with_mines(row_range, col_range)` call). -/
def rectList (r0 r1 c0 c1 : Nat) : List Pos :=
  (List.range' r0 (r1 - r0)).flatMap fun r => (List.range' c0 (c1 - c0)).map fun c => (r, c)

/-- The concatenation of the four `fill_with_mines` regions of
`Game::start_game`: everything outside the bounding rectangle
`[fs.1, ls.1] × [fs.2, ls.2]` of the safe zone, in call order. -/
def fillRegion (fs ls : Pos) (h w : Nat) : List Pos :=
  rectList 0 fs.1 0 w ++ rectList fs.1 (ls.1 + 1) 0 fs.2 ++
    rectList fs.1 (ls.1 + 1) (ls.2 + 1) w ++ rectList (ls.1 + 1) h 0 w

/-- The `fill_with_mines` closure of `Game::start_game`: a single
weighted-reservoir pass.  Each cell is made a mine iff the draw below
`cells_remaining` is below `mines_remaining`; the cell image is reset to
`Hidden` either way. -/
def fillLoop (rng : Nat → Nat) :
    Nat → Game → List Pos → Nat → Nat → Option (Game × Nat)
  | i, g, [], _, _ => some (g, i)
  | i, g, q :: rest, cr, mr =>
    match randRange? (rng i) cr with
    | none => none
    | some r =>
      fillLoop rng (i + 1)
        (g.setCell q { image := CellImage.Hidden, mine := decide (r < mr) })
        rest (cr - 1) (if r < mr then mr - 1 else mr)

namespace Game

/-- `Game::start_game`: transition to `DuringGame`, lazily resize the
grid, carve out the safe zone around the click, sacrifice safe cells to
mines when the board is too full, then tile the rest with the
reservoir pass. -/
def start_game (g0 : Game) (p : Pos) (rng : Nat → Nat) : Option Game :=
  let g := { g0 with game_state := GameState.DuringGame,
                     hidden := g0.height * g0.width,
                     flags := 0,
                     grid := g0.grid.resize g0.width g0.height }
  let safe := g.get_3x3 p
  let g := safe.foldl (fun a q => a.setImage q CellImage.Hidden) g
  let cells_remaining := g.hidden - safe.length
  let fs := safe.headD (0, 0)
  let ls := safe.foldl posMax (safe.headD (0, 0))
  match (if cells_remaining < g.total_mines then
           shrinkLoop rng p 0 (g.total_mines - cells_remaining) g safe
         else some (g, safe, 0)) with
  | none => none
  | some (g1, safe1, i1) =>
    let mines_remaining :=
      if cells_remaining < g.total_mines then cells_remaining else g.total_mines
    let g2 := safe1.foldl (fun a q => a.setMine q false) g1
    match fillLoop rng i1 g2 (fillRegion fs ls g.height g.width)
        cells_remaining mines_remaining with
    | none => none
    | some (g3, _) => some g3

/-- `Game::left_click`.  The out-of-bounds `assert!` and every panic on
the inner paths surface as `none`. -/
def left_click (g : Game) (pos : Pos) (rng : Nat → Nat) :
    Option (Game × List (Pos × CellImage)) :=
  if pos.1 < g.height ∧ pos.2 < g.width then
    match (if g.game_state = GameState.BeforeGame then g.start_game pos rng else some g) with
    | none => none
    | some g1 =>
      if g1.game_state = GameState.DuringGame then
        match
          (if (g1.getCell pos).image = CellImage.Hidden then
            g1.show_cells [pos]
          else if (g1.getCell pos).image.shown = false then
            (g1.toggle_tofrom_question_marked pos).map fun x => (x.1, [x.2])
          else
            g1.show_cells (g1.get_hidden_neighbors pos)) with
        | none => none
        | some (g2, res) =>
          if g2.hidden = g2.total_mines then
            let w := g2.handle_win
            some (w.1, res ++ w.2)
          else some (g2, res)
      else some (g1, [])
  else none

/-- `Game::right_click`. -/
def right_click (g : Game) (pos : Pos) : Option (Game × List (Pos × CellImage)) :=
  if pos.1 < g.height ∧ pos.2 < g.width then
    if g.game_state = GameState.BeforeGame ∨ g.game_state = GameState.AfterGame ∨
        (g.getCell pos).image.shown = true then
      some (g, [])
    else
      (g.toggle_tofrom_hidden pos).map fun x => (x.1, [x.2])
  else none

/-- `Game::get_all_images`: all-`Hidden` while in `BeforeGame`
(masking stale grid data), otherwise the live grid contents. -/
def get_all_images (g : Game) : List (List CellImage) :=
  if g.game_state = GameState.BeforeGame then
    (List.range g.height).map fun _ => (List.range g.width).map fun _ => CellImage.Hidden
  else
    (List.range g.grid.gh).map fun r => (List.range g.grid.gw).map fun c => (g.grid.data r c).image

end Game

/-- Number of displayed cells showing `img`, over `get_all_images`. -/
def countImage (g : Game) (img : CellImage) : Nat :=
  (g.get_all_images.flatten.countP fun x => decide (x = img))

/-- Number of `Hidden` cells of the playing field (game dimensions). -/
def hiddenCountIn (g : Game) : Nat :=
  (rowMajor g.height g.width).countP fun q => decide ((g.getCell q).image = CellImage.Hidden)

/-- Number of mine cells of the playing field. -/
def mineCount (g : Game) : Nat :=
  (rowMajor g.height g.width).countP fun q => (g.getCell q).mine

/-- One public operation of the engine, as a relation between the state
before and the state after.  Clicks that panic (return `none`) produce
no successor state. -/
inductive Step : Game → Game → Prop where
  | lclick (g : Game) (p : Pos) (rng : Nat → Nat) (g' : Game) (r : List (Pos × CellImage)) :
      g.left_click p rng = some (g', r) → Step g g'
  | rclick (g : Game) (p : Pos) (g' : Game) (r : List (Pos × CellImage)) :
      g.right_click p = some (g', r) → Step g g'
  | reset (g : Game) : Step g g.reset
  | resize (g : Game) (w h m : Nat) : Step g (g.resize w h m)

/-- States reachable from a successful construction through any sequence
of public operations (with arbitrary random draws). -/
inductive Reachable : Game → Prop where
  | init (w h m : Nat) (g : Game) : Game.new w h m = some g → Reachable g
  | step (g g' : Game) : Reachable g → Step g g' → Reachable g'


/-! ## Basic access and frame lemmas -/

@[simp]
theorem Game.getCell_setCell (g : Game) (p q : Pos) (c : Cell) :
    (g.setCell p c).getCell q = if q = p then c else g.getCell q := by
  simp only [Game.setCell, Game.getCell, Prod.mk.eta]

@[simp] theorem Game.game_state_setCell (g : Game) (p : Pos) (c : Cell) :
    (g.setCell p c).game_state = g.game_state := rfl
@[simp] theorem Game.height_setCell (g : Game) (p : Pos) (c : Cell) :
    (g.setCell p c).height = g.height := rfl
@[simp] theorem Game.width_setCell (g : Game) (p : Pos) (c : Cell) :
    (g.setCell p c).width = g.width := rfl
@[simp] theorem Game.flags_setCell (g : Game) (p : Pos) (c : Cell) :
    (g.setCell p c).flags = g.flags := rfl
@[simp] theorem Game.hidden_setCell (g : Game) (p : Pos) (c : Cell) :
    (g.setCell p c).hidden = g.hidden := rfl
@[simp] theorem Game.total_setCell (g : Game) (p : Pos) (c : Cell) :
    (g.setCell p c).total_mines = g.total_mines := rfl
@[simp] theorem Game.gw_setCell (g : Game) (p : Pos) (c : Cell) :
    (g.setCell p c).grid.gw = g.grid.gw := rfl
@[simp] theorem Game.gh_setCell (g : Game) (p : Pos) (c : Cell) :
    (g.setCell p c).grid.gh = g.grid.gh := rfl

theorem Game.mine_setImage (g : Game) (p q : Pos) (i : CellImage) :
    ((g.setImage p i).getCell q).mine = (g.getCell q).mine := by
  simp only [Game.setImage, Game.getCell_setCell]
  by_cases h : q = p <;> simp [h]

/-! ## `around1` and `get_3x3` -/

theorem mem_around1 {y x bound : Nat} :
    y ∈ Game.around1 x bound ↔ y < bound ∧ x - 1 ≤ y ∧ y ≤ x + 1 := by
  unfold Game.around1
  by_cases h : x = 0 <;> simp [h, List.mem_filter] <;> omega

theorem around1_nodup (x bound : Nat) : (Game.around1 x bound).Nodup := by
  unfold Game.around1
  apply List.Nodup.filter
  by_cases h : x = 0
  · simp [h]
  · simp [h]
    omega

theorem around1_length_le (x bound : Nat) : (Game.around1 x bound).length ≤ 3 := by
  unfold Game.around1
  by_cases h : x = 0 <;> simp [h] <;>
    exact le_trans (List.length_filter_le _ _) (by simp)

theorem get_3x3_eq_product (g : Game) (p : Pos) :
    g.get_3x3 p = (Game.around1 p.1 g.height).product (Game.around1 p.2 g.width) := rfl

theorem mem_get_3x3 {g : Game} {p q : Pos} :
    q ∈ g.get_3x3 p ↔
      (q.1 < g.height ∧ p.1 - 1 ≤ q.1 ∧ q.1 ≤ p.1 + 1) ∧
      (q.2 < g.width ∧ p.2 - 1 ≤ q.2 ∧ q.2 ≤ p.2 + 1) := by
  obtain ⟨a, b⟩ := q
  rw [get_3x3_eq_product]
  rw [List.pair_mem_product]
  simp [mem_around1]

theorem get_3x3_nodup (g : Game) (p : Pos) : (g.get_3x3 p).Nodup := by
  rw [get_3x3_eq_product]
  exact List.Nodup.product (around1_nodup _ _) (around1_nodup _ _)

theorem self_mem_get_3x3 {g : Game} {p : Pos} (h1 : p.1 < g.height) (h2 : p.2 < g.width) :
    p ∈ g.get_3x3 p := by
  rw [mem_get_3x3]; omega

theorem get_3x3_length_le (g : Game) (p : Pos) : (g.get_3x3 p).length ≤ 9 := by
  rw [get_3x3_eq_product]
  show ((Game.around1 p.1 g.height) ×ˢ (Game.around1 p.2 g.width)).length ≤ 9
  rw [List.length_product]
  calc (Game.around1 p.1 g.height).length * (Game.around1 p.2 g.width).length
      ≤ 3 * 3 := Nat.mul_le_mul (around1_length_le _ _) (around1_length_le _ _)
    _ ≤ 9 := by omega



/-! ## `swap_remove` -/

/-- `swap_remove` at an in-range index removes exactly that element, up to
permutation.  This single fact powers all reasoning about the safe-zone
shrink loop. -/
theorem swapRemove_perm (l : List α) (i : Nat) (hi : i < l.length) (d : α) :
    l.Perm (l.getD i d :: Game.swapRemove l i) := by
  have hne : l ≠ [] := by
    intro h; subst h; simp at hi
  unfold Game.swapRemove
  rw [List.getLast?_eq_getLast l hne]
  dsimp only
  rw [List.set_eq_take_cons_drop _ hi, List.getD_eq_getElem l d hi]
  have hl : l = l.take i ++ l[i] :: l.drop (i + 1) := by
    conv_lhs => rw [← List.take_append_drop i l]
    rw [List.drop_eq_getElem_cons hi]
  by_cases hlast : l.length ≤ i + 1
  · -- removing the last element
    have hdrop : l.drop (i + 1) = [] := List.drop_eq_nil_of_le hlast
    rw [hdrop]
    have hdl : (l.take i ++ [l.getLast hne]).dropLast = l.take i := by simp
    rw [hdl]
    rw [hdrop] at hl
    conv_lhs => rw [hl]
    exact List.perm_append_singleton _ _
  · -- interior removal
    have hdropne : l.drop (i + 1) ≠ [] := by
      simp only [ne_eq, List.drop_eq_nil_iff]
      omega
    rw [List.dropLast_append_of_ne_nil _ (by simp : (l.getLast hne :: l.drop (i + 1)) ≠ []),
        List.dropLast_cons_of_ne_nil hdropne]
    have hgl : (l.drop (i + 1)).getLast hdropne = l.getLast hne := List.getLast_drop _
    have hdl : l.drop (i + 1) = (l.drop (i + 1)).dropLast ++ [l.getLast hne] := by
      conv_lhs => rw [← List.dropLast_append_getLast hdropne]
      rw [hgl]
    apply @List.Perm.trans _ _ (l[i] :: (l.take i ++ l.drop (i + 1)))
    · conv_lhs => rw [hl]
      exact List.perm_middle
    · apply List.Perm.cons
      apply List.Perm.append_left
      conv_lhs => rw [hdl]
      exact List.perm_append_singleton _ _

theorem swapRemove_length (l : List α) (i : Nat) (hi : i < l.length) (d : α) :
    (Game.swapRemove l i).length + 1 = l.length := by
  have := (swapRemove_perm l i hi d).length_eq
  simpa using this.symm

theorem mem_of_mem_swapRemove {l : List α} {i : Nat} (hi : i < l.length) (d : α)
    {q : α} (h : q ∈ Game.swapRemove l i) : q ∈ l :=
  (swapRemove_perm l i hi d).mem_iff.mpr (by simp [h])

theorem nodup_swapRemove {l : List α} (hl : l.Nodup) (i : Nat) (hi : i < l.length) (d : α) :
    (Game.swapRemove l i).Nodup :=
  (List.nodup_cons.mp ((swapRemove_perm l i hi d).nodup_iff.mp hl)).2

theorem getD_not_mem_swapRemove {l : List α} (hl : l.Nodup) (i : Nat) (hi : i < l.length)
    (d : α) : l.getD i d ∉ Game.swapRemove l i :=
  (List.nodup_cons.mp ((swapRemove_perm l i hi d).nodup_iff.mp hl)).1

theorem mem_swapRemove_of_ne {l : List α} {i : Nat} (hi : i < l.length) (d : α)
    {q : α} (hq : q ∈ l) (hne : q ≠ l.getD i d) : q ∈ Game.swapRemove l i := by
  have := (swapRemove_perm l i hi d).mem_iff.mp hq
  simp only [List.mem_cons] at this
  exact this.resolve_left hne

/-! ## `rowMajor` -/

theorem mem_rowMajor {h w : Nat} {q : Pos} :
    q ∈ rowMajor h w ↔ q.1 < h ∧ q.2 < w := by
  obtain ⟨a, b⟩ := q
  unfold rowMajor
  simp [List.mem_flatMap]

theorem rowMajor_nodup (h w : Nat) : (rowMajor h w).Nodup := by
  unfold rowMajor
  rw [List.nodup_flatMap]
  constructor
  · intro r _
    refine List.Nodup.map ?_ (List.nodup_range w)
    intro a b hab
    simpa using hab
  · apply List.Pairwise.imp _ (List.nodup_range h)
    intro r r' hne
    intro x hx hx'
    rw [List.mem_map] at hx hx'
    obtain ⟨c, _, hcx⟩ := hx
    obtain ⟨c', _, hcx'⟩ := hx'
    exact hne (congrArg Prod.fst (hcx.trans hcx'.symm))

theorem rowMajor_length (h w : Nat) : (rowMajor h w).length = h * w := by
  unfold rowMajor
  rw [List.length_flatMap]
  simp [Function.comp_def, List.map_const']

/-! ## Counting helpers -/

/-- Updating the cell at `p ∉ l` does not change counts over `l`. -/
theorem countP_setCell_not_mem {g : Game} {p : Pos} {c : Cell} {l : List Pos}
    (hp : p ∉ l) (P : Cell → Bool) :
    (l.countP fun q => P ((g.setCell p c).getCell q)) = l.countP fun q => P (g.getCell q) := by
  apply List.countP_congr
  intro q hq
  rw [Game.getCell_setCell]
  rw [if_neg]
  rintro rfl
  exact hp hq

/-- Updating the cell at `p ∈ l` (for `l` without duplicates) changes the
count over `l` by swapping the old cell's contribution for the new one. -/
theorem countP_setCell_mem {g : Game} {p : Pos} {c : Cell} {l : List Pos}
    (hl : l.Nodup) (hp : p ∈ l) (P : Cell → Bool) :
    (l.countP fun q => P ((g.setCell p c).getCell q)) + (if P (g.getCell p) then 1 else 0)
      = (l.countP fun q => P (g.getCell q)) + (if P c then 1 else 0) := by
  induction l with
  | nil => simp at hp
  | cons a l ih =>
    rw [List.countP_cons, List.countP_cons]
    rcases List.mem_cons.mp hp with heq | hmem
    · subst heq
      have hnot : p ∉ l := (List.nodup_cons.mp hl).1
      rw [countP_setCell_not_mem hnot]
      rw [Game.getCell_setCell, if_pos rfl]
      omega
    · have hne : a ≠ p := by
        rintro rfl
        exact (List.nodup_cons.mp hl).1 hmem
      rw [Game.getCell_setCell, if_neg hne]
      have := ih (List.nodup_cons.mp hl).2 hmem
      omega



/-! ## `from_number`, neighbour and congruence lemmas -/

theorem from_number_shown (n : Nat) : (CellImage.from_number n).shown = true := by
  unfold CellImage.from_number
  rcases n with _|_|_|_|_|_|_|_|_|n <;> rfl

theorem from_number_ne_Hidden (n : Nat) : CellImage.from_number n ≠ CellImage.Hidden := by
  intro h
  have := from_number_shown n
  rw [h] at this
  exact absurd this (by decide)

theorem from_number_ne_Flagged (n : Nat) : CellImage.from_number n ≠ CellImage.Flagged := by
  intro h
  have := from_number_shown n
  rw [h] at this
  exact absurd this (by decide)

theorem from_number_ne_QuestionMarked (n : Nat) :
    CellImage.from_number n ≠ CellImage.QuestionMarked := by
  intro h
  have := from_number_shown n
  rw [h] at this
  exact absurd this (by decide)

theorem from_number_ne_WronglyFlagged (n : Nat) :
    CellImage.from_number n ≠ CellImage.WronglyFlagged := by
  unfold CellImage.from_number
  rcases n with _|_|_|_|_|_|_|_|_|n <;> simp

/-- The images produced by `from_number` are exactly the nine numerals;
in particular `from_number` is injective below 9 (distinct mine counts
give distinct numerals). -/
theorem from_number_inj {m n : Nat} (hm : m ≤ 8) (hn : n ≤ 8)
    (h : CellImage.from_number m = CellImage.from_number n) : m = n := by
  unfold CellImage.from_number at h
  rcases m with _|_|_|_|_|_|_|_|_|m <;> rcases n with _|_|_|_|_|_|_|_|_|n <;>
    first
      | rfl
      | omega
      | (simp at h)

theorem get_3x3_setCell (g : Game) (p q : Pos) (c : Cell) :
    (g.setCell p c).get_3x3 q = g.get_3x3 q := rfl

theorem get_mines_around_setImage (g : Game) (p q : Pos) (i : CellImage) :
    (g.setImage p i).get_mines_around q = g.get_mines_around q := by
  unfold Game.get_mines_around
  rw [show (g.setImage p i).get_3x3 q = g.get_3x3 q from rfl]
  apply List.countP_congr
  intro x _
  simp [Game.mine_setImage]

/-- Mine counts agree between games with the same dimensions and mines. -/
theorem get_mines_around_congr {g g' : Game} (hh : g'.height = g.height)
    (hw : g'.width = g.width)
    (hm : ∀ q, (g'.getCell q).mine = (g.getCell q).mine) (p : Pos) :
    g'.get_mines_around p = g.get_mines_around p := by
  unfold Game.get_mines_around Game.get_3x3
  rw [hh, hw]
  apply List.countP_congr
  intro x _
  simp [hm]

theorem get_neighbors_subset {g : Game} {p q : Pos}
    (h : q ∈ g.get_neighbors p) : q ∈ g.get_3x3 p := by
  simp only [Game.get_neighbors] at h
  revert h
  cases hf : (g.get_3x3 p).findIdx? (fun x => x = p) with
  | none => exact fun h => h
  | some i =>
    intro h
    have hi : i < (g.get_3x3 p).length :=
      (List.findIdx?_eq_some_iff_findIdx_eq.mp hf).1
    exact mem_of_mem_swapRemove hi (0, 0) h

/-- The value at the index found by `findIdx? (· = p)` is `p` itself. -/
theorem findIdx_self_getD {l : List Pos} {p : Pos} {i : Nat}
    (hf : l.findIdx? (fun q => q = p) = some i) : l.getD i (0, 0) = p := by
  obtain ⟨hi, hidx⟩ := List.findIdx?_eq_some_iff_findIdx_eq.mp hf
  rw [List.getD_eq_getElem l _ hi]
  subst hidx
  exact of_decide_eq_true (List.findIdx_getElem (w := hi))

theorem mem_get_neighbors_of_ne {g : Game} {p q : Pos}
    (hq : q ∈ g.get_3x3 p) (hne : q ≠ p) : q ∈ g.get_neighbors p := by
  simp only [Game.get_neighbors]
  cases hf : (g.get_3x3 p).findIdx? (fun x => x = p) with
  | none => exact hq
  | some i =>
    dsimp only
    have hi : i < (g.get_3x3 p).length :=
      (List.findIdx?_eq_some_iff_findIdx_eq.mp hf).1
    apply mem_swapRemove_of_ne hi (0, 0) hq
    rw [findIdx_self_getD hf]
    exact hne

theorem get_neighbors_not_self {g : Game} {p : Pos} (h1 : p.1 < g.height)
    (h2 : p.2 < g.width) : p ∉ g.get_neighbors p := by
  simp only [Game.get_neighbors]
  cases hf : (g.get_3x3 p).findIdx? (fun x => x = p) with
  | none =>
    have := List.findIdx?_eq_none_iff.mp hf p (self_mem_get_3x3 h1 h2)
    simp at this
  | some i =>
    dsimp only
    have hi : i < (g.get_3x3 p).length :=
      (List.findIdx?_eq_some_iff_findIdx_eq.mp hf).1
    have hgd := findIdx_self_getD hf
    intro hmem
    have := getD_not_mem_swapRemove (get_3x3_nodup g p) i hi (0, 0)
    rw [hgd] at this
    exact this hmem

theorem get_neighbors_length_le {g : Game} {p : Pos} (h1 : p.1 < g.height)
    (h2 : p.2 < g.width) : (g.get_neighbors p).length ≤ 8 := by
  simp only [Game.get_neighbors]
  cases hf : (g.get_3x3 p).findIdx? (fun x => x = p) with
  | none =>
    have := List.findIdx?_eq_none_iff.mp hf p (self_mem_get_3x3 h1 h2)
    simp at this
  | some i =>
    dsimp only
    have hi : i < (g.get_3x3 p).length :=
      (List.findIdx?_eq_some_iff_findIdx_eq.mp hf).1
    have hlen := swapRemove_length (g.get_3x3 p) i hi (0, 0)
    have := get_3x3_length_le g p
    omega

theorem get_hidden_neighbors_length_le {g : Game} {p : Pos} (h1 : p.1 < g.height)
    (h2 : p.2 < g.width) : (g.get_hidden_neighbors p).length ≤ 8 :=
  le_trans (List.length_filter_le _ _) (get_neighbors_length_le h1 h2)

theorem mem_get_hidden_neighbors {g : Game} {p q : Pos} :
    q ∈ g.get_hidden_neighbors p ↔
      q ∈ g.get_neighbors p ∧ (g.getCell q).image = CellImage.Hidden := by
  unfold Game.get_hidden_neighbors
  rw [List.mem_filter]
  simp



/-! ## Loss scan and win scan -/

/-- The per-cell effect of the losing grid scan. -/
def lossCell (c : Cell) : Cell :=
  if c.mine = true ∧ c.image = CellImage.Hidden then { c with image := CellImage.Mine }
  else if c.mine = false ∧ c.image = CellImage.Flagged then
    { c with image := CellImage.WronglyFlagged }
  else c

/-- The per-cell effect of the winning grid scan. -/
def winCell (c : Cell) : Cell :=
  if c.mine = true ∧ c.image ≠ CellImage.Flagged then { c with image := CellImage.Flagged }
  else c

/-- The change entry the losing scan emits for a cell. -/
def lossUpd (q : Pos) (c : Cell) : Option (Pos × CellImage) :=
  if c.mine = true ∧ c.image = CellImage.Hidden then some (q, CellImage.Mine)
  else if c.mine = false ∧ c.image = CellImage.Flagged then some (q, CellImage.WronglyFlagged)
  else none

/-- The change entry the winning scan emits for a cell. -/
def winUpd (q : Pos) (c : Cell) : Option (Pos × CellImage) :=
  if c.mine = true ∧ c.image ≠ CellImage.Flagged then some (q, CellImage.Flagged) else none

/-- Full characterisation of `lossScan` on a duplicate-free scan list:
cells in the list are mapped by `lossCell`, other cells and all scalar
fields are untouched, and the returned updates are `lossUpd` in order. -/
theorem lossScan_spec (l : List Pos) (g : Game) (hl : l.Nodup) :
    (lossScan g l).1.game_state = g.game_state ∧
    (lossScan g l).1.width = g.width ∧ (lossScan g l).1.height = g.height ∧
    (lossScan g l).1.flags = g.flags ∧ (lossScan g l).1.hidden = g.hidden ∧
    (lossScan g l).1.total_mines = g.total_mines ∧
    (lossScan g l).1.grid.gw = g.grid.gw ∧ (lossScan g l).1.grid.gh = g.grid.gh ∧
    (∀ q, q ∉ l → (lossScan g l).1.getCell q = g.getCell q) ∧
    (∀ q ∈ l, (lossScan g l).1.getCell q = lossCell (g.getCell q)) ∧
    (lossScan g l).2 = l.filterMap fun q => lossUpd q (g.getCell q) := by
  induction l generalizing g with
  | nil => simp [lossScan]
  | cons a l ih =>
    have hna : a ∉ l := (List.nodup_cons.mp hl).1
    have hnd : l.Nodup := (List.nodup_cons.mp hl).2
    by_cases h1 : (g.getCell a).mine = true ∧ (g.getCell a).image = CellImage.Hidden
    · have hstep :
          lossScan g (a :: l)
            = ((lossScan (g.setImage a CellImage.Mine) l).1,
               (a, CellImage.Mine) :: (lossScan (g.setImage a CellImage.Mine) l).2) := by
        rw [lossScan]
        rw [if_pos (by simpa using h1)]
      obtain ⟨f1, f2, f3, f4, f5, f6, f7, f8, hout, hin, hres⟩ :=
        ih (g.setImage a CellImage.Mine) hnd
      rw [hstep]
      refine ⟨f1, f2, f3, f4, f5, f6, f7, f8, ?_, ?_, ?_⟩
      · intro q hq
        have hqa : q ≠ a := fun h => hq (h ▸ List.mem_cons_self a l)
        have hql : q ∉ l := fun h => hq (List.mem_cons_of_mem a h)
        rw [hout q hql, Game.setImage, Game.getCell_setCell, if_neg hqa]
      · intro q hq
        rcases List.mem_cons.mp hq with rfl | hql
        · rw [hout q hna, Game.setImage, Game.getCell_setCell, if_pos rfl]
          unfold lossCell
          rw [if_pos h1]
        · rw [hin q hql]
          have : (g.setImage a CellImage.Mine).getCell q = g.getCell q := by
            rw [Game.setImage, Game.getCell_setCell, if_neg (fun (h : q = a) => hna (h ▸ hql))]
          rw [this]
      · have hupd : lossUpd a (g.getCell a) = some (a, CellImage.Mine) := by
          unfold lossUpd
          rw [if_pos h1]
        simp only [hres, List.filterMap_cons, hupd]
        congr 1
        apply List.filterMap_congr
        intro q hq
        have hcell : (g.setImage a CellImage.Mine).getCell q = g.getCell q := by
          rw [Game.setImage, Game.getCell_setCell, if_neg (fun (h : q = a) => hna (h ▸ hq))]
        rw [hcell]
    · by_cases h2 : (g.getCell a).mine = false ∧ (g.getCell a).image = CellImage.Flagged
      · have hstep :
            lossScan g (a :: l)
              = ((lossScan (g.setImage a CellImage.WronglyFlagged) l).1,
                 (a, CellImage.WronglyFlagged)
                   :: (lossScan (g.setImage a CellImage.WronglyFlagged) l).2) := by
          rw [lossScan]
          rw [if_neg (by simpa using h1), if_pos (by simpa using h2)]
        obtain ⟨f1, f2, f3, f4, f5, f6, f7, f8, hout, hin, hres⟩ :=
          ih (g.setImage a CellImage.WronglyFlagged) hnd
        rw [hstep]
        refine ⟨f1, f2, f3, f4, f5, f6, f7, f8, ?_, ?_, ?_⟩
        · intro q hq
          have hqa : q ≠ a := fun h => hq (h ▸ List.mem_cons_self a l)
          have hql : q ∉ l := fun h => hq (List.mem_cons_of_mem a h)
          rw [hout q hql, Game.setImage, Game.getCell_setCell, if_neg hqa]
        · intro q hq
          rcases List.mem_cons.mp hq with rfl | hql
          · rw [hout q hna, Game.setImage, Game.getCell_setCell, if_pos rfl]
            unfold lossCell
            rw [if_neg h1, if_pos h2]
          · rw [hin q hql]
            have : (g.setImage a CellImage.WronglyFlagged).getCell q = g.getCell q := by
              rw [Game.setImage, Game.getCell_setCell, if_neg (fun (h : q = a) => hna (h ▸ hql))]
            rw [this]
        · have hupd : lossUpd a (g.getCell a) = some (a, CellImage.WronglyFlagged) := by
            unfold lossUpd
            rw [if_neg h1, if_pos h2]
          simp only [hres, List.filterMap_cons, hupd]
          congr 1
          apply List.filterMap_congr
          intro q hq
          have hcell : (g.setImage a CellImage.WronglyFlagged).getCell q = g.getCell q := by
            rw [Game.setImage, Game.getCell_setCell, if_neg (fun (h : q = a) => hna (h ▸ hq))]
          rw [hcell]
      · have hstep : lossScan g (a :: l) = lossScan g l := by
          rw [lossScan]
          rw [if_neg (by simpa using h1), if_neg (by simpa using h2)]
        obtain ⟨f1, f2, f3, f4, f5, f6, f7, f8, hout, hin, hres⟩ := ih g hnd
        rw [hstep]
        refine ⟨f1, f2, f3, f4, f5, f6, f7, f8, ?_, ?_, ?_⟩
        · intro q hq
          exact hout q (fun h => hq (List.mem_cons_of_mem a h))
        · intro q hq
          rcases List.mem_cons.mp hq with rfl | hql
          · by_cases hmem : q ∈ l
            · rw [hin q hmem]
            · rw [hout q hmem]
              unfold lossCell
              rw [if_neg h1, if_neg h2]
          · exact hin q hql
        · have hupd : lossUpd a (g.getCell a) = none := by
            unfold lossUpd
            rw [if_neg h1, if_neg h2]
          simp only [hres, List.filterMap_cons, hupd]



/-- Full characterisation of `winScan`, analogous to `lossScan_spec`. -/
theorem winScan_spec (l : List Pos) (g : Game) (hl : l.Nodup) :
    (winScan g l).1.game_state = g.game_state ∧
    (winScan g l).1.width = g.width ∧ (winScan g l).1.height = g.height ∧
    (winScan g l).1.flags = g.flags ∧ (winScan g l).1.hidden = g.hidden ∧
    (winScan g l).1.total_mines = g.total_mines ∧
    (winScan g l).1.grid.gw = g.grid.gw ∧ (winScan g l).1.grid.gh = g.grid.gh ∧
    (∀ q, q ∉ l → (winScan g l).1.getCell q = g.getCell q) ∧
    (∀ q ∈ l, (winScan g l).1.getCell q = winCell (g.getCell q)) ∧
    (winScan g l).2 = l.filterMap fun q => winUpd q (g.getCell q) := by
  induction l generalizing g with
  | nil => simp [winScan]
  | cons a l ih =>
    have hna : a ∉ l := (List.nodup_cons.mp hl).1
    have hnd : l.Nodup := (List.nodup_cons.mp hl).2
    by_cases h1 : (g.getCell a).mine = true ∧ (g.getCell a).image ≠ CellImage.Flagged
    · have hstep :
          winScan g (a :: l)
            = ((winScan (g.setImage a CellImage.Flagged) l).1,
               (a, CellImage.Flagged) :: (winScan (g.setImage a CellImage.Flagged) l).2) := by
        rw [winScan]
        rw [if_pos (by simpa using h1)]
      obtain ⟨f1, f2, f3, f4, f5, f6, f7, f8, hout, hin, hres⟩ :=
        ih (g.setImage a CellImage.Flagged) hnd
      rw [hstep]
      refine ⟨f1, f2, f3, f4, f5, f6, f7, f8, ?_, ?_, ?_⟩
      · intro q hq
        have hqa : q ≠ a := fun h => hq (h ▸ List.mem_cons_self a l)
        have hql : q ∉ l := fun h => hq (List.mem_cons_of_mem a h)
        rw [hout q hql, Game.setImage, Game.getCell_setCell, if_neg hqa]
      · intro q hq
        rcases List.mem_cons.mp hq with rfl | hql
        · rw [hout q hna, Game.setImage, Game.getCell_setCell, if_pos rfl]
          unfold winCell
          rw [if_pos h1]
        · rw [hin q hql]
          have hcell : (g.setImage a CellImage.Flagged).getCell q = g.getCell q := by
            rw [Game.setImage, Game.getCell_setCell, if_neg (fun (h : q = a) => hna (h ▸ hql))]
          rw [hcell]
      · have hupd : winUpd a (g.getCell a) = some (a, CellImage.Flagged) := by
          unfold winUpd
          rw [if_pos h1]
        simp only [hres, List.filterMap_cons, hupd]
        congr 1
        apply List.filterMap_congr
        intro q hq
        have hcell : (g.setImage a CellImage.Flagged).getCell q = g.getCell q := by
          rw [Game.setImage, Game.getCell_setCell, if_neg (fun (h : q = a) => hna (h ▸ hq))]
        rw [hcell]
    · have hstep : winScan g (a :: l) = winScan g l := by
        rw [winScan]
        rw [if_neg (by simpa using h1)]
      obtain ⟨f1, f2, f3, f4, f5, f6, f7, f8, hout, hin, hres⟩ := ih g hnd
      rw [hstep]
      refine ⟨f1, f2, f3, f4, f5, f6, f7, f8, ?_, ?_, ?_⟩
      · intro q hq
        exact hout q (fun h => hq (List.mem_cons_of_mem a h))
      · intro q hq
        rcases List.mem_cons.mp hq with rfl | hql
        · by_cases hmem : q ∈ l
          · rw [hin q hmem]
          · rw [hout q hmem]
            unfold winCell
            rw [if_neg h1]
        · exact hin q hql
      · have hupd : winUpd a (g.getCell a) = none := by
          unfold winUpd
          rw [if_neg h1]
        simp only [hres, List.filterMap_cons, hupd]



/-! ## The reveal loop -/

/-- Everything the reveal loop of `Game::show` guarantees, relating the
input state and stack to the output state and change list. -/
structure ShowLoopOut (g : Game) (stack : List Pos) (g' : Game)
    (res : List (Pos × CellImage)) : Prop where
  state_eq : g'.game_state = g.game_state
  width_eq : g'.width = g.width
  height_eq : g'.height = g.height
  flags_eq : g'.flags = g.flags
  total_eq : g'.total_mines = g.total_mines
  gw_eq : g'.grid.gw = g.grid.gw
  gh_eq : g'.grid.gh = g.grid.gh
  mine_eq : ∀ q, (g'.getCell q).mine = (g.getCell q).mine
  img_frame : ∀ q, (g'.getCell q).image = (g.getCell q).image ∨ q ∈ res.map Prod.fst
  res_spec : ∀ e ∈ res, e.1.1 < g.height ∧ e.1.2 < g.width ∧
      (g.getCell e.1).mine = false ∧ (g.getCell e.1).image = CellImage.Hidden ∧
      e.2 = CellImage.from_number (g.get_mines_around e.1) ∧ (g'.getCell e.1).image = e.2
  res_nodup : (res.map Prod.fst).Nodup
  hidden_eq : g'.hidden + res.length = g.hidden
  hcount_eq : hiddenCountIn g' + res.length = hiddenCountIn g
  stack_done : ∀ q ∈ stack, (g'.getCell q).image ≠ CellImage.Hidden
  zero_closure : ∀ e ∈ res, g.get_mines_around e.1 = 0 →
      ∀ t ∈ g.get_3x3 e.1, (g'.getCell t).image ≠ CellImage.Hidden

/-- The reveal loop terminates within the supplied fuel (which always
dominates `9 * hiddenCells + |stack|`), never touches mines or scalar
state, reveals each listed cell exactly once with the numeral for its
mine count, and exhausts every zero-cell's hidden neighbourhood. -/
theorem showLoopF_spec (fuel : Nat) :
    ∀ (g : Game) (stack : List Pos),
      9 * hiddenCountIn g + stack.length < fuel →
      (∀ q ∈ stack, q.1 < g.height ∧ q.2 < g.width ∧ (g.getCell q).mine = false) →
      hiddenCountIn g ≤ g.hidden →
      ∃ g' res, showLoopF fuel g stack = some (g', res) ∧ ShowLoopOut g stack g' res := by
  induction fuel with
  | zero =>
    intro g stack hfuel _ _
    omega
  | succ n ih =>
    intro g stack hfuel hstack hh
    match stack with
    | [] =>
      refine ⟨g, [], rfl, ?_⟩
      exact {
        state_eq := rfl, width_eq := rfl, height_eq := rfl, flags_eq := rfl
        total_eq := rfl, gw_eq := rfl, gh_eq := rfl
        mine_eq := fun _ => rfl
        img_frame := fun _ => Or.inl rfl
        res_spec := by simp
        res_nodup := by simp
        hidden_eq := by simp
        hcount_eq := by simp
        stack_done := by simp
        zero_closure := by simp }
    | p :: rest =>
      obtain ⟨hb1, hb2, hpm⟩ := hstack p (List.mem_cons_self p rest)
      have hrm : p ∈ rowMajor g.height g.width := mem_rowMajor.mpr ⟨hb1, hb2⟩
      by_cases himg : (g.getCell p).image = CellImage.Hidden
      · -- reveal `p`
        set m := g.get_mines_around p with hm
        set c0 : Cell := { image := CellImage.from_number m, mine := (g.getCell p).mine }
          with hc0
        set gm : Game :=
          { g.setImage p (CellImage.from_number m) with hidden := g.hidden - 1 } with hgm
        have hcellgm : ∀ q, gm.getCell q = if q = p then c0 else g.getCell q := by
          intro q
          rw [hgm]
          show (g.setImage p (CellImage.from_number m)).getCell q = _
          rw [Game.setImage, Game.getCell_setCell, ← hc0]
        have hcnt1 : 0 < hiddenCountIn g := by
          rw [hiddenCountIn, List.countP_pos_iff]
          exact ⟨p, hrm, by simp [himg]⟩
        have hcount : hiddenCountIn gm + 1 = hiddenCountIn g := by
          have hkey := countP_setCell_mem (g := g) (p := p) (c := c0)
            (l := rowMajor g.height g.width)
            (rowMajor_nodup _ _) hrm
            (fun c => decide (c.image = CellImage.Hidden))
          rw [if_pos (by simp [himg])] at hkey
          rw [if_neg (by simp [hc0, from_number_ne_Hidden])] at hkey
          have hgmcnt : hiddenCountIn gm
              = ((rowMajor g.height g.width).countP fun q =>
                  decide (((g.setCell p c0).getCell q).image = CellImage.Hidden)) := by
            rw [hiddenCountIn]
            apply List.countP_congr
            intro q _
            rw [hcellgm q, Game.getCell_setCell]
          rw [hgmcnt, hiddenCountIn]
          omega
        have hmine_gm : ∀ q, (gm.getCell q).mine = (g.getCell q).mine := by
          intro q
          rw [hcellgm q]
          by_cases hqp : q = p
          · rw [if_pos hqp, hqp]
          · rw [if_neg hqp]
        have h3x3 : ∀ q, gm.get_3x3 q = g.get_3x3 q := fun _ => rfl
        have hma : ∀ q, gm.get_mines_around q = g.get_mines_around q := by
          intro q
          exact @get_mines_around_congr g gm rfl rfl hmine_gm q
        -- the pushed stack
        set pushes : List Pos :=
          (if m = 0 then (gm.get_hidden_neighbors p).reverse else []) with hpushes
        have hpushes_mem : ∀ q ∈ pushes, q ∈ g.get_3x3 p ∧ q ≠ p ∧
            (gm.getCell q).image = CellImage.Hidden := by
          intro q hq
          rw [hpushes] at hq
          by_cases hm0 : m = 0
          · rw [if_pos hm0, List.mem_reverse, mem_get_hidden_neighbors] at hq
            obtain ⟨hqn, hqh⟩ := hq
            have hq3 : q ∈ gm.get_3x3 p := get_neighbors_subset hqn
            refine ⟨hq3, ?_, hqh⟩
            intro hqp
            subst hqp
            exact get_neighbors_not_self (g := gm) hb1 hb2 hqn
          · rw [if_neg hm0] at hq
            simp at hq
        have hpushes_len : pushes.length ≤ 8 := by
          rw [hpushes]
          by_cases hm0 : m = 0
          · rw [if_pos hm0, List.length_reverse]
            exact get_hidden_neighbors_length_le (g := gm) hb1 hb2
          · rw [if_neg hm0]
            simp
        have hfuel' : 9 * hiddenCountIn gm + (pushes ++ rest).length < n := by
          rw [List.length_append]
          simp only [List.length_cons] at hfuel
          omega
        have hstack' : ∀ q ∈ pushes ++ rest,
            q.1 < gm.height ∧ q.2 < gm.width ∧ (gm.getCell q).mine = false := by
          intro q hq
          rcases List.mem_append.mp hq with hq | hq
          · obtain ⟨hq3, hqp, _⟩ := hpushes_mem q hq
            have hbq := mem_get_3x3.mp (show q ∈ g.get_3x3 p from hq3)
            refine ⟨hbq.1.1, hbq.2.1, ?_⟩
            rw [hmine_gm q]
            -- q lies in the 3×3 block of a zero-count cell, so it is no mine
            have hm0 : m = 0 := by
              by_contra hne0
              rw [hpushes, if_neg hne0] at hq
              simp at hq
            have hz1 : (g.get_3x3 p).countP (fun x => (g.getCell x).mine) = 0 := by
              rw [show (g.get_3x3 p).countP (fun x => (g.getCell x).mine)
                  = g.get_mines_around p from rfl, ← hm]
              exact hm0
            have := List.countP_eq_zero.mp hz1 q hq3
            simpa using this
          · obtain ⟨hq1, hq2, hq3⟩ := hstack q (List.mem_cons_of_mem p hq)
            exact ⟨hq1, hq2, by rw [hmine_gm q]; exact hq3⟩
        have hh' : hiddenCountIn gm ≤ gm.hidden := by
          have : gm.hidden = g.hidden - 1 := rfl
          omega
        obtain ⟨g'', res', heq, O⟩ := ih gm (pushes ++ rest) hfuel' hstack' hh'
        -- assemble the step
        have hstep : showLoopF (n + 1) g (p :: rest)
            = some (g'', (p, CellImage.from_number m) :: res') := by
          simp only [showLoopF]
          rw [if_pos ⟨hb1, hb2⟩, if_pos himg]
          rw [← hm, ← hgm]
          rw [show ((if m = 0 then (gm.get_hidden_neighbors p).reverse else []) ++ rest)
              = pushes ++ rest from rfl]
          rw [heq, Option.map_some']
        refine ⟨g'', (p, CellImage.from_number m) :: res', hstep, ?_⟩
        -- `p`'s final image
        have hp_not_res' : p ∉ res'.map Prod.fst := by
          intro hmem
          rw [List.mem_map] at hmem
          obtain ⟨e, he, hfst⟩ := hmem
          have := (O.res_spec e he).2.2.2.1
          rw [hfst] at this
          rw [hcellgm p, if_pos rfl] at this
          exact from_number_ne_Hidden m (by simpa [hc0] using this)
        have hp_final : (g''.getCell p).image = CellImage.from_number m := by
          rcases O.img_frame p with h | h
          · rw [h, hcellgm p, if_pos rfl]
          · exact absurd h hp_not_res'
        refine {
          state_eq := O.state_eq
          width_eq := O.width_eq
          height_eq := O.height_eq
          flags_eq := O.flags_eq
          total_eq := O.total_eq
          gw_eq := O.gw_eq
          gh_eq := O.gh_eq
          mine_eq := fun q => (O.mine_eq q).trans (hmine_gm q)
          img_frame := ?_
          res_spec := ?_
          res_nodup := ?_
          hidden_eq := ?_
          hcount_eq := ?_
          stack_done := ?_
          zero_closure := ?_ }
        · -- img_frame
          intro q
          rcases O.img_frame q with h | h
          · by_cases hqp : q = p
            · right
              rw [hqp]
              simp
            · left
              rw [h, hcellgm q, if_neg hqp]
          · right
            simp only [List.map_cons, List.mem_cons]
            exact Or.inr h
        · -- res_spec
          intro e he
          rcases List.mem_cons.mp he with rfl | he'
          · exact ⟨hb1, hb2, hpm, himg, rfl, hp_final⟩
          · obtain ⟨e1, e2, e3, e4, e5, e6⟩ := O.res_spec e he'
            have hep : e.1 ≠ p := by
              intro h
              rw [h, hcellgm p, if_pos rfl] at e4
              exact from_number_ne_Hidden m (by simpa [hc0] using e4)
            have hcell : g.getCell e.1 = gm.getCell e.1 := by
              rw [hcellgm e.1, if_neg hep]
            refine ⟨e1, e2, ?_, ?_, ?_, e6⟩
            · rw [hcell]; exact e3
            · rw [hcell]; exact e4
            · rw [e5, hma e.1]
        · -- res_nodup
          simp only [List.map_cons]
          rw [List.nodup_cons]
          exact ⟨hp_not_res', O.res_nodup⟩
        · -- hidden_eq
          have h1 := O.hidden_eq
          have h2 : gm.hidden = g.hidden - 1 := rfl
          simp only [List.length_cons]
          omega
        · -- hcount_eq
          have h1 := O.hcount_eq
          simp only [List.length_cons]
          omega
        · -- stack_done
          intro q hq
          rcases List.mem_cons.mp hq with rfl | hq'
          · rw [hp_final]
            exact from_number_ne_Hidden m
          · exact O.stack_done q (List.mem_append.mpr (Or.inr hq'))
        · -- zero_closure
          intro e he hz t ht
          rcases List.mem_cons.mp he with rfl | he'
          · -- the head cell: every 3×3 neighbour ends up non-hidden
            have hm0 : m = 0 := by rw [hm]; exact hz
            by_cases himgt : (gm.getCell t).image = CellImage.Hidden
            · have htp : t ≠ p := by
                intro h
                rw [h, hcellgm p, if_pos rfl] at himgt
                exact from_number_ne_Hidden m (by simpa [hc0] using himgt)
              have htn : t ∈ gm.get_neighbors p :=
                mem_get_neighbors_of_ne (by exact ht) htp
              have hthn : t ∈ gm.get_hidden_neighbors p :=
                mem_get_hidden_neighbors.mpr ⟨htn, himgt⟩
              have htpush : t ∈ pushes := by
                rw [hpushes, if_pos hm0, List.mem_reverse]
                exact hthn
              exact O.stack_done t (List.mem_append.mpr (Or.inl htpush))
            · rcases O.img_frame t with h | h
              · rw [h]; exact himgt
              · rw [List.mem_map] at h
                obtain ⟨e', he', hfst⟩ := h
                have := (O.res_spec e' he').2.2.2.2
                rw [hfst] at this
                rw [this.2, this.1]
                exact from_number_ne_Hidden _
          · -- a tail cell: use the inner closure
            have hz' : gm.get_mines_around e.1 = 0 := by rw [hma e.1]; exact hz
            exact O.zero_closure e he' hz' t (by exact ht)
      · -- skip `p`
        have hfuel' : 9 * hiddenCountIn g + rest.length < n := by
          simp only [List.length_cons] at hfuel
          omega
        have hstack' : ∀ q ∈ rest, q.1 < g.height ∧ q.2 < g.width ∧
            (g.getCell q).mine = false :=
          fun q hq => hstack q (List.mem_cons_of_mem p hq)
        obtain ⟨g'', res', heq, O⟩ := ih g rest hfuel' hstack' hh
        have hstep : showLoopF (n + 1) g (p :: rest) = some (g'', res') := by
          rw [showLoopF]
          rw [if_pos ⟨hb1, hb2⟩, if_neg himg]
          exact heq
        refine ⟨g'', res', hstep, ?_⟩
        refine {
          state_eq := O.state_eq
          width_eq := O.width_eq
          height_eq := O.height_eq
          flags_eq := O.flags_eq
          total_eq := O.total_eq
          gw_eq := O.gw_eq
          gh_eq := O.gh_eq
          mine_eq := O.mine_eq
          img_frame := O.img_frame
          res_spec := O.res_spec
          res_nodup := O.res_nodup
          hidden_eq := O.hidden_eq
          hcount_eq := O.hcount_eq
          stack_done := ?_
          zero_closure := O.zero_closure }
        intro q hq
        rcases List.mem_cons.mp hq with rfl | hq'
        · rcases O.img_frame q with h | h
          · rw [h]; exact himg
          · rw [List.mem_map] at h
            obtain ⟨e', he', hfst⟩ := h
            have := (O.res_spec e' he').2.2.2.2
            rw [hfst] at this
            rw [this.2, this.1]
            exact from_number_ne_Hidden _
        · exact O.stack_done q hq'



/-! ## `show_cells`, `handle_win`, toggles -/

theorem hiddenCountIn_le_area (g : Game) : hiddenCountIn g ≤ g.height * g.width := by
  rw [hiddenCountIn, ← rowMajor_length g.height g.width]
  exact List.countP_le_length _

/-- The reveal path of `Game::show`: when no seed is a mine, the call
succeeds and satisfies the full loop contract on the reversed seeds. -/
theorem show_cells_spec_no_mine {g : Game} {cells : List Pos}
    (hno : ∀ q ∈ cells, (g.getCell q).mine = false)
    (hb : ∀ q ∈ cells, q.1 < g.height ∧ q.2 < g.width)
    (hh : hiddenCountIn g ≤ g.hidden) :
    ∃ g' res, g.show_cells cells = some (g', res) ∧ ShowLoopOut g cells.reverse g' res := by
  have hfind : cells.find? (fun p => (g.getCell p).mine) = none := by
    rw [List.find?_eq_none]
    intro x hx
    simp [hno x hx]
  have hfuel : 9 * hiddenCountIn g + cells.reverse.length
      < 9 * (g.height * g.width) + cells.length + 1 := by
    have := hiddenCountIn_le_area g
    rw [List.length_reverse]
    omega
  have hstack : ∀ q ∈ cells.reverse, q.1 < g.height ∧ q.2 < g.width ∧
      (g.getCell q).mine = false := by
    intro q hq
    rw [List.mem_reverse] at hq
    exact ⟨(hb q hq).1, (hb q hq).2, hno q hq⟩
  obtain ⟨g', res, heq, O⟩ := showLoopF_spec _ g cells.reverse hfuel hstack hh
  refine ⟨g', res, ?_, O⟩
  rw [Game.show_cells, hfind]
  exact heq

/-- The loss path of `Game::show`: characterisation when some seed is a
mine (`p` being the first). -/
theorem show_cells_spec_mine {g : Game} {cells : List Pos} {p : Pos}
    (hfind : cells.find? (fun q => (g.getCell q).mine) = some p) :
    ∃ gL resL, g.show_cells cells = some (gL, (p, CellImage.SelectedMine) :: resL) ∧
      gL.game_state = GameState.AfterGame ∧
      gL.width = g.width ∧ gL.height = g.height ∧
      gL.flags = g.flags ∧ gL.hidden = g.hidden ∧ gL.total_mines = g.total_mines ∧
      gL.grid.gw = g.grid.gw ∧ gL.grid.gh = g.grid.gh ∧
      (∀ q ∈ rowMajor g.height g.width,
        gL.getCell q = lossCell ((g.setImage p CellImage.SelectedMine).getCell q)) ∧
      (∀ q, q ∉ rowMajor g.height g.width →
        gL.getCell q = (g.setImage p CellImage.SelectedMine).getCell q) ∧
      resL = (rowMajor g.height g.width).filterMap
        (fun q => lossUpd q ((g.setImage p CellImage.SelectedMine).getCell q)) := by
  have hstep : g.show_cells cells
      = some ((lossScan { g.setImage p CellImage.SelectedMine with
            game_state := GameState.AfterGame } (rowMajor g.height g.width)).1,
          (p, CellImage.SelectedMine)
            :: (lossScan { g.setImage p CellImage.SelectedMine with
                game_state := GameState.AfterGame } (rowMajor g.height g.width)).2) := by
    rw [Game.show_cells, hfind]
    rfl
  set g1 : Game := { g.setImage p CellImage.SelectedMine with
      game_state := GameState.AfterGame } with hg1
  obtain ⟨f1, f2, f3, f4, f5, f6, f7, f8, hout, hin, hres⟩ :=
    lossScan_spec (rowMajor g.height g.width) g1 (rowMajor_nodup _ _)
  refine ⟨(lossScan g1 (rowMajor g.height g.width)).1,
    (lossScan g1 (rowMajor g.height g.width)).2, hstep, ?_, ?_, ?_, ?_, ?_, ?_, ?_, ?_,
    ?_, ?_, ?_⟩
  · exact f1
  · exact f2
  · exact f3
  · exact f4
  · exact f5
  · exact f6
  · exact f7
  · exact f8
  · intro q hq
    exact hin q hq
  · intro q hq
    exact hout q hq
  · exact hres

/-- Characterisation of `Game::handle_win`. -/
theorem handle_win_spec (g : Game) :
    (g.handle_win).1.game_state = GameState.AfterGame ∧
    (g.handle_win).1.width = g.width ∧ (g.handle_win).1.height = g.height ∧
    (g.handle_win).1.flags = g.total_mines ∧ (g.handle_win).1.hidden = g.hidden ∧
    (g.handle_win).1.total_mines = g.total_mines ∧
    (g.handle_win).1.grid.gw = g.grid.gw ∧ (g.handle_win).1.grid.gh = g.grid.gh ∧
    (∀ q ∈ rowMajor g.height g.width, (g.handle_win).1.getCell q = winCell (g.getCell q)) ∧
    (∀ q, q ∉ rowMajor g.height g.width → (g.handle_win).1.getCell q = g.getCell q) ∧
    (g.handle_win).2 = (rowMajor g.height g.width).filterMap
      (fun q => winUpd q (g.getCell q)) := by
  set g1 : Game := { g with game_state := GameState.AfterGame } with hg1
  obtain ⟨f1, f2, f3, f4, f5, f6, f7, f8, hout, hin, hres⟩ :=
    winScan_spec (rowMajor g.height g.width) g1 (rowMajor_nodup _ _)
  have hugly : g.handle_win
      = ({ (winScan g1 (rowMajor g.height g.width)).1 with
          flags := (winScan g1 (rowMajor g.height g.width)).1.total_mines },
         (winScan g1 (rowMajor g.height g.width)).2) := rfl
  rw [hugly]
  have hcg : ∀ q, ({ (winScan g1 (rowMajor g.height g.width)).1 with
      flags := (winScan g1 (rowMajor g.height g.width)).1.total_mines } : Game).getCell q
      = (winScan g1 (rowMajor g.height g.width)).1.getCell q := fun _ => rfl
  refine ⟨?_, ?_, ?_, ?_, ?_, ?_, ?_, ?_, ?_, ?_, ?_⟩
  · show (winScan g1 (rowMajor g.height g.width)).1.game_state = _
    exact f1
  · exact f2
  · exact f3
  · show (winScan g1 (rowMajor g.height g.width)).1.total_mines = g.total_mines
    exact f6
  · exact f5
  · exact f6
  · exact f7
  · exact f8
  · intro q hq
    exact (hcg q).trans (hin q hq)
  · intro q hq
    exact (hcg q).trans (hout q hq)
  · exact hres



/-! ## Fold and loop lemmas for `start_game` -/

/-- Effect of the image-resetting fold over a list of positions. -/
theorem foldl_setImage_spec (l : List Pos) (img : CellImage) (g : Game) :
    (∀ q, (l.foldl (fun a q => a.setImage q img) g).getCell q
        = if q ∈ l then { image := img, mine := (g.getCell q).mine } else g.getCell q) ∧
    (l.foldl (fun a q => a.setImage q img) g).game_state = g.game_state ∧
    (l.foldl (fun a q => a.setImage q img) g).width = g.width ∧
    (l.foldl (fun a q => a.setImage q img) g).height = g.height ∧
    (l.foldl (fun a q => a.setImage q img) g).flags = g.flags ∧
    (l.foldl (fun a q => a.setImage q img) g).hidden = g.hidden ∧
    (l.foldl (fun a q => a.setImage q img) g).total_mines = g.total_mines ∧
    (l.foldl (fun a q => a.setImage q img) g).grid.gw = g.grid.gw ∧
    (l.foldl (fun a q => a.setImage q img) g).grid.gh = g.grid.gh := by
  induction l generalizing g with
  | nil => simp
  | cons a t ih =>
    obtain ⟨hc, f1, f2, f3, f4, f5, f6, f7, f8⟩ := ih (g.setImage a img)
    rw [List.foldl_cons]
    refine ⟨?_, f1, f2, f3, f4, f5, f6, f7, f8⟩
    intro q
    rw [hc q]
    by_cases hqt : q ∈ t
    · rw [if_pos hqt, if_pos (List.mem_cons_of_mem a hqt)]
      rw [Game.setImage, Game.getCell_setCell]
      by_cases hqa : q = a <;> simp [hqa]
    · rw [if_neg hqt]
      rw [Game.setImage, Game.getCell_setCell]
      by_cases hqa : q = a
      · rw [if_pos hqa, if_pos (by rw [hqa]; exact List.mem_cons_self a t)]
        rw [hqa]
      · rw [if_neg hqa, if_neg (by simp [hqa, hqt])]

/-- Effect of the mine-clearing fold over a list of positions. -/
theorem foldl_setMine_spec (l : List Pos) (b : Bool) (g : Game) :
    (∀ q, (l.foldl (fun a q => a.setMine q b) g).getCell q
        = if q ∈ l then { image := (g.getCell q).image, mine := b } else g.getCell q) ∧
    (l.foldl (fun a q => a.setMine q b) g).game_state = g.game_state ∧
    (l.foldl (fun a q => a.setMine q b) g).width = g.width ∧
    (l.foldl (fun a q => a.setMine q b) g).height = g.height ∧
    (l.foldl (fun a q => a.setMine q b) g).flags = g.flags ∧
    (l.foldl (fun a q => a.setMine q b) g).hidden = g.hidden ∧
    (l.foldl (fun a q => a.setMine q b) g).total_mines = g.total_mines ∧
    (l.foldl (fun a q => a.setMine q b) g).grid.gw = g.grid.gw ∧
    (l.foldl (fun a q => a.setMine q b) g).grid.gh = g.grid.gh := by
  induction l generalizing g with
  | nil => simp
  | cons a t ih =>
    obtain ⟨hc, f1, f2, f3, f4, f5, f6, f7, f8⟩ := ih (g.setMine a b)
    rw [List.foldl_cons]
    refine ⟨?_, f1, f2, f3, f4, f5, f6, f7, f8⟩
    intro q
    rw [hc q]
    by_cases hqt : q ∈ t
    · rw [if_pos hqt, if_pos (List.mem_cons_of_mem a hqt)]
      rw [Game.setMine, Game.getCell_setCell]
      by_cases hqa : q = a <;> simp [hqa]
    · rw [if_neg hqt]
      rw [Game.setMine, Game.getCell_setCell]
      by_cases hqa : q = a
      · rw [if_pos hqa, if_pos (by rw [hqa]; exact List.mem_cons_self a t)]
        rw [hqa]
      · rw [if_neg hqa, if_neg (by simp [hqa, hqt])]

/-- The shrink loop panics (`none`) when asked for more sacrifices than
the safe list can provide. -/
theorem shrinkLoop_fail (rng : Nat → Nat) (clicked : Pos) :
    ∀ (n i : Nat) (g : Game) (safe : List Pos),
      1 ≤ safe.length → safe.length ≤ n →
      shrinkLoop rng clicked i n g safe = none := by
  intro n
  induction n with
  | zero =>
    intro i g safe h1 h2
    omega
  | succ k ih =>
    intro i g safe h1 h2
    rw [shrinkLoop]
    by_cases hlen : safe.length = 1
    · rw [show randRange? (rng i) (safe.length - 1) = none by
        rw [randRange?, if_pos (by omega)]]
    · have hlen2 : 2 ≤ safe.length := by omega
      rw [show randRange? (rng i) (safe.length - 1)
          = some (rng i % (safe.length - 1)) by
        rw [randRange?, if_neg (by omega)]]
      dsimp only
      apply ih
      · have hidxm : (if safe.getD (rng i % (safe.length - 1)) (0, 0) = clicked
            then safe.length - 1 else rng i % (safe.length - 1)) < safe.length := by
          by_cases hc : safe.getD (rng i % (safe.length - 1)) (0, 0) = clicked
          · rw [if_pos hc]; omega
          · rw [if_neg hc]
            have := Nat.mod_lt (rng i) (y := safe.length - 1) (by omega)
            omega
        have := swapRemove_length safe _ hidxm (0, 0)
        omega
      · have hidxm : (if safe.getD (rng i % (safe.length - 1)) (0, 0) = clicked
            then safe.length - 1 else rng i % (safe.length - 1)) < safe.length := by
          by_cases hc : safe.getD (rng i % (safe.length - 1)) (0, 0) = clicked
          · rw [if_pos hc]; omega
          · rw [if_neg hc]
            have := Nat.mod_lt (rng i) (y := safe.length - 1) (by omega)
            omega
        have := swapRemove_length safe _ hidxm (0, 0)
        omega



/-- Success and full effect of the shrink loop: it removes `n` cells
from the safe list (never the clicked one), marks exactly those as
mines (preserving their images), and touches nothing else. -/
theorem shrinkLoop_spec (rng : Nat → Nat) (clicked : Pos) :
    ∀ (n i : Nat) (g : Game) (safe : List Pos),
      safe.Nodup → clicked ∈ safe → n + 1 ≤ safe.length →
      ∃ g' safe' i' removed,
        shrinkLoop rng clicked i n g safe = some (g', safe', i') ∧
        safe'.length + n = safe.length ∧
        safe'.Nodup ∧
        clicked ∈ safe' ∧
        safe.Perm (safe' ++ removed) ∧
        removed.length = n ∧
        (∀ q, q ∉ safe → g'.getCell q = g.getCell q) ∧
        (∀ q ∈ safe', g'.getCell q = g.getCell q) ∧
        (∀ q ∈ removed, g'.getCell q
          = { image := (g.getCell q).image, mine := true }) ∧
        g'.game_state = g.game_state ∧ g'.width = g.width ∧ g'.height = g.height ∧
        g'.flags = g.flags ∧ g'.hidden = g.hidden ∧
        g'.total_mines = g.total_mines ∧
        g'.grid.gw = g.grid.gw ∧ g'.grid.gh = g.grid.gh := by
  intro n
  induction n with
  | zero =>
    intro i g safe hnd hcl _
    exact ⟨g, safe, i, [], rfl, by simp, hnd, hcl, by simp, rfl,
      fun _ _ => rfl, fun _ _ => rfl, by simp,
      rfl, rfl, rfl, rfl, rfl, rfl, rfl, rfl⟩
  | succ k ih =>
    intro i g safe hnd hcl hlen
    have hlen2 : 2 ≤ safe.length := by omega
    rw [shrinkLoop]
    rw [show randRange? (rng i) (safe.length - 1)
        = some (rng i % (safe.length - 1)) by
      rw [randRange?, if_neg (by omega)]]
    dsimp only
    set idx := rng i % (safe.length - 1) with hidx
    have hidxlt : idx < safe.length - 1 := Nat.mod_lt _ (by omega)
    set idxm := (if safe.getD idx (0, 0) = clicked then safe.length - 1 else idx)
      with hidxm
    have hidxmlt : idxm < safe.length := by
      rw [hidxm]
      by_cases hc : safe.getD idx (0, 0) = clicked
      · rw [if_pos hc]; omega
      · rw [if_neg hc]; omega
    set target := safe.getD idxm (0, 0) with htarget
    have htcl : target ≠ clicked := by
      rw [htarget, hidxm]
      by_cases hc : safe.getD idx (0, 0) = clicked
      · rw [if_pos hc]
        intro hlast
        rw [List.getD_eq_getElem _ _ (show safe.length - 1 < safe.length by omega)]
          at hlast
        rw [List.getD_eq_getElem _ _ (show idx < safe.length by omega)] at hc
        have : safe.length - 1 = idx := by
          apply (List.Nodup.getElem_inj_iff hnd).mp
          rw [hlast, hc]
        omega
      · rw [if_neg hc]
        exact hc
    have hperm0 : safe.Perm (target :: Game.swapRemove safe idxm) :=
      swapRemove_perm safe idxm hidxmlt (0, 0)
    have htmem : target ∈ safe := by
      rw [htarget, List.getD_eq_getElem _ _ hidxmlt]
      exact List.getElem_mem _
    have hnd' : (Game.swapRemove safe idxm).Nodup :=
      nodup_swapRemove hnd idxm hidxmlt (0, 0)
    have hcl' : clicked ∈ Game.swapRemove safe idxm :=
      mem_swapRemove_of_ne hidxmlt (0, 0) hcl (by rw [← htarget]; exact Ne.symm htcl)
    have htnot : target ∉ Game.swapRemove safe idxm := by
      have := getD_not_mem_swapRemove hnd idxm hidxmlt (0, 0)
      rw [← htarget] at this
      exact this
    have hlen' : k + 1 ≤ (Game.swapRemove safe idxm).length := by
      have := swapRemove_length safe idxm hidxmlt (0, 0)
      omega
    obtain ⟨g', safe', i', removed', heq, hl, hnd'', hcl'', hperm', hrl, hout, hkeep,
      hrem, f1, f2, f3, f4, f5, f6, f7, f8⟩ :=
      ih (i + 1) (g.setMine target true) (Game.swapRemove safe idxm) hnd' hcl' hlen'
    refine ⟨g', safe', i', target :: removed', heq, ?_, hnd'', hcl'', ?_, ?_,
      ?_, ?_, ?_, f1, f2, f3, f4, f5, f6, f7, f8⟩
    · have := swapRemove_length safe idxm hidxmlt (0, 0)
      omega
    · -- safe ~ safe' ++ target :: removed'
      refine hperm0.trans ?_
      refine (List.Perm.cons target hperm').trans ?_
      exact List.perm_middle.symm
    · simp [hrl]
    · -- untouched outside `safe`
      intro q hq
      have hq1 : q ∉ Game.swapRemove safe idxm :=
        fun h => hq (mem_of_mem_swapRemove hidxmlt (0, 0) h)
      have hq2 : q ≠ target := fun h => hq (h ▸ htmem)
      rw [hout q hq1, Game.setMine, Game.getCell_setCell, if_neg hq2]
    · -- cells still in the safe list are untouched
      intro q hq
      have hq2 : q ≠ target := by
        intro h
        apply htnot
        rw [← h]
        have hqs : q ∈ safe' ++ removed' := List.mem_append.mpr (Or.inl hq)
        exact hperm'.mem_iff.mpr hqs
      rw [hkeep q hq, Game.setMine, Game.getCell_setCell, if_neg hq2]
    · -- removed cells carry `mine := true` with their old image
      intro q hq
      rcases List.mem_cons.mp hq with heq | hq'
      · rw [heq]
        rw [hout target htnot, Game.setMine, Game.getCell_setCell, if_pos rfl]
      · have hqmem : q ∈ Game.swapRemove safe idxm := by
          have hqs : q ∈ safe' ++ removed' := List.mem_append.mpr (Or.inr hq')
          exact hperm'.mem_iff.mpr hqs
        have hq2 : q ≠ target := fun h => htnot (h ▸ hqmem)
        rw [hrem q hq', Game.setMine, Game.getCell_setCell, if_neg hq2]

/-- Success and full effect of the reservoir fill pass: with
`cells_remaining` equal to the number of cells left, the pass always
succeeds, resets each listed cell to `Hidden`, and places exactly
`mines_remaining` mines among the listed cells (whatever the draws). -/
theorem fillLoop_spec (rng : Nat → Nat) :
    ∀ (l : List Pos) (i : Nat) (g : Game) (mr : Nat),
      l.Nodup → mr ≤ l.length →
      ∃ g' i', fillLoop rng i g l l.length mr = some (g', i') ∧
        (∀ q, q ∉ l → g'.getCell q = g.getCell q) ∧
        (∀ q ∈ l, (g'.getCell q).image = CellImage.Hidden) ∧
        (l.countP fun q => (g'.getCell q).mine) = mr ∧
        g'.game_state = g.game_state ∧ g'.width = g.width ∧ g'.height = g.height ∧
        g'.flags = g.flags ∧ g'.hidden = g.hidden ∧
        g'.total_mines = g.total_mines ∧
        g'.grid.gw = g.grid.gw ∧ g'.grid.gh = g.grid.gh := by
  intro l
  induction l with
  | nil =>
    intro i g mr _ hmr
    simp only [List.length_nil, Nat.le_zero] at hmr
    subst hmr
    exact ⟨g, i, rfl, fun _ _ => rfl, by simp, by simp,
      rfl, rfl, rfl, rfl, rfl, rfl, rfl, rfl⟩
  | cons a t ih =>
    intro i g mr hnd hmr
    have hna : a ∉ t := (List.nodup_cons.mp hnd).1
    rw [fillLoop]
    rw [show randRange? (rng i) (a :: t).length = some (rng i % (a :: t).length) by
      rw [randRange?, if_neg (by simp)]]
    dsimp only
    set r := rng i % (a :: t).length with hr
    have hrlt : r < (a :: t).length := Nat.mod_lt _ (by simp)
    have hmr' : (if r < mr then mr - 1 else mr) ≤ t.length := by
      by_cases hrm : r < mr
      · rw [if_pos hrm]
        simp only [List.length_cons] at hmr
        omega
      · rw [if_neg hrm]
        simp only [List.length_cons] at hrlt
        omega
    obtain ⟨g', i', heq, hout, himg, hcnt, f1, f2, f3, f4, f5, f6, f7, f8⟩ :=
      ih (i + 1) (g.setCell a { image := CellImage.Hidden, mine := decide (r < mr) })
        (if r < mr then mr - 1 else mr) (List.nodup_cons.mp hnd).2 hmr'
    have hlt : (a :: t).length - 1 = t.length := by simp
    rw [hlt, heq]
    have hacell : g'.getCell a
        = { image := CellImage.Hidden, mine := decide (r < mr) } := by
      rw [hout a hna, Game.getCell_setCell, if_pos rfl]
    refine ⟨g', i', rfl, ?_, ?_, ?_, f1, f2, f3, f4, f5, f6, f7, f8⟩
    · intro q hq
      have hq1 : q ∉ t := fun h => hq (List.mem_cons_of_mem a h)
      have hq2 : q ≠ a := fun h => hq (h ▸ List.mem_cons_self a t)
      rw [hout q hq1, Game.getCell_setCell, if_neg hq2]
    · intro q hq
      rcases List.mem_cons.mp hq with rfl | hq'
      · rw [hacell]
      · exact himg q hq'
    · rw [List.countP_cons, hcnt, hacell]
      by_cases hrm : r < mr
      · rw [if_pos hrm]
        have hm1 : 1 ≤ mr := by omega
        simp [hrm]
        omega
      · rw [if_neg hrm]
        simp [hrm]



/-! ## Geometry of the safe zone and the fill region -/

/-- Lexicographic "below or equal" on positions. -/
def posLe (y z : Pos) : Prop := y.1 < z.1 ∨ (y.1 = z.1 ∧ y.2 ≤ z.2)

theorem posLe_posMax_left (a b : Pos) : posLe a (posMax a b) := by
  unfold posMax posLe
  by_cases h : a.1 < b.1 ∨ (a.1 = b.1 ∧ a.2 < b.2)
  · rw [if_pos h]; omega
  · rw [if_neg h]; omega

theorem posLe_posMax_right (a b : Pos) : posLe b (posMax a b) := by
  unfold posMax posLe
  by_cases h : a.1 < b.1 ∨ (a.1 = b.1 ∧ a.2 < b.2)
  · rw [if_pos h]; omega
  · rw [if_neg h]
    push_neg at h
    omega

theorem posLe_trans {a b c : Pos} (h1 : posLe a b) (h2 : posLe b c) : posLe a c := by
  unfold posLe at *
  omega

theorem foldl_posMax_mem (l : List Pos) (a : Pos) :
    l.foldl posMax a = a ∨ l.foldl posMax a ∈ l := by
  induction l generalizing a with
  | nil => simp
  | cons b t ih =>
    rw [List.foldl_cons]
    rcases ih (posMax a b) with h | h
    · rw [h]
      unfold posMax
      by_cases hc : a.1 < b.1 ∨ (a.1 = b.1 ∧ a.2 < b.2)
      · rw [if_pos hc]; right; exact List.mem_cons_self b t
      · rw [if_neg hc]; left; rfl
    · right; exact List.mem_cons_of_mem b h

theorem foldl_posMax_ge (l : List Pos) (a : Pos) :
    ∀ y, (y = a ∨ y ∈ l) → posLe y (l.foldl posMax a) := by
  induction l generalizing a with
  | nil =>
    intro y hy
    rcases hy with rfl | hy
    · rw [List.foldl_nil]
      unfold posLe; omega
    · simp at hy
  | cons b t ih =>
    intro y hy
    rw [List.foldl_cons]
    rcases hy with rfl | hy
    · exact posLe_trans (posLe_posMax_left y b) (ih (posMax y b) _ (Or.inl rfl))
    · rcases List.mem_cons.mp hy with rfl | hyt
      · exact posLe_trans (posLe_posMax_right a y) (ih (posMax a y) _ (Or.inl rfl))
      · exact ih (posMax a b) y (Or.inr hyt)

theorem around1_ne_nil {x b : Nat} (h : x < b) : Game.around1 x b ≠ [] := by
  intro hc
  have : x ∈ Game.around1 x b := mem_around1.mpr (by omega)
  rw [hc] at this
  simp at this

theorem around1_headD {x b : Nat} (h : x < b) : (Game.around1 x b).headD 0 = x - 1 := by
  unfold Game.around1
  by_cases hx : x = 0
  · subst hx
    rw [if_pos rfl]
    have h0 : (0 : Nat) < b := h
    simp [List.filter_cons, h0]
  · rw [if_neg hx]
    have h1 : x - 1 < b := by omega
    simp [List.filter_cons, h1]

theorem around1_length {x b : Nat} (h : x < b) :
    (Game.around1 x b).length = min (x + 1) (b - 1) + 1 - (x - 1) := by
  unfold Game.around1
  by_cases hx : x = 0
  · subst hx
    rw [if_pos rfl]
    by_cases hb : 1 < b
    · simp [List.filter_cons, h, hb]
      omega
    · have hb1 : b = 1 := by omega
      subst hb1
      simp [List.filter_cons]
  · rw [if_neg hx]
    have h1 : x - 1 < b := by omega
    by_cases hb : x + 1 < b
    · simp [List.filter_cons, h, h1, hb]
      omega
    · have hb1 : ¬ (x + 1 < b) := hb
      simp [List.filter_cons, h, h1, hb1]
      omega

theorem mem_rectList {r0 r1 c0 c1 : Nat} {q : Pos} :
    q ∈ rectList r0 r1 c0 c1 ↔ (r0 ≤ q.1 ∧ q.1 < r1) ∧ (c0 ≤ q.2 ∧ q.2 < c1) := by
  obtain ⟨a, b⟩ := q
  unfold rectList
  simp only [List.mem_flatMap, List.mem_map, List.mem_range'_1]
  constructor
  · rintro ⟨r, hr, c, hc, hqe⟩
    have ha : a = r := (congrArg Prod.fst hqe).symm
    have hb : b = c := (congrArg Prod.snd hqe).symm
    subst ha; subst hb
    omega
  · rintro ⟨⟨h1, h2⟩, h3, h4⟩
    exact ⟨a, by omega, b, by omega, rfl⟩

theorem rectList_nodup (r0 r1 c0 c1 : Nat) : (rectList r0 r1 c0 c1).Nodup := by
  unfold rectList
  rw [List.nodup_flatMap]
  constructor
  · intro r _
    refine List.Nodup.map ?_ (List.nodup_range' _ _)
    intro a b hab
    simpa using hab
  · apply List.Pairwise.imp _ ((List.nodup_range' _ _ : (List.range' r0 (r1 - r0)).Nodup))
    intro r r' hne
    intro x hx hx'
    rw [List.mem_map] at hx hx'
    obtain ⟨c, _, hcx⟩ := hx
    obtain ⟨c', _, hcx'⟩ := hx'
    exact hne (congrArg Prod.fst (hcx.trans hcx'.symm))

theorem rectList_length (r0 r1 c0 c1 : Nat) :
    (rectList r0 r1 c0 c1).length = (r1 - r0) * (c1 - c0) := by
  unfold rectList
  rw [List.length_flatMap]
  simp [Function.comp_def, List.map_const']

theorem mem_fillRegion {fs ls : Pos} {h w : Nat} {q : Pos}
    (hb1 : fs.1 ≤ ls.1) (hb2 : ls.1 < h) (hb3 : fs.2 ≤ ls.2) (hb4 : ls.2 < w) :
    q ∈ fillRegion fs ls h w ↔ (q.1 < h ∧ q.2 < w) ∧
      ¬ (fs.1 ≤ q.1 ∧ q.1 ≤ ls.1 ∧ fs.2 ≤ q.2 ∧ q.2 ≤ ls.2) := by
  unfold fillRegion
  simp only [List.mem_append, mem_rectList]
  omega

theorem fillRegion_nodup (fs ls : Pos) (h w : Nat)
    (hb1 : fs.1 ≤ ls.1) (hb3 : fs.2 ≤ ls.2) : (fillRegion fs ls h w).Nodup := by
  unfold fillRegion
  have d1 := rectList_nodup 0 fs.1 0 w
  have d2 := rectList_nodup fs.1 (ls.1 + 1) 0 fs.2
  have d3 := rectList_nodup fs.1 (ls.1 + 1) (ls.2 + 1) w
  have d4 := rectList_nodup (ls.1 + 1) h 0 w
  refine List.Nodup.append ?_ d4 ?_
  · refine List.Nodup.append ?_ d3 ?_
    · refine List.Nodup.append d1 d2 ?_
      intro x hx hx'
      rw [mem_rectList] at hx hx'
      omega
    · intro x hx hx'
      rw [List.mem_append, mem_rectList, mem_rectList] at hx
      rw [mem_rectList] at hx'
      omega
  · intro x hx hx'
    rw [List.mem_append, List.mem_append, mem_rectList, mem_rectList, mem_rectList] at hx
    rw [mem_rectList] at hx'
    omega



/-- Head of a product list. -/
theorem product_headD {rows cols : List Nat} (hr : rows ≠ []) (hc : cols ≠ []) (d : Pos) :
    (rows.product cols).headD d = (rows.headD 0, cols.headD 0) := by
  match rows, hr with
  | r :: rs, _ =>
    match cols, hc with
    | c :: cs, _ =>
      show ((r :: rs).flatMap fun a => (c :: cs).map fun b => (a, b)).headD d = _
      simp

/-- The geometry of the safe zone around an in-bounds click: its first
element, its lexicographic maximum, and its membership rectangle. -/
theorem safe_zone_geometry {g : Game} {p : Pos}
    (hb1 : p.1 < g.height) (hb2 : p.2 < g.width) :
    (g.get_3x3 p).headD (0, 0) = (p.1 - 1, p.2 - 1) ∧
    (g.get_3x3 p).foldl posMax ((g.get_3x3 p).headD (0, 0))
      = (min (p.1 + 1) (g.height - 1), min (p.2 + 1) (g.width - 1)) ∧
    (∀ q : Pos, q ∈ g.get_3x3 p ↔
      (p.1 - 1 ≤ q.1 ∧ q.1 ≤ min (p.1 + 1) (g.height - 1) ∧
       p.2 - 1 ≤ q.2 ∧ q.2 ≤ min (p.2 + 1) (g.width - 1))) := by
  have hmem : ∀ q : Pos, q ∈ g.get_3x3 p ↔
      (p.1 - 1 ≤ q.1 ∧ q.1 ≤ min (p.1 + 1) (g.height - 1) ∧
       p.2 - 1 ≤ q.2 ∧ q.2 ≤ min (p.2 + 1) (g.width - 1)) := by
    intro q
    rw [mem_get_3x3]
    omega
  have hrne : Game.around1 p.1 g.height ≠ [] := around1_ne_nil hb1
  have hcne : Game.around1 p.2 g.width ≠ [] := around1_ne_nil hb2
  have hhead : (g.get_3x3 p).headD (0, 0) = (p.1 - 1, p.2 - 1) := by
    rw [get_3x3_eq_product, product_headD hrne hcne]
    rw [around1_headD hb1, around1_headD hb2]
  refine ⟨hhead, ?_, hmem⟩
  -- pin down the fold of posMax
  set mx : Pos := (min (p.1 + 1) (g.height - 1), min (p.2 + 1) (g.width - 1)) with hmx
  have hmxmem : mx ∈ g.get_3x3 p := by
    rw [hmem, hmx]
    dsimp only
    omega
  have hne : g.get_3x3 p ≠ [] := by
    intro hnil
    rw [hnil] at hmxmem
    simp at hmxmem
  set L := g.get_3x3 p with hL
  set res := L.foldl posMax (L.headD (0, 0)) with hres
  have hresmem : res ∈ L := by
    rcases foldl_posMax_mem L (L.headD (0, 0)) with h | h
    · rw [hres, h]
      match L, hne with
      | a :: t, _ => exact List.mem_cons_self a t
    · exact h
  have hub : posLe mx res := foldl_posMax_ge L (L.headD (0, 0)) mx (Or.inr hmxmem)
  have hresb := (hmem res).mp hresmem
  unfold posLe at hub
  apply Prod.ext
  · rw [hmx] at hub ⊢
    simp only at hub ⊢
    omega
  · rw [hmx] at hub ⊢
    simp only at hub ⊢
    omega

/-- The whole grid splits, up to permutation, into the safe zone and the
fill region around it. -/
theorem rowMajor_perm_safe_fill {g : Game} {p : Pos}
    (hb1 : p.1 < g.height) (hb2 : p.2 < g.width) :
    (rowMajor g.height g.width).Perm
      (g.get_3x3 p ++ fillRegion (p.1 - 1, p.2 - 1)
        (min (p.1 + 1) (g.height - 1), min (p.2 + 1) (g.width - 1))
        g.height g.width) := by
  obtain ⟨_, _, hmem⟩ := safe_zone_geometry hb1 hb2
  have hfb1 : (p.1 - 1 : Nat) ≤ min (p.1 + 1) (g.height - 1) := by omega
  have hfb2 : min (p.1 + 1) (g.height - 1) < g.height := by omega
  have hfb3 : (p.2 - 1 : Nat) ≤ min (p.2 + 1) (g.width - 1) := by omega
  have hfb4 : min (p.2 + 1) (g.width - 1) < g.width := by omega
  have hrmem : ∀ q : Pos, q ∈ fillRegion (p.1 - 1, p.2 - 1)
      (min (p.1 + 1) (g.height - 1), min (p.2 + 1) (g.width - 1)) g.height g.width ↔
      (q.1 < g.height ∧ q.2 < g.width) ∧
      ¬ ((p.1 - 1 : Nat) ≤ q.1 ∧ q.1 ≤ min (p.1 + 1) (g.height - 1) ∧
         (p.2 - 1 : Nat) ≤ q.2 ∧ q.2 ≤ min (p.2 + 1) (g.width - 1)) := by
    intro q
    exact mem_fillRegion hfb1 hfb2 hfb3 hfb4
  apply (List.perm_ext_iff_of_nodup (rowMajor_nodup _ _) ?_).mpr
  · intro q
    rw [mem_rowMajor, List.mem_append, hmem q, hrmem q]
    omega
  · refine List.Nodup.append (get_3x3_nodup g p) (fillRegion_nodup _ _ _ _ hfb1 hfb3) ?_
    intro x hx hx'
    rw [hmem x] at hx
    rw [hrmem x] at hx'
    omega



/-- The common tail of `start_game` after the (possibly trivial) shrink
phase: forcing the remaining safe cells to be mine-free and running the
reservoir fill over the outside region. -/
theorem start_game_tail {g0 gB gS g1 : Game} {p : Pos} {rng : Nat → Nat}
    {safe safe1 removed R : List Pos} {i1 i3 n mr : Nat}
    (hpermgrid : (rowMajor g0.height g0.width).Perm (safe ++ R))
    (hsafend : safe.Nodup)
    (hBimg : ∀ q ∈ safe, (gB.getCell q).image = CellImage.Hidden)
    (hBst : gB.game_state = GameState.DuringGame)
    (hBw : gB.width = g0.width) (hBh : gB.height = g0.height)
    (hBf : gB.flags = 0) (hBhid : gB.hidden = g0.height * g0.width)
    (hBtm : gB.total_mines = g0.total_mines)
    (hBgw : gB.grid.gw = g0.width) (hBgh : gB.grid.gh = g0.height)
    (hperm1 : safe.Perm (safe1 ++ removed))
    (hp1 : p ∈ safe1)
    (hrlen : removed.length = n)
    (hSkeep : ∀ q ∈ safe1, gS.getCell q = gB.getCell q)
    (hSrem : ∀ q ∈ removed, gS.getCell q = { image := (gB.getCell q).image, mine := true })
    (hSst : gS.game_state = gB.game_state) (hSw : gS.width = gB.width)
    (hSh : gS.height = gB.height) (hSf : gS.flags = gB.flags)
    (hShid : gS.hidden = gB.hidden) (hStm : gS.total_mines = gB.total_mines)
    (hSgw : gS.grid.gw = gB.grid.gw) (hSgh : gS.grid.gh = gB.grid.gh)
    (hnm : n + mr = g0.total_mines)
    (hmrle : mr ≤ g0.height * g0.width - safe.length)
    (hf : fillLoop rng i1 (List.foldl (fun a q => a.setMine q false) gS safe1) R
        (g0.height * g0.width - safe.length) mr = some (g1, i3)) :
    g1.game_state = GameState.DuringGame ∧
    g1.width = g0.width ∧ g1.height = g0.height ∧
    g1.flags = 0 ∧ g1.hidden = g0.height * g0.width ∧
    g1.total_mines = g0.total_mines ∧
    g1.grid.gw = g0.width ∧ g1.grid.gh = g0.height ∧
    (∀ q ∈ rowMajor g0.height g0.width, (g1.getCell q).image = CellImage.Hidden) ∧
    mineCount g1 = g0.total_mines ∧
    (g1.getCell p).mine = false := by
  -- region length and disjointness
  have hlenRM : (rowMajor g0.height g0.width).length = g0.height * g0.width :=
    rowMajor_length _ _
  have hlen2 := hpermgrid.length_eq
  rw [List.length_append, hlenRM] at hlen2
  have hlenR : R.length = g0.height * g0.width - safe.length := by omega
  have hndsr : (safe ++ R).Nodup := (hpermgrid.nodup_iff).mp (rowMajor_nodup _ _)
  obtain ⟨_, hndR, hdisjSR⟩ := List.nodup_append.mp hndsr
  have hnd1r : (safe1 ++ removed).Nodup := (hperm1.nodup_iff).mp hsafend
  obtain ⟨hnd1, hndrem, hdisj1r⟩ := List.nodup_append.mp hnd1r
  have hsub1 : ∀ q ∈ safe1, q ∈ safe :=
    fun q hq => hperm1.mem_iff.mpr (List.mem_append.mpr (Or.inl hq))
  have hsubr : ∀ q ∈ removed, q ∈ safe :=
    fun q hq => hperm1.mem_iff.mpr (List.mem_append.mpr (Or.inr hq))
  -- the forced state
  obtain ⟨hFc, hF1, hF2, hF3, hF4, hF5, hF6, hF7, hF8⟩ :=
    foldl_setMine_spec safe1 false gS
  -- apply the fill-pass spec and match it against the hypothesis
  have hmrR : mr ≤ R.length := by omega
  obtain ⟨g', i', heq', hfout, hfimg, hfcnt, hf1, hf2, hf3, hf4, hf5, hf6, hf7, hf8⟩ :=
    fillLoop_spec rng R i1 (List.foldl (fun a q => a.setMine q false) gS safe1) mr
      hndR hmrR
  rw [show R.length = g0.height * g0.width - safe.length from hlenR] at heq'
  rw [heq'] at hf
  have hg1 : g' = g1 := congrArg Prod.fst (Option.some_injective _ hf)
  subst hg1
  -- final cell contents
  have hcell1 : ∀ q ∈ safe1, g'.getCell q
      = { image := (gB.getCell q).image, mine := false } := by
    intro q hq
    have hqR : q ∉ R := fun h => hdisjSR (hsub1 q hq) h
    rw [hfout q hqR, hFc q, if_pos hq, hSkeep q hq]
  have hcellr : ∀ q ∈ removed, g'.getCell q
      = { image := (gB.getCell q).image, mine := true } := by
    intro q hq
    have hqR : q ∉ R := fun h => hdisjSR (hsubr q hq) h
    have hq1 : q ∉ safe1 := fun h => hdisj1r h hq
    rw [hfout q hqR, hFc q, if_neg hq1, hSrem q hq]
  -- scalar frames
  have hstate : g'.game_state = GameState.DuringGame := by rw [hf1, hF1, hSst, hBst]
  have hwidth : g'.width = g0.width := by rw [hf2, hF2, hSw, hBw]
  have hheight : g'.height = g0.height := by rw [hf3, hF3, hSh, hBh]
  have hflags : g'.flags = 0 := by rw [hf4, hF4, hSf, hBf]
  have hhidden : g'.hidden = g0.height * g0.width := by rw [hf5, hF5, hShid, hBhid]
  have htm : g'.total_mines = g0.total_mines := by rw [hf6, hF6, hStm, hBtm]
  have hgw : g'.grid.gw = g0.width := by rw [hf7, hF7, hSgw, hBgw]
  have hgh : g'.grid.gh = g0.height := by rw [hf8, hF8, hSgh, hBgh]
  -- all images hidden
  have himgall : ∀ q ∈ rowMajor g0.height g0.width,
      (g'.getCell q).image = CellImage.Hidden := by
    intro q hq
    have : q ∈ safe ++ R := hpermgrid.mem_iff.mp hq
    rcases List.mem_append.mp this with hqs | hqR
    · have : q ∈ safe1 ++ removed := hperm1.mem_iff.mp hqs
      rcases List.mem_append.mp this with hq1 | hqr
      · rw [hcell1 q hq1]
        exact hBimg q hqs
      · rw [hcellr q hqr]
        exact hBimg q hqs
    · exact hfimg q hqR
  -- the mine count
  have hcnt : mineCount g' = g0.total_mines := by
    rw [mineCount, hheight, hwidth]
    rw [hpermgrid.countP_eq]
    rw [List.countP_append]
    have hcsafe : (safe.countP fun q => (g'.getCell q).mine) = n := by
      rw [hperm1.countP_eq, List.countP_append]
      have hz : (safe1.countP fun q => (g'.getCell q).mine) = 0 := by
        rw [List.countP_eq_zero]
        intro q hq
        rw [hcell1 q hq]
        simp
      have hall : (removed.countP fun q => (g'.getCell q).mine) = removed.length := by
        rw [List.countP_eq_length]
        intro q hq
        rw [hcellr q hq]
      omega
    omega
  -- the clicked cell is no mine
  have hpm : (g'.getCell p).mine = false := by
    rw [hcell1 p hp1]
  exact ⟨hstate, hwidth, hheight, hflags, hhidden, htm, hgw, hgh, himgall, hcnt, hpm⟩



/-- Dimensions of the (possibly lazily skipped) grid reallocation. -/
theorem resize_dims (G : GameGrid) (w h : Nat) (hh : h ≠ 0) :
    (G.resize w h).gw = w ∧ (G.resize w h).gh = h := by
  unfold GameGrid.resize
  by_cases hc : h ≠ G.gh ∨ w ≠ G.gw
  · rw [if_pos hc]
    exact ⟨by simp [hh], rfl⟩
  · rw [if_neg hc]
    push_neg at hc
    exact ⟨hc.2.symm, hc.1.symm⟩

/-- Everything a successful `start_game` guarantees: the configuration
was feasible (`mines < cells`), the counters are reset, the grid is
fully hidden with exactly `total_mines` mines, and the clicked cell is
mine-free. -/
theorem start_game_some_spec {g0 : Game} {p : Pos} {rng : Nat → Nat} {g1 : Game}
    (hb1 : p.1 < g0.height) (hb2 : p.2 < g0.width)
    (heq : g0.start_game p rng = some g1) :
    g1.game_state = GameState.DuringGame ∧
    g1.width = g0.width ∧ g1.height = g0.height ∧
    g1.flags = 0 ∧ g1.hidden = g0.height * g0.width ∧
    g1.total_mines = g0.total_mines ∧
    g1.grid.gw = g0.width ∧ g1.grid.gh = g0.height ∧
    (∀ q ∈ rowMajor g0.height g0.width, (g1.getCell q).image = CellImage.Hidden) ∧
    mineCount g1 = g0.total_mines ∧
    (g1.getCell p).mine = false ∧
    g0.total_mines < g0.height * g0.width := by
  simp only [Game.start_game] at heq
  set gA : Game := ({ grid := g0.grid.resize g0.width g0.height, game_state := GameState.DuringGame, width := g0.width, height := g0.height, flags := 0, hidden := g0.height * g0.width, total_mines := g0.total_mines } : Game) with hgA
  set safe := gA.get_3x3 p with hsafedef
  set gB := List.foldl (fun a q => a.setImage q CellImage.Hidden) gA safe with hgB
  -- basic facts about the pre-fill state
  obtain ⟨hBc, hB1, hB2, hB3, hB4, hB5, hB6, hB7, hB8⟩ :=
    foldl_setImage_spec safe CellImage.Hidden gA
  rw [← hgB] at hBc hB1 hB2 hB3 hB4 hB5 hB6 hB7 hB8
  have hAdims := resize_dims g0.grid g0.width g0.height (by omega)
  have hBst : gB.game_state = GameState.DuringGame := by rw [hB1]
  have hBw : gB.width = g0.width := by rw [hB2]
  have hBh : gB.height = g0.height := by rw [hB3]
  have hBf : gB.flags = 0 := by rw [hB4]
  have hBhid : gB.hidden = g0.height * g0.width := by rw [hB5]
  have hBtm : gB.total_mines = g0.total_mines := by rw [hB6]
  have hBgw : gB.grid.gw = g0.width := by rw [hB7]; exact hAdims.1
  have hBgh : gB.grid.gh = g0.height := by rw [hB8]; exact hAdims.2
  have hsafend : safe.Nodup := get_3x3_nodup gA p
  have hpsafe : p ∈ safe := self_mem_get_3x3 (g := gA) hb1 hb2
  have hBimg : ∀ q ∈ safe, (gB.getCell q).image = CellImage.Hidden := by
    intro q hq
    rw [hBc q, if_pos hq]
  have hfs : safe.headD (0, 0) = (p.1 - 1, p.2 - 1) :=
    (safe_zone_geometry (g := gA) (p := p) hb1 hb2).1
  have hls : List.foldl posMax (safe.headD (0, 0)) safe
      = (min (p.1 + 1) (g0.height - 1), min (p.2 + 1) (g0.width - 1)) :=
    (safe_zone_geometry (g := gA) (p := p) hb1 hb2).2.1
  have hmemsafe : ∀ q : Pos, q ∈ safe ↔
      (p.1 - 1 ≤ q.1 ∧ q.1 ≤ min (p.1 + 1) (g0.height - 1) ∧
       p.2 - 1 ≤ q.2 ∧ q.2 ≤ min (p.2 + 1) (g0.width - 1)) :=
    (safe_zone_geometry (g := gA) (p := p) hb1 hb2).2.2
  have hperm_grid : (rowMajor g0.height g0.width).Perm
      (safe ++ fillRegion (p.1 - 1, p.2 - 1)
        (min (p.1 + 1) (g0.height - 1), min (p.2 + 1) (g0.width - 1))
        g0.height g0.width) :=
    rowMajor_perm_safe_fill (g := gA) hb1 hb2
  have hlen2 := hperm_grid.length_eq
  rw [List.length_append, rowMajor_length] at hlen2
  have hsafe1le : 1 ≤ safe.length :=
    List.length_pos.mpr (List.ne_nil_of_mem hpsafe)
  -- rewrite the scrutinee of the first match with the named state
  rw [hBhid, hBtm] at heq
  split at heq
  case _ hsc => exact absurd heq (by simp)
  case _ gS safe1 i1 hsc =>
    split at heq
    case _ hf => exact absurd heq (by simp)
    case _ g3 i3 hf =>
      have hg3 : g3 = g1 := Option.some_injective _ heq
      subst hg3
      rw [hls, hfs, hBh, hBw] at hf
      by_cases hshr : g0.height * g0.width - safe.length < g0.total_mines
      · -- shrink branch
        rw [if_pos hshr] at hsc hf
        have hnbound : g0.total_mines - (g0.height * g0.width - safe.length) + 1
            ≤ safe.length := by
          by_contra hgt
          have := shrinkLoop_fail rng p
            (g0.total_mines - (g0.height * g0.width - safe.length)) 0 gB safe
            hsafe1le (by omega)
          rw [this] at hsc
          exact absurd hsc (by simp)
        obtain ⟨g', safe', i', removed, heq', hl, hnd'', hcl'', hperm', hrl, hout,
          hkeep, hrem, f1, f2, f3, f4, f5, f6, f7, f8⟩ :=
          shrinkLoop_spec rng p (g0.total_mines - (g0.height * g0.width - safe.length))
            0 gB safe hsafend hpsafe hnbound
        rw [heq'] at hsc
        have hinj := Option.some_injective _ hsc
        have hgS : g' = gS := congrArg Prod.fst hinj
        have hsafe1 : safe' = safe1 := congrArg (fun x => x.2.1) hinj
        have hi1 : i' = i1 := congrArg (fun x => x.2.2) hinj
        subst hgS; subst hsafe1; subst hi1
        have hM : g0.total_mines < g0.height * g0.width := by omega
        have := @start_game_tail g0 gB _ _ p rng safe _ removed _ _ _
          (g0.total_mines - (g0.height * g0.width - safe.length))
          (g0.height * g0.width - safe.length)
          hperm_grid hsafend hBimg hBst hBw hBh hBf hBhid
          hBtm hBgw hBgh hperm' hcl'' hrl hkeep hrem f1 f2 f3 f4 f5 f6 f7 f8
          (by omega) (by omega) hf
        exact ⟨this.1, this.2.1, this.2.2.1, this.2.2.2.1, this.2.2.2.2.1,
          this.2.2.2.2.2.1, this.2.2.2.2.2.2.1, this.2.2.2.2.2.2.2.1,
          this.2.2.2.2.2.2.2.2.1, this.2.2.2.2.2.2.2.2.2.1,
          this.2.2.2.2.2.2.2.2.2.2, hM⟩
      · -- no shrink needed
        rw [if_neg hshr] at hsc hf
        have hinj := Option.some_injective _ hsc
        have hgS : gB = gS := congrArg Prod.fst hinj
        have hsafe1 : safe = safe1 := congrArg (fun x => x.2.1) hinj
        subst hgS; subst hsafe1
        have hM : g0.total_mines < g0.height * g0.width := by omega
        have := @start_game_tail g0 gB gB _ p rng safe safe [] _ _ _
          0 g0.total_mines
          hperm_grid hsafend hBimg
          hBst hBw hBh hBf hBhid hBtm hBgw hBgh (by simp) hpsafe rfl
          (fun q _ => rfl) (by simp) rfl rfl rfl rfl rfl rfl rfl rfl
          (by omega) (by omega) hf
        exact ⟨this.1, this.2.1, this.2.2.1, this.2.2.2.1, this.2.2.2.2.1,
          this.2.2.2.2.2.1, this.2.2.2.2.2.2.1, this.2.2.2.2.2.2.2.1,
          this.2.2.2.2.2.2.2.2.1, this.2.2.2.2.2.2.2.2.2.1,
          this.2.2.2.2.2.2.2.2.2.2, hM⟩


/-! ## Factoring `left_click` -/

/-- The `DuringGame` portion of `Game::left_click` (dispatch on the
clicked cell's image followed by the win check), factored out verbatim
so the branches can be reasoned about separately. -/
def Game.left_click_during (g1 : Game) (pos : Pos) : Option (Game × List (Pos × CellImage)) :=
  if g1.game_state = GameState.DuringGame then
    match
      (if (g1.getCell pos).image = CellImage.Hidden then
        g1.show_cells [pos]
      else if (g1.getCell pos).image.shown = false then
        (g1.toggle_tofrom_question_marked pos).map fun x => (x.1, [x.2])
      else
        g1.show_cells (g1.get_hidden_neighbors pos)) with
    | none => none
    | some (g2, res) =>
      if g2.hidden = g2.total_mines then
        let w := g2.handle_win
        some (w.1, res ++ w.2)
      else some (g2, res)
  else some (g1, [])

theorem left_click_eq (g : Game) (pos : Pos) (rng : Nat → Nat) :
    g.left_click pos rng =
      if pos.1 < g.height ∧ pos.2 < g.width then
        match (if g.game_state = GameState.BeforeGame
            then g.start_game pos rng else some g) with
        | none => none
        | some g1 => g1.left_click_during pos
      else none := rfl

theorem left_click_during_afterGame {g1 : Game} {pos : Pos}
    (h : g1.game_state = GameState.AfterGame) :
    g1.left_click_during pos = some (g1, []) := by
  rw [Game.left_click_during, if_neg (by rw [h]; intro hc; exact absurd hc (by simp))]

/-- `left_click` in `AfterGame` is a strict no-op. -/
theorem left_click_afterGame {g : Game} {pos : Pos} (rng : Nat → Nat)
    (h : g.game_state = GameState.AfterGame)
    (hb1 : pos.1 < g.height) (hb2 : pos.2 < g.width) :
    g.left_click pos rng = some (g, []) := by
  rw [left_click_eq, if_pos ⟨hb1, hb2⟩,
    if_neg (by rw [h]; intro hc; exact absurd hc (by simp))]
  dsimp only
  exact left_click_during_afterGame h

/-! ## Toggle characterisation -/

theorem toggle_given_eq {g : Game} {pos : Pos} {given : CellImage}
    (hb : pos.2 < g.height ∧ pos.1 < g.width)
    (heq : (g.getCell pos).image = given) :
    g.toggle_tofrom_given pos given
      = some ({ g.setImage pos CellImage.Flagged with flags := g.flags + 1 },
          (pos, CellImage.Flagged)) := by
  rw [Game.toggle_tofrom_given, if_pos hb]
  dsimp only
  rw [if_pos heq]

theorem toggle_given_ne {g : Game} {pos : Pos} {given : CellImage}
    (hb : pos.2 < g.height ∧ pos.1 < g.width)
    (hne : (g.getCell pos).image ≠ given) :
    g.toggle_tofrom_given pos given
      = some ((if (g.getCell pos).image = CellImage.Flagged
            then { g with flags := g.flags - 1 } else g).setImage pos given,
          (pos, given)) := by
  rw [Game.toggle_tofrom_given, if_pos hb]
  dsimp only
  rw [if_neg hne]

/-! ## Mine preservation -/

theorem showLoopF_mine_preserved :
    ∀ (fuel : Nat) (g : Game) (stack : List Pos) (g' : Game)
      (res : List (Pos × CellImage)),
      showLoopF fuel g stack = some (g', res) →
      ∀ q, (g'.getCell q).mine = (g.getCell q).mine := by
  intro fuel
  induction fuel with
  | zero =>
    intro g stack g' res heq
    exact absurd heq (by simp [showLoopF])
  | succ n ih =>
    intro g stack g' res heq q
    match stack with
    | [] =>
      rw [showLoopF] at heq
      have : g = g' := congrArg Prod.fst (Option.some_injective _ heq)
      rw [this]
    | p :: rest =>
      rw [showLoopF] at heq
      split at heq
      · split at heq
        · dsimp only at heq
          rw [Option.map_eq_some'] at heq
          obtain ⟨⟨g2, res2⟩, hin, hpair⟩ := heq
          have hg2 : g2 = g' := congrArg Prod.fst hpair
          subst hg2
          rw [ih _ _ _ _ hin q]
          exact Game.mine_setImage g p q _
        · exact ih _ _ _ _ heq q
      · exact absurd heq (by simp)

theorem show_cells_mine_preserved {g g' : Game} {cells : List Pos}
    {res : List (Pos × CellImage)}
    (heq : g.show_cells cells = some (g', res)) :
    ∀ q, (g'.getCell q).mine = (g.getCell q).mine := by
  intro q
  cases hfind : cells.find? (fun p => (g.getCell p).mine) with
  | some p =>
    obtain ⟨gL, resL, heq2, _, _, _, _, _, _, _, _, hin, hout, _⟩ :=
      show_cells_spec_mine hfind
    have : gL = g' := by
      have := heq2.symm.trans heq
      exact congrArg Prod.fst (Option.some_injective _ this)
    subst this
    by_cases hq : q ∈ rowMajor g.height g.width
    · rw [hin q hq]
      unfold lossCell
      have hbase : ((g.setImage p CellImage.SelectedMine).getCell q).mine
          = (g.getCell q).mine := Game.mine_setImage g p q _
      split_ifs <;> simp [hbase]
    · rw [hout q hq]
      exact Game.mine_setImage g p q _
  | none =>
    rw [Game.show_cells, hfind] at heq
    exact showLoopF_mine_preserved _ _ _ _ _ heq q


/-! ## Image counting -/

/-- Number of playing-field cells (game dimensions) whose image is `img`. -/
def imgCount (g : Game) (img : CellImage) : Nat :=
  (rowMajor g.height g.width).countP fun q => decide ((g.getCell q).image = img)

theorem hiddenCountIn_eq_imgCount (g : Game) :
    hiddenCountIn g = imgCount g CellImage.Hidden := rfl

/-- `countP` distributes over a pointwise-disjoint disjunction. -/
theorem countP_or_disjoint (l : List α) (p q : α → Bool)
    (h : ∀ a ∈ l, ¬(p a = true ∧ q a = true)) :
    (l.countP fun a => p a || q a) = l.countP p + l.countP q := by
  induction l with
  | nil => rfl
  | cons b l ih =>
    simp only [List.countP_cons]
    have hb := h b (List.mem_cons_self b l)
    have ihl := ih fun a ha => h a (List.mem_cons_of_mem b ha)
    by_cases hp : p b = true
    · by_cases hq : q b = true
      · exact absurd ⟨hp, hq⟩ hb
      · rw [Bool.not_eq_true] at hq
        simp [hp, hq, ihl] <;> omega
    · rw [Bool.not_eq_true] at hp
      by_cases hq : q b = true
      · simp [hp, hq, ihl] <;> omega
      · rw [Bool.not_eq_true] at hq
        simp [hp, hq, ihl] <;> omega

/-- If `p` implies `q` on `l` but `q` is counted no more often than `p`,
then `q` implies `p` on `l` as well. -/
theorem countP_pinch {l : List α} {p q : α → Bool}
    (himp : ∀ a ∈ l, p a = true → q a = true)
    (hcnt : l.countP q ≤ l.countP p) :
    ∀ a ∈ l, q a = true → p a = true := by
  induction l with
  | nil =>
    intro a ha
    exact absurd ha (by simp)
  | cons b l ih =>
    intro a ha hq
    have himpl : ∀ x ∈ l, p x = true → q x = true :=
      fun x hx => himp x (List.mem_cons_of_mem b hx)
    have hmono : l.countP p ≤ l.countP q := List.countP_mono_left himpl
    rw [List.countP_cons, List.countP_cons] at hcnt
    rcases List.mem_cons.mp ha with heq | hal
    · subst heq
      by_cases hp : p a = true
      · exact hp
      · exfalso
        rw [Bool.not_eq_true] at hp
        rw [hp, hq] at hcnt
        simp at hcnt
        omega
    · refine ih himpl ?_ a hal hq
      by_cases hpb : p b = true
      · have hqb := himp b (List.mem_cons_self b l) hpb
        rw [hpb, hqb] at hcnt
        omega
      · rw [Bool.not_eq_true] at hpb
        rw [hpb] at hcnt
        simp at hcnt
        cases hqb : q b <;> rw [hqb] at hcnt <;> simp at hcnt <;> omega

/-- An unrevealed (`shown = false`) image is exactly `Hidden`, `Flagged`
or `QuestionMarked`, so the unrevealed count splits into the three. -/
theorem countP_unshown_split (g : Game) (l : List Pos) :
    (l.countP fun q => decide ((g.getCell q).image.shown = false))
      = (l.countP fun q => decide ((g.getCell q).image = CellImage.Hidden))
        + ((l.countP fun q => decide ((g.getCell q).image = CellImage.Flagged))
          + (l.countP fun q => decide ((g.getCell q).image = CellImage.QuestionMarked))) := by
  have hcongr : (l.countP fun q => decide ((g.getCell q).image.shown = false))
      = l.countP fun q => (decide ((g.getCell q).image = CellImage.Hidden)
          || (decide ((g.getCell q).image = CellImage.Flagged)
            || decide ((g.getCell q).image = CellImage.QuestionMarked))) := by
    apply List.countP_congr
    intro q _
    cases h : (g.getCell q).image <;> simp [h, CellImage.shown]
  have hsplit2 : (l.countP fun q => (decide ((g.getCell q).image = CellImage.Flagged)
        || decide ((g.getCell q).image = CellImage.QuestionMarked)))
      = (l.countP fun q => decide ((g.getCell q).image = CellImage.Flagged))
        + (l.countP fun q => decide ((g.getCell q).image = CellImage.QuestionMarked)) := by
    apply countP_or_disjoint
    intro a _ hand
    obtain ⟨u, v⟩ := hand
    rw [decide_eq_true_eq] at u v
    rw [u] at v
    exact absurd v (by simp)
  have hsplit1 : (l.countP fun q => (decide ((g.getCell q).image = CellImage.Hidden)
        || (decide ((g.getCell q).image = CellImage.Flagged)
          || decide ((g.getCell q).image = CellImage.QuestionMarked))))
      = (l.countP fun q => decide ((g.getCell q).image = CellImage.Hidden))
        + (l.countP fun q => (decide ((g.getCell q).image = CellImage.Flagged)
          || decide ((g.getCell q).image = CellImage.QuestionMarked))) := by
    apply countP_or_disjoint
    intro a _ hand
    obtain ⟨u, v⟩ := hand
    rw [decide_eq_true_eq] at u
    rw [u] at v
    exact absurd v (by simp)
  rw [hcongr, hsplit1, hsplit2]

/-- The effect on an image count of overwriting the image at `pos`. -/
theorem imgCount_setImage {g : Game} {pos : Pos} {i : CellImage}
    (hmem : pos ∈ rowMajor g.height g.width) (img : CellImage) :
    imgCount (g.setImage pos i) img + (if (g.getCell pos).image = img then 1 else 0)
      = imgCount g img + (if i = img then 1 else 0) := by
  have h := countP_setCell_mem (g := g) (p := pos)
    (c := { image := i, mine := (g.getCell pos).mine })
    (rowMajor_nodup g.height g.width) hmem (fun c => decide (c.image = img))
  simp only [decide_eq_true_eq] at h
  exact h

/-- Scalar-field updates do not affect image counts. -/
theorem imgCount_flags (g : Game) (x : Nat) (img : CellImage) :
    imgCount ({ g with flags := x }) img = imgCount g img := rfl

theorem mineCount_congr {g g' : Game} (hh : g'.height = g.height) (hw : g'.width = g.width)
    (hm : ∀ q, (g'.getCell q).mine = (g.getCell q).mine) :
    mineCount g' = mineCount g := by
  unfold mineCount
  rw [hh, hw]
  apply List.countP_congr
  intro q _
  rw [hm q]

theorem imgCount_congr {g g' : Game} (hh : g'.height = g.height) (hw : g'.width = g.width)
    (himg : ∀ q ∈ rowMajor g.height g.width, (g'.getCell q).image = (g.getCell q).image)
    (img : CellImage) : imgCount g' img = imgCount g img := by
  unfold imgCount
  rw [hh, hw]
  apply List.countP_congr
  intro q hq
  rw [himg q hq]

/-! ## 3×3 blocks versus neighbour lists -/

theorem get_3x3_perm_neighbors {g : Game} {p : Pos}
    (h1 : p.1 < g.height) (h2 : p.2 < g.width) :
    (g.get_3x3 p).Perm (p :: g.get_neighbors p) := by
  simp only [Game.get_neighbors]
  cases hf : (g.get_3x3 p).findIdx? (fun x => x = p) with
  | none =>
    have := List.findIdx?_eq_none_iff.mp hf p (self_mem_get_3x3 h1 h2)
    simp at this
  | some i =>
    dsimp only
    have hi : i < (g.get_3x3 p).length :=
      (List.findIdx?_eq_some_iff_findIdx_eq.mp hf).1
    have hperm := swapRemove_perm (g.get_3x3 p) i hi (0, 0)
    rw [findIdx_self_getD hf] at hperm
    exact hperm

/-- For a non-mine cell the 3×3 mine count is exactly the count over the
at-most-8 in-bounds neighbours. -/
theorem get_mines_around_eq_neighbors {g : Game} {p : Pos}
    (h1 : p.1 < g.height) (h2 : p.2 < g.width) (hm : (g.getCell p).mine = false) :
    g.get_mines_around p = (g.get_neighbors p).countP fun q => (g.getCell q).mine := by
  unfold Game.get_mines_around
  rw [(get_3x3_perm_neighbors h1 h2).countP_eq, List.countP_cons]
  rw [hm]
  rfl

theorem get_mines_around_le_8 {g : Game} {p : Pos}
    (h1 : p.1 < g.height) (h2 : p.2 < g.width) (hm : (g.getCell p).mine = false) :
    g.get_mines_around p ≤ 8 := by
  rw [get_mines_around_eq_neighbors h1 h2 hm]
  exact le_trans (List.countP_le_length _) (get_neighbors_length_le h1 h2)

/-! ## Frame lemmas for the reveal loop and its wrappers -/

theorem showLoopF_frame :
    ∀ (fuel : Nat) (g : Game) (stack : List Pos) (g' : Game)
      (res : List (Pos × CellImage)),
      showLoopF fuel g stack = some (g', res) →
      g'.game_state = g.game_state ∧ g'.width = g.width ∧ g'.height = g.height ∧
      g'.flags = g.flags ∧ g'.total_mines = g.total_mines ∧
      g'.grid.gw = g.grid.gw ∧ g'.grid.gh = g.grid.gh := by
  intro fuel
  induction fuel with
  | zero =>
    intro g stack g' res heq
    exact absurd heq (by simp [showLoopF])
  | succ n ih =>
    intro g stack g' res heq
    match stack with
    | [] =>
      rw [showLoopF] at heq
      have : g = g' := congrArg Prod.fst (Option.some_injective _ heq)
      subst this
      exact ⟨rfl, rfl, rfl, rfl, rfl, rfl, rfl⟩
    | p :: rest =>
      rw [showLoopF] at heq
      split at heq
      · split at heq
        · dsimp only at heq
          rw [Option.map_eq_some'] at heq
          obtain ⟨⟨g2, res2⟩, hin, hpair⟩ := heq
          have hg2 : g2 = g' := congrArg Prod.fst hpair
          subst hg2
          obtain ⟨a1, a2, a3, a4, a5, a6, a7⟩ := ih _ _ _ _ hin
          exact ⟨a1, a2, a3, a4, a5, a6, a7⟩
        · exact ih _ _ _ _ heq
      · exact absurd heq (by simp)

theorem show_cells_frame {g g' : Game} {cells : List Pos}
    {res : List (Pos × CellImage)}
    (heq : g.show_cells cells = some (g', res)) :
    (g'.game_state = g.game_state ∨ g'.game_state = GameState.AfterGame) ∧
    g'.width = g.width ∧ g'.height = g.height ∧ g'.flags = g.flags ∧
    g'.total_mines = g.total_mines ∧ g'.grid.gw = g.grid.gw ∧ g'.grid.gh = g.grid.gh := by
  cases hfind : cells.find? (fun p => (g.getCell p).mine) with
  | some p =>
    obtain ⟨gL, resL, heq2, f1, f2, f3, f4, f5, f6, f7, f8, hin, hout, hres⟩ :=
      show_cells_spec_mine hfind
    have hgL : gL = g' := by
      have h2 := heq2.symm.trans heq
      exact congrArg Prod.fst (Option.some_injective _ h2)
    subst hgL
    exact ⟨Or.inr f1, f2, f3, f4, f6, f7, f8⟩
  | none =>
    rw [Game.show_cells, hfind] at heq
    obtain ⟨a1, a2, a3, a4, a5, a6, a7⟩ := showLoopF_frame _ _ _ _ _ heq
    exact ⟨Or.inl a1, a2, a3, a4, a5, a6, a7⟩

theorem handle_win_mine_preserved (g : Game) (q : Pos) :
    (((g.handle_win).1.getCell q)).mine = (g.getCell q).mine := by
  obtain ⟨_, _, _, _, _, _, _, _, hin, hout, _⟩ := handle_win_spec g
  by_cases hq : q ∈ rowMajor g.height g.width
  · rw [hin q hq]
    unfold winCell
    split
    · rfl
    · rfl
  · rw [hout q hq]

theorem toggle_given_frame {g g' : Game} {pos : Pos} {given : CellImage}
    {upd : Pos × CellImage}
    (heq : g.toggle_tofrom_given pos given = some (g', upd)) :
    g'.game_state = g.game_state ∧ g'.width = g.width ∧ g'.height = g.height ∧
    g'.hidden = g.hidden ∧ g'.total_mines = g.total_mines ∧
    g'.grid.gw = g.grid.gw ∧ g'.grid.gh = g.grid.gh ∧
    (∀ q, (g'.getCell q).mine = (g.getCell q).mine) := by
  rw [Game.toggle_tofrom_given] at heq
  split at heq
  · dsimp only at heq
    split at heq
    · have hg : ({ g.setImage pos CellImage.Flagged with flags := g.flags + 1 } : Game) = g' :=
        congrArg Prod.fst (Option.some_injective _ heq)
      rw [← hg]
      exact ⟨rfl, rfl, rfl, rfl, rfl, rfl, rfl, fun q => Game.mine_setImage g pos q _⟩
    · have hg : ((if (g.getCell pos).image = CellImage.Flagged
          then { g with flags := g.flags - 1 } else g).setImage pos given) = g' :=
        congrArg Prod.fst (Option.some_injective _ heq)
      rw [← hg]
      by_cases hf : (g.getCell pos).image = CellImage.Flagged
      · rw [if_pos hf]
        exact ⟨rfl, rfl, rfl, rfl, rfl, rfl, rfl,
          fun q => Game.mine_setImage { g with flags := g.flags - 1 } pos q _⟩
      · rw [if_neg hf]
        exact ⟨rfl, rfl, rfl, rfl, rfl, rfl, rfl, fun q => Game.mine_setImage g pos q _⟩
  · exact absurd heq (by simp)

/-! ## Per-cell facts about the end-of-game scans -/

/-- `lossCell` preserves the "flagged or wrongly flagged" status of a cell. -/
theorem lossCell_FW (c : Cell) :
    (decide ((lossCell c).image = CellImage.Flagged)
        || decide ((lossCell c).image = CellImage.WronglyFlagged))
      = (decide (c.image = CellImage.Flagged)
        || decide (c.image = CellImage.WronglyFlagged)) := by
  unfold lossCell
  split
  case isTrue h =>
    rw [h.2]
    rfl
  case isFalse h =>
    split
    case isTrue h2 =>
      rw [h2.2]
      rfl
    case isFalse h2 => rfl

theorem lossCell_mine (c : Cell) : (lossCell c).mine = c.mine := by
  unfold lossCell
  split
  · rfl
  · split
    · rfl
    · rfl

theorem winCell_mine (c : Cell) : (winCell c).mine = c.mine := by
  unfold winCell
  split
  · rfl
  · rfl

/-! ## The `DuringGame` bookkeeping invariant -/

/-- The bookkeeping facts holding at a `DuringGame` state with the win
check still pending: the displayed grid matches the stored dimensions,
the mine layout carries exactly `total_mines` mines, the `flags` and
`hidden` counters agree with the image counts, mines are unrevealed and
nothing is wrongly flagged.  (`hidden` may equal `total_mines` here; the
win check of `left_click` restores strictness.) -/
structure PendInv (g : Game) : Prop where
  st : g.game_state = GameState.DuringGame
  gw_eq : g.grid.gw = g.width
  gh_eq : g.grid.gh = g.height
  mines_eq : mineCount g = g.total_mines
  flags_eq : g.flags = imgCount g CellImage.Flagged + imgCount g CellImage.WronglyFlagged
  hid_sum : g.hidden = hiddenCountIn g + imgCount g CellImage.Flagged
      + imgCount g CellImage.QuestionMarked
  mine_unshown : ∀ q ∈ rowMajor g.height g.width, (g.getCell q).mine = true →
      (g.getCell q).image.shown = false
  no_wrong : imgCount g CellImage.WronglyFlagged = 0

/-- In a bookkeeping-consistent `DuringGame` state at least `total_mines`
cells are unrevealed: every mine hides under an unrevealed image. -/
theorem PendInv.hid_ge {g : Game} (h : PendInv g) : g.total_mines ≤ g.hidden := by
  have hmono : mineCount g ≤ (rowMajor g.height g.width).countP
      fun q => decide ((g.getCell q).image.shown = false) := by
    apply List.countP_mono_left
    intro q hq hmine
    rw [decide_eq_true_eq]
    exact h.mine_unshown q hq hmine
  have hsplit : ((rowMajor g.height g.width).countP
        fun q => decide ((g.getCell q).image.shown = false))
      = hiddenCountIn g + (imgCount g CellImage.Flagged
          + imgCount g CellImage.QuestionMarked) :=
    countP_unshown_split g (rowMajor g.height g.width)
  have hm := h.mines_eq
  have hs := h.hid_sum
  omega

/-- At a won state (`hidden = total_mines`) the unrevealed cells are
exactly the mines. -/
theorem PendInv.win_unshown_mine {g : Game} (h : PendInv g)
    (hw : g.hidden = g.total_mines) :
    ∀ q ∈ rowMajor g.height g.width, (g.getCell q).image.shown = false →
      (g.getCell q).mine = true := by
  have hsplit : ((rowMajor g.height g.width).countP
        fun q => decide ((g.getCell q).image.shown = false))
      = hiddenCountIn g + (imgCount g CellImage.Flagged
          + imgCount g CellImage.QuestionMarked) :=
    countP_unshown_split g (rowMajor g.height g.width)
  have hm := h.mines_eq
  have hs := h.hid_sum
  have hcnt : ((rowMajor g.height g.width).countP
        fun q => decide ((g.getCell q).image.shown = false))
      ≤ (rowMajor g.height g.width).countP fun q => (g.getCell q).mine := by
    show _ ≤ mineCount g
    omega
  have hpin := countP_pinch (l := rowMajor g.height g.width)
    (p := fun q => (g.getCell q).mine)
    (q := fun q => decide ((g.getCell q).image.shown = false))
    (fun q hq hp => by
      rw [decide_eq_true_eq]
      exact h.mine_unshown q hq hp) hcnt
  intro q hq hun
  exact hpin q hq (by rw [decide_eq_true_eq]; exact hun)

/-- The master invariant of reachable states. -/
structure Inv (g : Game) : Prop where
  before_flags : g.game_state = GameState.BeforeGame → g.flags = 0
  during : g.game_state = GameState.DuringGame → PendInv g
  not_won : g.game_state = GameState.DuringGame → g.total_mines < g.hidden
  after_gw : g.game_state = GameState.AfterGame → g.grid.gw = g.width
  after_gh : g.game_state = GameState.AfterGame → g.grid.gh = g.height
  after_mines : g.game_state = GameState.AfterGame → mineCount g = g.total_mines
  after_flags : g.game_state = GameState.AfterGame →
      g.flags = imgCount g CellImage.Flagged + imgCount g CellImage.WronglyFlagged
  after_hid : g.game_state = GameState.AfterGame → g.total_mines ≤ g.hidden
  won_flagged : g.game_state = GameState.AfterGame → g.hidden = g.total_mines →
      (∀ q ∈ rowMajor g.height g.width, (g.getCell q).mine = true →
        (g.getCell q).image = CellImage.Flagged) ∧ g.flags = g.total_mines

theorem Inv_new {w h m : Nat} {g : Game} (heq : Game.new w h m = some g) : Inv g := by
  rw [Game.new] at heq
  split at heq
  · have hg : _ = g := Option.some_injective _ heq
    rw [← hg]
    refine ⟨fun _ => rfl, ?_, ?_, ?_, ?_, ?_, ?_, ?_, ?_⟩ <;>
      exact fun hst => absurd hst (by simp)
  · exact absurd heq (by simp)

theorem Inv_reset {g : Game} (hI : Inv g) : Inv g.reset := by
  refine ⟨fun _ => rfl, ?_, ?_, ?_, ?_, ?_, ?_, ?_, ?_⟩ <;>
    exact fun hst => absurd hst (by simp [Game.reset])

theorem Inv_resize {g : Game} (hI : Inv g) (w h m : Nat) : Inv (g.resize w h m) := by
  refine ⟨fun _ => rfl, ?_, ?_, ?_, ?_, ?_, ?_, ?_, ?_⟩ <;>
    exact fun hst => absurd hst (by simp [Game.resize, Game.reset])


/-- `PendInv` is preserved by overwriting the image of an in-bounds cell
from one unrevealed image to another, provided the `flags` counter is
adjusted by the change in the number of `Flagged` images. -/
theorem PendInv_setImage_flags {g : Game} {pos : Pos} {i : CellImage} {f' : Nat}
    (hP : PendInv g)
    (hmem : pos ∈ rowMajor g.height g.width)
    (hold : (g.getCell pos).image.shown = false)
    (hnew : i.shown = false)
    (hflags : f' + (if (g.getCell pos).image = CellImage.Flagged then 1 else 0)
        = g.flags + (if i = CellImage.Flagged then 1 else 0)) :
    PendInv { g.setImage pos i with flags := f' } := by
  have holdW : (g.getCell pos).image ≠ CellImage.WronglyFlagged := by
    intro h
    rw [h] at hold
    exact absurd hold (by decide)
  have hnotW : i ≠ CellImage.WronglyFlagged := by
    intro h
    rw [h] at hnew
    exact absurd hnew (by decide)
  have hF := imgCount_setImage (g := g) (i := i) hmem CellImage.Flagged
  have hW := imgCount_setImage (g := g) (i := i) hmem CellImage.WronglyFlagged
  have hH := imgCount_setImage (g := g) (i := i) hmem CellImage.Hidden
  have hQ := imgCount_setImage (g := g) (i := i) hmem CellImage.QuestionMarked
  rw [if_neg holdW, if_neg hnotW] at hW
  have hone : ∀ j : CellImage, j.shown = false →
      ((if j = CellImage.Hidden then 1 else 0)
        + (if j = CellImage.Flagged then 1 else 0)
        + (if j = CellImage.QuestionMarked then 1 else 0)) = 1 := by
    intro j
    cases j <;> decide
  have honeo := hone _ hold
  have honen := hone _ hnew
  have hcell : ∀ q, (g.setImage pos i).getCell q
      = if q = pos then { image := i, mine := (g.getCell pos).mine }
        else g.getCell q := by
    intro q
    rw [Game.setImage, Game.getCell_setCell]
  have hfl : ∀ img, imgCount ({ g.setImage pos i with flags := f' }) img
      = imgCount (g.setImage pos i) img := fun img => imgCount_flags _ f' img
  refine ⟨hP.st, hP.gw_eq, hP.gh_eq, ?_, ?_, ?_, ?_, ?_⟩
  · have hmc : mineCount ({ g.setImage pos i with flags := f' }) = mineCount g :=
      mineCount_congr rfl rfl (fun q => Game.mine_setImage g pos q i)
    rw [hmc]
    exact hP.mines_eq
  · show f' = _
    rw [hfl CellImage.Flagged, hfl CellImage.WronglyFlagged]
    have hfe := hP.flags_eq
    omega
  · show g.hidden = _
    rw [hiddenCountIn_eq_imgCount, hfl CellImage.Hidden, hfl CellImage.Flagged,
      hfl CellImage.QuestionMarked]
    have hhs := hP.hid_sum
    rw [hiddenCountIn_eq_imgCount] at hhs
    omega
  · intro q hq hmine
    have hacc : (({ g.setImage pos i with flags := f' } : Game)).getCell q
        = (g.setImage pos i).getCell q := rfl
    rw [hacc] at hmine ⊢
    rw [hcell q] at hmine ⊢
    by_cases hqp : q = pos
    · rw [if_pos hqp] at hmine ⊢
      exact hnew
    · rw [if_neg hqp] at hmine ⊢
      exact hP.mine_unshown q hq hmine
  · rw [hfl CellImage.WronglyFlagged]
    have hnw := hP.no_wrong
    omega

/-- The `DuringGame` bookkeeping survives a successful toggle towards
`Hidden` or `QuestionMarked` on an unrevealed cell. -/
theorem toggle_PendInv {g g' : Game} {pos : Pos} {given : CellImage}
    {upd : Pos × CellImage}
    (hP : PendInv g)
    (hb1 : pos.1 < g.height) (hb2 : pos.2 < g.width)
    (hunshown : (g.getCell pos).image.shown = false)
    (hgiven : given = CellImage.Hidden ∨ given = CellImage.QuestionMarked)
    (heq : g.toggle_tofrom_given pos given = some (g', upd)) :
    PendInv g' ∧ g'.hidden = g.hidden ∧ g'.total_mines = g.total_mines := by
  have hmem : pos ∈ rowMajor g.height g.width := mem_rowMajor.mpr ⟨hb1, hb2⟩
  have hgivenF : given ≠ CellImage.Flagged := by
    rcases hgiven with h | h <;> rw [h] <;> simp
  have hgivenshown : given.shown = false := by
    rcases hgiven with h | h <;> rw [h] <;> rfl
  rw [Game.toggle_tofrom_given] at heq
  split at heq
  case isFalse => exact absurd heq (by simp)
  case isTrue hbnd =>
    dsimp only at heq
    split at heq
    case isTrue himg =>
      have hg : ({ g.setImage pos CellImage.Flagged with flags := g.flags + 1 } : Game)
          = g' := congrArg Prod.fst (Option.some_injective _ heq)
      rw [← hg]
      refine ⟨?_, rfl, rfl⟩
      apply PendInv_setImage_flags hP hmem hunshown (by rfl)
      rw [himg, if_neg hgivenF, if_pos rfl]
    case isFalse himg =>
      have hg : ((if (g.getCell pos).image = CellImage.Flagged
          then { g with flags := g.flags - 1 } else g).setImage pos given) = g' :=
        congrArg Prod.fst (Option.some_injective _ heq)
      rw [← hg]
      by_cases hf : (g.getCell pos).image = CellImage.Flagged
      · rw [if_pos hf]
        refine ⟨?_, rfl, rfl⟩
        show PendInv { g.setImage pos given with flags := g.flags - 1 }
        apply PendInv_setImage_flags hP hmem hunshown hgivenshown
        rw [if_pos hf, if_neg hgivenF]
        have hflagpos : 0 < imgCount g CellImage.Flagged := by
          have : 0 < (rowMajor g.height g.width).countP
              fun q => decide ((g.getCell q).image = CellImage.Flagged) :=
            List.countP_pos_iff.mpr ⟨pos, hmem, by rw [decide_eq_true_eq]; exact hf⟩
          exact this
        have hfe := hP.flags_eq
        omega
      · rw [if_neg hf]
        refine ⟨?_, rfl, rfl⟩
        show PendInv { g.setImage pos given with flags := g.flags }
        apply PendInv_setImage_flags hP hmem hunshown hgivenshown
        rw [if_neg hf, if_neg hgivenF]

/-- `right_click` preserves the master invariant. -/
theorem right_click_Inv {g g' : Game} {pos : Pos} {res : List (Pos × CellImage)}
    (hI : Inv g) (heq : g.right_click pos = some (g', res)) : Inv g' := by
  rw [Game.right_click] at heq
  split at heq
  case isFalse => exact absurd heq (by simp)
  case isTrue hb =>
    split at heq
    case isTrue hguard =>
      have hg : g = g' := congrArg Prod.fst (Option.some_injective _ heq)
      rw [← hg]
      exact hI
    case isFalse hguard =>
      push_neg at hguard
      obtain ⟨hnb, hna, hshown⟩ := hguard
      have hst : g.game_state = GameState.DuringGame := by
        cases hgs : g.game_state
        · exact absurd hgs hnb
        · rfl
        · exact absurd hgs hna
      rw [Option.map_eq_some'] at heq
      obtain ⟨⟨gt, upd⟩, ht, hpair⟩ := heq
      have hgt : gt = g' := congrArg Prod.fst hpair
      subst hgt
      rw [Game.toggle_tofrom_hidden] at ht
      have hunshown : (g.getCell pos).image.shown = false := by
        cases hsv : (g.getCell pos).image.shown
        · rfl
        · exact absurd hsv hshown
      obtain ⟨hPend, hhid, htot⟩ :=
        toggle_PendInv (hI.during hst) hb.1 hb.2 hunshown (Or.inl rfl) ht
      refine ⟨?_, fun _ => hPend, ?_, ?_, ?_, ?_, ?_, ?_, ?_⟩
      · intro hB
        rw [hPend.st] at hB
        exact absurd hB (by simp)
      · intro _
        rw [hhid, htot]
        exact hI.not_won hst
      all_goals
        intro hA
        rw [hPend.st] at hA
        exact absurd hA (by simp)


/-- The reveal loop preserves the `DuringGame` bookkeeping. -/
theorem showOut_PendInv {g gm : Game} {stack : List Pos} {r : List (Pos × CellImage)}
    (hP : PendInv g) (O : ShowLoopOut g stack gm r) : PendInv gm := by
  have himgf : ∀ (img : CellImage), img ≠ CellImage.Hidden →
      (∀ n, CellImage.from_number n ≠ img) →
      imgCount gm img = imgCount g img := by
    intro img hne hfn
    unfold imgCount
    rw [O.height_eq, O.width_eq]
    apply List.countP_congr
    intro q hq
    rcases O.img_frame q with hsame | hres
    · rw [hsame]
    · rw [List.mem_map] at hres
      obtain ⟨e, he, heq⟩ := hres
      obtain ⟨_, _, _, hHid, himgv, hfin⟩ := O.res_spec e he
      rw [← heq, hfin, himgv, hHid]
      have h1 : ¬(CellImage.from_number (g.get_mines_around e.1) = img) := hfn _
      have h2 : ¬(CellImage.Hidden = img) := fun hcon => hne hcon.symm
      rw [decide_eq_false h1, decide_eq_false h2]
  have hFp := himgf CellImage.Flagged (by simp) from_number_ne_Flagged
  have hQp := himgf CellImage.QuestionMarked (by simp) from_number_ne_QuestionMarked
  have hWp := himgf CellImage.WronglyFlagged (by simp) from_number_ne_WronglyFlagged
  refine ⟨O.state_eq.trans hP.st, ?_, ?_, ?_, ?_, ?_, ?_, ?_⟩
  · rw [O.gw_eq, O.width_eq]
    exact hP.gw_eq
  · rw [O.gh_eq, O.height_eq]
    exact hP.gh_eq
  · rw [O.total_eq, mineCount_congr O.height_eq O.width_eq O.mine_eq]
    exact hP.mines_eq
  · rw [O.flags_eq, hFp, hWp]
    exact hP.flags_eq
  · have h1 := O.hidden_eq
    have h2 : imgCount gm CellImage.Hidden + r.length = imgCount g CellImage.Hidden :=
      O.hcount_eq
    have h3 : g.hidden = imgCount g CellImage.Hidden + imgCount g CellImage.Flagged
        + imgCount g CellImage.QuestionMarked := hP.hid_sum
    show gm.hidden = imgCount gm CellImage.Hidden + imgCount gm CellImage.Flagged
        + imgCount gm CellImage.QuestionMarked
    omega
  · intro q hq hmine
    rw [O.height_eq, O.width_eq] at hq
    have hmg : (g.getCell q).mine = true := by
      rw [← O.mine_eq q]
      exact hmine
    rcases O.img_frame q with hsame | hres
    · rw [hsame]
      exact hP.mine_unshown q hq hmg
    · exfalso
      rw [List.mem_map] at hres
      obtain ⟨e, he, heq⟩ := hres
      obtain ⟨_, _, hnm, _, _, _⟩ := O.res_spec e he
      rw [heq, hmg] at hnm
      exact absurd hnm (by simp)
  · rw [hWp]
    exact hP.no_wrong

/-- The losing path of `Game::show` moves a bookkeeping-consistent
`DuringGame` state to an invariant `AfterGame` state, leaving `hidden`,
`flags` and `total_mines` untouched. -/
theorem show_cells_loss_Inv {g gm : Game} {cells : List Pos} {p : Pos}
    {resL : List (Pos × CellImage)}
    (hP : PendInv g) (hstrict : g.total_mines < g.hidden)
    (hfind : cells.find? (fun q => (g.getCell q).mine) = some p)
    (hpHid : (g.getCell p).image = CellImage.Hidden)
    (heq : g.show_cells cells = some (gm, resL)) :
    Inv gm ∧ gm.game_state = GameState.AfterGame ∧
    gm.hidden = g.hidden ∧ gm.total_mines = g.total_mines := by
  obtain ⟨gL, resL2, heq2, f1, f2, f3, f4, f5, f6, f7, f8, hin, hout, hres⟩ :=
    show_cells_spec_mine hfind
  have hgL : gL = gm := by
    have h2 := heq2.symm.trans heq
    exact congrArg Prod.fst (Option.some_injective _ h2)
  rw [hgL] at f1 f2 f3 f4 f5 f6 f7 f8 hin hout
  have hsetcell : ∀ q, (g.setImage p CellImage.SelectedMine).getCell q
      = if q = p then { image := CellImage.SelectedMine, mine := (g.getCell p).mine }
        else g.getCell q := by
    intro q
    rw [Game.setImage, Game.getCell_setCell]
  have hminept : ∀ q, (gm.getCell q).mine = (g.getCell q).mine := by
    intro q
    by_cases hq : q ∈ rowMajor g.height g.width
    · rw [hin q hq, lossCell_mine, Game.mine_setImage]
    · rw [hout q hq, Game.mine_setImage]
  have hmc : mineCount gm = g.total_mines := by
    rw [mineCount_congr f3 f2 hminept]
    exact hP.mines_eq
  have hFW : imgCount gm CellImage.Flagged + imgCount gm CellImage.WronglyFlagged
      = imgCount g CellImage.Flagged + imgCount g CellImage.WronglyFlagged := by
    have hdisj : ∀ (gx : Game), ∀ a ∈ rowMajor gx.height gx.width,
        ¬((decide ((gx.getCell a).image = CellImage.Flagged)) = true
          ∧ (decide ((gx.getCell a).image = CellImage.WronglyFlagged)) = true) := by
      intro gx a _ hand
      obtain ⟨u, v⟩ := hand
      rw [decide_eq_true_eq] at u v
      rw [u] at v
      exact absurd v (by simp)
    have hsum1 : ((rowMajor gm.height gm.width).countP
          fun q => decide ((gm.getCell q).image = CellImage.Flagged)
            || decide ((gm.getCell q).image = CellImage.WronglyFlagged))
        = ((rowMajor gm.height gm.width).countP
            fun q => decide ((gm.getCell q).image = CellImage.Flagged))
          + ((rowMajor gm.height gm.width).countP
            fun q => decide ((gm.getCell q).image = CellImage.WronglyFlagged)) :=
      countP_or_disjoint _ _ _ (hdisj gm)
    have hsum2 : ((rowMajor g.height g.width).countP
          fun q => decide ((g.getCell q).image = CellImage.Flagged)
            || decide ((g.getCell q).image = CellImage.WronglyFlagged))
        = ((rowMajor g.height g.width).countP
            fun q => decide ((g.getCell q).image = CellImage.Flagged))
          + ((rowMajor g.height g.width).countP
            fun q => decide ((g.getCell q).image = CellImage.WronglyFlagged)) :=
      countP_or_disjoint _ _ _ (hdisj g)
    have hcongr : ((rowMajor gm.height gm.width).countP
          fun q => decide ((gm.getCell q).image = CellImage.Flagged)
            || decide ((gm.getCell q).image = CellImage.WronglyFlagged))
        = ((rowMajor g.height g.width).countP
          fun q => decide ((g.getCell q).image = CellImage.Flagged)
            || decide ((g.getCell q).image = CellImage.WronglyFlagged)) := by
      rw [f3, f2]
      apply List.countP_congr
      intro q hq
      rw [hin q hq, lossCell_FW, hsetcell q]
      by_cases hqp : q = p
      · rw [if_pos hqp]
        subst hqp
        rw [hpHid]
        rfl
      · rw [if_neg hqp]
    unfold imgCount
    omega
  refine ⟨⟨?_, ?_, ?_, ?_, ?_, ?_, ?_, ?_, ?_⟩, f1, f5, f6⟩
  · intro hB
    rw [f1] at hB
    exact absurd hB (by simp)
  · intro hD
    rw [f1] at hD
    exact absurd hD (by simp)
  · intro hD
    rw [f1] at hD
    exact absurd hD (by simp)
  · intro _
    rw [f7, f2]
    exact hP.gw_eq
  · intro _
    rw [f8, f3]
    exact hP.gh_eq
  · intro _
    rw [f6]
    exact hmc
  · intro _
    rw [f4, hFW]
    exact hP.flags_eq
  · intro _
    rw [f5, f6]
    omega
  · intro _ hw
    rw [f5, f6] at hw
    exact absurd hw (by omega)

/-- `handle_win` from a won bookkeeping-consistent state yields an
invariant `AfterGame` state with all mines flagged. -/
theorem handle_win_Inv {g : Game} (hP : PendInv g) (hw : g.hidden = g.total_mines) :
    Inv (g.handle_win).1 := by
  obtain ⟨f1, f2, f3, f4, f5, f6, f7, f8, hin, hout, hres⟩ := handle_win_spec g
  have hpin := hP.win_unshown_mine hw
  have hFm : ∀ q ∈ rowMajor g.height g.width,
      (g.getCell q).image = CellImage.Flagged → (g.getCell q).mine = true := by
    intro q hq hf
    exact hpin q hq (by rw [hf]; rfl)
  have hflagpt : ∀ q ∈ rowMajor g.height g.width,
      decide (((g.handle_win).1.getCell q).image = CellImage.Flagged)
        = (g.getCell q).mine := by
    intro q hq
    rw [hin q hq]
    unfold winCell
    split
    case isTrue h =>
      rw [h.1]
      rfl
    case isFalse h =>
      by_cases hm : (g.getCell q).mine = true
      · have himg : (g.getCell q).image = CellImage.Flagged := by
          by_contra hc
          exact h ⟨hm, hc⟩
        rw [himg, hm]
        rfl
      · have himg : ¬((g.getCell q).image = CellImage.Flagged) :=
          fun hf => hm (hFm q hq hf)
        rw [decide_eq_false himg, Bool.not_eq_true] at *
        rw [hm]
  have hcF : imgCount (g.handle_win).1 CellImage.Flagged = mineCount g := by
    unfold imgCount mineCount
    rw [f3, f2]
    apply List.countP_congr
    intro q hq
    rw [hflagpt q hq]
  have hcW : imgCount (g.handle_win).1 CellImage.WronglyFlagged = 0 := by
    have hW0 : ∀ q ∈ rowMajor g.height g.width,
        ¬((g.getCell q).image = CellImage.WronglyFlagged) := by
      intro q hq hcon
      have h0 := hP.no_wrong
      have hpos : 0 < imgCount g CellImage.WronglyFlagged :=
        List.countP_pos_iff.mpr ⟨q, hq, by rw [decide_eq_true_eq]; exact hcon⟩
      omega
    unfold imgCount
    rw [f3, f2, List.countP_eq_zero]
    intro q hq
    rw [decide_eq_true_eq, hin q hq]
    unfold winCell
    split
    case isTrue h => simp
    case isFalse h => exact hW0 q hq
  have hmc : mineCount (g.handle_win).1 = g.total_mines := by
    rw [mineCount_congr f3 f2 (handle_win_mine_preserved g)]
    exact hP.mines_eq
  refine ⟨?_, ?_, ?_, ?_, ?_, ?_, ?_, ?_, ?_⟩
  · intro hB
    rw [f1] at hB
    exact absurd hB (by simp)
  · intro hD
    rw [f1] at hD
    exact absurd hD (by simp)
  · intro hD
    rw [f1] at hD
    exact absurd hD (by simp)
  · intro _
    rw [f7, f2]
    exact hP.gw_eq
  · intro _
    rw [f8, f3]
    exact hP.gh_eq
  · intro _
    rw [f6]
    exact hmc
  · intro _
    rw [f4, hcF, hcW, hP.mines_eq]
    omega
  · intro _
    rw [f5, f6, hw]
  · intro _ _
    constructor
    · intro q hq hm
      rw [f3, f2] at hq
      rw [handle_win_mine_preserved g q] at hm
      have := hflagpt q hq
      rw [hm] at this
      exact of_decide_eq_true this
    · rw [f4, f6]

/-- A bookkeeping-consistent `DuringGame` state short of the win
condition satisfies the master invariant. -/
theorem PendInv.toInv {g : Game} (h : PendInv g) (hne : ¬(g.hidden = g.total_mines)) :
    Inv g := by
  refine ⟨?_, fun _ => h, ?_, ?_, ?_, ?_, ?_, ?_, ?_⟩
  · intro hB
    rw [h.st] at hB
    exact absurd hB (by simp)
  · intro _
    have := h.hid_ge
    omega
  all_goals
    intro hA
    rw [h.st] at hA
    exact absurd hA (by simp)


/-- One `DuringGame` dispatch of `left_click` (including the win check)
preserves the master invariant. -/
theorem left_click_during_Inv {g1 g2 : Game} {pos : Pos}
    {res : List (Pos × CellImage)}
    (hP : PendInv g1) (hstrict : g1.total_mines < g1.hidden)
    (hb1 : pos.1 < g1.height) (hb2 : pos.2 < g1.width)
    (heq : g1.left_click_during pos = some (g2, res)) : Inv g2 := by
  rw [Game.left_click_during, if_pos hP.st] at heq
  split at heq
  case _ hdisp => exact absurd heq (by simp)
  case _ gm r hdisp =>
    dsimp only at heq
    have hgm : PendInv gm ∨ (Inv gm ∧ ¬(gm.hidden = gm.total_mines)) := by
      split at hdisp
      case isTrue himg =>
        by_cases hm : (g1.getCell pos).mine = true
        · have hfind : [pos].find? (fun q => (g1.getCell q).mine) = some pos := by
            rw [List.find?_cons, hm]
          obtain ⟨hInv, hAfter, hhid, htot⟩ :=
            show_cells_loss_Inv hP hstrict hfind himg hdisp
          right
          refine ⟨hInv, ?_⟩
          rw [hhid, htot]
          omega
        · rw [Bool.not_eq_true] at hm
          have hno : ∀ q ∈ [pos], (g1.getCell q).mine = false := by
            intro q hq
            rw [List.mem_singleton] at hq
            rw [hq]
            exact hm
          have hb : ∀ q ∈ [pos], q.1 < g1.height ∧ q.2 < g1.width := by
            intro q hq
            rw [List.mem_singleton] at hq
            rw [hq]
            exact ⟨hb1, hb2⟩
          have hhc : hiddenCountIn g1 ≤ g1.hidden := by
            have h3 : g1.hidden = imgCount g1 CellImage.Hidden
                + imgCount g1 CellImage.Flagged
                + imgCount g1 CellImage.QuestionMarked := hP.hid_sum
            have h4 : hiddenCountIn g1 = imgCount g1 CellImage.Hidden :=
              hiddenCountIn_eq_imgCount g1
            omega
          obtain ⟨g', res', heqc, O⟩ := show_cells_spec_no_mine hno hb hhc
          rw [heqc] at hdisp
          have h1 := Option.some_injective _ hdisp
          have hg' : g' = gm := congrArg Prod.fst h1
          subst hg'
          exact Or.inl (showOut_PendInv hP O)
      case isFalse himg =>
        split at hdisp
        case isTrue hsh =>
          rw [Option.map_eq_some'] at hdisp
          obtain ⟨⟨gt, upd⟩, ht, hpair⟩ := hdisp
          have hgt : gt = gm := congrArg Prod.fst hpair
          subst hgt
          rw [Game.toggle_tofrom_question_marked] at ht
          obtain ⟨hPend, _, _⟩ :=
            toggle_PendInv hP hb1 hb2 hsh (Or.inr rfl) ht
          exact Or.inl hPend
        case isFalse hsh =>
          cases hfind : (g1.get_hidden_neighbors pos).find?
              (fun q => (g1.getCell q).mine) with
          | some m =>
            have hmHid : (g1.getCell m).image = CellImage.Hidden :=
              (mem_get_hidden_neighbors.mp (List.mem_of_find?_eq_some hfind)).2
            obtain ⟨hInv, hAfter, hhid, htot⟩ :=
              show_cells_loss_Inv hP hstrict hfind hmHid hdisp
            right
            refine ⟨hInv, ?_⟩
            rw [hhid, htot]
            omega
          | none =>
            have hno : ∀ q ∈ g1.get_hidden_neighbors pos,
                (g1.getCell q).mine = false := by
              intro q hq
              have hq2 := List.find?_eq_none.mp hfind q hq
              cases hv : (g1.getCell q).mine
              · rfl
              · exact absurd hv hq2
            have hb : ∀ q ∈ g1.get_hidden_neighbors pos,
                q.1 < g1.height ∧ q.2 < g1.width := by
              intro q hq
              have h3 := get_neighbors_subset (mem_get_hidden_neighbors.mp hq).1
              rw [mem_get_3x3] at h3
              exact ⟨h3.1.1, h3.2.1⟩
            have hhc : hiddenCountIn g1 ≤ g1.hidden := by
              have h3 : g1.hidden = imgCount g1 CellImage.Hidden
                  + imgCount g1 CellImage.Flagged
                  + imgCount g1 CellImage.QuestionMarked := hP.hid_sum
              have h4 : hiddenCountIn g1 = imgCount g1 CellImage.Hidden :=
                hiddenCountIn_eq_imgCount g1
              omega
            obtain ⟨g', res', heqc, O⟩ := show_cells_spec_no_mine hno hb hhc
            rw [heqc] at hdisp
            have h1 := Option.some_injective _ hdisp
            have hg' : g' = gm := congrArg Prod.fst h1
            subst hg'
            exact Or.inl (showOut_PendInv hP O)
    rcases hgm with hPm | ⟨hIm, hne⟩
    · split at heq
      case isTrue hwin =>
        have hg2 : (gm.handle_win).1 = g2 :=
          congrArg Prod.fst (Option.some_injective _ heq)
        rw [← hg2]
        exact handle_win_Inv hPm hwin
      case isFalse hwin =>
        have hg2 : gm = g2 := congrArg Prod.fst (Option.some_injective _ heq)
        rw [← hg2]
        exact hPm.toInv hwin
    · split at heq
      case isTrue hwin => exact absurd hwin hne
      case isFalse hwin =>
        have hg2 : gm = g2 := congrArg Prod.fst (Option.some_injective _ heq)
        rw [← hg2]
        exact hIm

/-- A successful `start_game` establishes the `DuringGame` bookkeeping,
with the clicked cell `Hidden` and mine-free. -/
theorem start_game_PendInv {g0 : Game} {p : Pos} {rng : Nat → Nat} {g1 : Game}
    (hb1 : p.1 < g0.height) (hb2 : p.2 < g0.width)
    (heq : g0.start_game p rng = some g1) :
    PendInv g1 ∧ g1.total_mines < g1.hidden ∧
    (g1.getCell p).image = CellImage.Hidden ∧ (g1.getCell p).mine = false ∧
    g1.height = g0.height ∧ g1.width = g0.width := by
  obtain ⟨s1, s2, s3, s4, s5, s6, s7, s8, s9, s10, s11, s12⟩ :=
    start_game_some_spec hb1 hb2 heq
  have hallH : ∀ q ∈ rowMajor g1.height g1.width,
      (g1.getCell q).image = CellImage.Hidden := by
    intro q hq
    apply s9
    rw [s3, s2] at hq
    exact hq
  have hcH : hiddenCountIn g1 = (rowMajor g1.height g1.width).length := by
    rw [hiddenCountIn, List.countP_eq_length]
    intro q hq
    rw [decide_eq_true_eq]
    exact hallH q hq
  have himg0 : ∀ img : CellImage, img ≠ CellImage.Hidden → imgCount g1 img = 0 := by
    intro img hne
    unfold imgCount
    rw [List.countP_eq_zero]
    intro q hq
    rw [decide_eq_true_eq, hallH q hq]
    exact fun hcon => hne hcon.symm
  have hpmem : p ∈ rowMajor g1.height g1.width := by
    rw [s3, s2]
    exact mem_rowMajor.mpr ⟨hb1, hb2⟩
  have hF0 := himg0 CellImage.Flagged (by simp)
  have hQ0 := himg0 CellImage.QuestionMarked (by simp)
  have hW0 := himg0 CellImage.WronglyFlagged (by simp)
  have hlen : (rowMajor g1.height g1.width).length = g0.height * g0.width := by
    rw [rowMajor_length, s3, s2]
  have hH1 : hiddenCountIn g1 = imgCount g1 CellImage.Hidden :=
    hiddenCountIn_eq_imgCount g1
  refine ⟨⟨s1, ?_, ?_, ?_, ?_, ?_, ?_, hW0⟩, ?_, hallH p hpmem, s11, s3, s2⟩
  · rw [s7, s2]
  · rw [s8, s3]
  · rw [s10, s6]
  · rw [s4, hF0, hW0]
  · rw [s5, hF0, hQ0]
    omega
  · intro q hq hmine
    rw [hallH q hq]
    rfl
  · rw [s5, s6]
    omega

/-- `left_click` preserves the master invariant. -/
theorem left_click_Inv {g g' : Game} {pos : Pos} {rng : Nat → Nat}
    {res : List (Pos × CellImage)}
    (hI : Inv g) (heq : g.left_click pos rng = some (g', res)) : Inv g' := by
  rw [left_click_eq] at heq
  split at heq
  case isFalse => exact absurd heq (by simp)
  case isTrue hb =>
    split at heq
    case _ => exact absurd heq (by simp)
    case _ g1 hS =>
      by_cases hB : g.game_state = GameState.BeforeGame
      · rw [if_pos hB] at hS
        obtain ⟨hPend, hlt, hpH, hpm, hh, hw⟩ := start_game_PendInv hb.1 hb.2 hS
        exact left_click_during_Inv hPend hlt (by rw [hh]; exact hb.1)
          (by rw [hw]; exact hb.2) heq
      · rw [if_neg hB] at hS
        have hg1 : g = g1 := Option.some_injective _ hS
        subst hg1
        cases hgs : g.game_state with
        | BeforeGame => exact absurd hgs hB
        | DuringGame =>
          exact left_click_during_Inv (hI.during hgs) (hI.not_won hgs) hb.1 hb.2 heq
        | AfterGame =>
          rw [left_click_during_afterGame hgs] at heq
          have hg : g = g' := congrArg Prod.fst (Option.some_injective _ heq)
          rw [← hg]
          exact hI

/-- Every public operation preserves the master invariant. -/
theorem step_Inv {g g' : Game} (hI : Inv g) (hs : Step g g') : Inv g' := by
  cases hs with
  | lclick _ _ _ _ h => exact left_click_Inv hI h
  | rclick _ _ _ h => exact right_click_Inv hI h
  | reset => exact Inv_reset hI
  | resize w h m => exact Inv_resize hI w h m

/-- Every reachable state satisfies the master invariant. -/
theorem reachable_Inv {g : Game} (hR : Reachable g) : Inv g := by
  induction hR with
  | init w h m g heq => exact Inv_new heq
  | step g g' _ hs ih => exact step_Inv ih hs

/-- The `DuringGame` dispatch either keeps the game state or ends the
game; it never returns to `BeforeGame`. -/
theorem left_click_during_state {g1 g2 : Game} {pos : Pos}
    {res : List (Pos × CellImage)}
    (heq : g1.left_click_during pos = some (g2, res)) :
    g2.game_state = g1.game_state ∨ g2.game_state = GameState.AfterGame := by
  rw [Game.left_click_during] at heq
  split at heq
  case isTrue hst =>
    split at heq
    case _ => exact absurd heq (by simp)
    case _ gm r hdisp =>
      dsimp only at heq
      split at heq
      case isTrue hwin =>
        have hg2 : (gm.handle_win).1 = g2 :=
          congrArg Prod.fst (Option.some_injective _ heq)
        right
        rw [← hg2]
        exact (handle_win_spec gm).1
      case isFalse hwin =>
        have hg2 : gm = g2 := congrArg Prod.fst (Option.some_injective _ heq)
        rw [← hg2]
        split at hdisp
        case isTrue _ => exact (show_cells_frame hdisp).1
        case isFalse _ =>
          split at hdisp
          case isTrue _ =>
            rw [Option.map_eq_some'] at hdisp
            obtain ⟨⟨gt, upd⟩, ht, hpair⟩ := hdisp
            have hgt : gt = gm := congrArg Prod.fst hpair
            subst hgt
            rw [Game.toggle_tofrom_question_marked] at ht
            left
            exact (toggle_given_frame ht).1
          case isFalse _ => exact (show_cells_frame hdisp).1
  case isFalse hst =>
    have hg2 : g1 = g2 := congrArg Prod.fst (Option.some_injective _ heq)
    rw [← hg2]
    left
    rfl

/-- `left_click` from a non-`BeforeGame` state keeps the state or ends
the game. -/
theorem left_click_state_of_not_before {g g' : Game} {pos : Pos} {rng : Nat → Nat}
    {res : List (Pos × CellImage)}
    (hst : g.game_state ≠ GameState.BeforeGame)
    (heq : g.left_click pos rng = some (g', res)) :
    g'.game_state = g.game_state ∨ g'.game_state = GameState.AfterGame := by
  rw [left_click_eq] at heq
  split at heq
  case isFalse => exact absurd heq (by simp)
  case isTrue hb =>
    dsimp only at heq
    exact left_click_during_state heq


/-! ## Mine-layout preservation by the click operations -/

theorem left_click_during_mine_preserved {g1 g2 : Game} {pos : Pos}
    {res : List (Pos × CellImage)}
    (heq : g1.left_click_during pos = some (g2, res)) :
    ∀ q, (g2.getCell q).mine = (g1.getCell q).mine := by
  rw [Game.left_click_during] at heq
  split at heq
  case isTrue hst =>
    split at heq
    case _ => exact absurd heq (by simp)
    case _ gm r hdisp =>
      dsimp only at heq
      have hgm : ∀ q, (gm.getCell q).mine = (g1.getCell q).mine := by
        split at hdisp
        case isTrue _ => exact show_cells_mine_preserved hdisp
        case isFalse _ =>
          split at hdisp
          case isTrue _ =>
            rw [Option.map_eq_some'] at hdisp
            obtain ⟨⟨gt, upd⟩, ht, hpair⟩ := hdisp
            have hgt : gt = gm := congrArg Prod.fst hpair
            subst hgt
            rw [Game.toggle_tofrom_question_marked] at ht
            exact (toggle_given_frame ht).2.2.2.2.2.2.2
          case isFalse _ => exact show_cells_mine_preserved hdisp
      split at heq
      case isTrue hwin =>
        have hg2 : (gm.handle_win).1 = g2 :=
          congrArg Prod.fst (Option.some_injective _ heq)
        intro q
        rw [← hg2, handle_win_mine_preserved gm q]
        exact hgm q
      case isFalse hwin =>
        have hg2 : gm = g2 := congrArg Prod.fst (Option.some_injective _ heq)
        rw [← hg2]
        exact hgm
  case isFalse hst =>
    have hg2 : g1 = g2 := congrArg Prod.fst (Option.some_injective _ heq)
    rw [← hg2]
    intro q
    rfl

/-- In `DuringGame` and `AfterGame`, `left_click` never changes the mine
layout (mines are only placed by `start_game` out of `BeforeGame`). -/
theorem left_click_mine_preserved {g g' : Game} {pos : Pos} {rng : Nat → Nat}
    {res : List (Pos × CellImage)}
    (hst : g.game_state ≠ GameState.BeforeGame)
    (heq : g.left_click pos rng = some (g', res)) :
    ∀ q, (g'.getCell q).mine = (g.getCell q).mine := by
  rw [left_click_eq] at heq
  split at heq
  case isFalse => exact absurd heq (by simp)
  case isTrue hb =>
    dsimp only at heq
    exact left_click_during_mine_preserved heq

/-- `right_click` never changes the mine layout. -/
theorem right_click_mine_preserved {g g' : Game} {pos : Pos}
    {res : List (Pos × CellImage)}
    (heq : g.right_click pos = some (g', res)) :
    ∀ q, (g'.getCell q).mine = (g.getCell q).mine := by
  rw [Game.right_click] at heq
  split at heq
  case isFalse => exact absurd heq (by simp)
  case isTrue hb =>
    split at heq
    case isTrue _ =>
      have hg : g = g' := congrArg Prod.fst (Option.some_injective _ heq)
      rw [← hg]
      intro q
      rfl
    case isFalse _ =>
      rw [Option.map_eq_some'] at heq
      obtain ⟨⟨gt, upd⟩, ht, hpair⟩ := heq
      have hgt : gt = g' := congrArg Prod.fst hpair
      subst hgt
      rw [Game.toggle_tofrom_hidden] at ht
      exact (toggle_given_frame ht).2.2.2.2.2.2.2

/-! ## The displayed image counts (`get_all_images`) -/

/-- In `BeforeGame` the display masks everything as `Hidden`. -/
theorem countImage_before {g : Game} (hst : g.game_state = GameState.BeforeGame)
    {img : CellImage} (hne : img ≠ CellImage.Hidden) : countImage g img = 0 := by
  unfold countImage Game.get_all_images
  rw [if_pos hst, List.countP_eq_zero]
  intro x hx
  rw [List.mem_flatten] at hx
  obtain ⟨row, hrow, hxr⟩ := hx
  rw [List.mem_map] at hrow
  obtain ⟨_, _, hrweq⟩ := hrow
  rw [← hrweq] at hxr
  rw [List.mem_map] at hxr
  obtain ⟨_, _, hxeq⟩ := hxr
  rw [decide_eq_true_eq, ← hxeq]
  exact fun hcon => hne (hcon ▸ rfl)

/-- Outside `BeforeGame` the display shows the live grid, so the
displayed count of an image is its count over the allocated grid. -/
theorem countImage_eq_imgCount {g : Game} (hst : g.game_state ≠ GameState.BeforeGame)
    (hgw : g.grid.gw = g.width) (hgh : g.grid.gh = g.height) (img : CellImage) :
    countImage g img = imgCount g img := by
  unfold countImage Game.get_all_images imgCount rowMajor
  rw [if_neg hst, hgw, hgh]
  rw [List.countP_flatten, List.countP_flatMap, List.map_map]
  congr 1
  apply List.map_congr_left
  intro r _
  simp only [Function.comp_apply]
  rw [List.countP_map, List.countP_map]
  apply List.countP_congr
  intro c _
  simp only [Function.comp_apply]
  exact Iff.rfl


/-! ## Concrete runs of the engine

Fixed draw streams make the runs deterministic; the extractors below
name the states such a run passes through, so that the run equations are
provable by `rfl`. -/

/-- A draw stream reading from a list (`0` beyond its end). -/
def streamOf (l : List Nat) : Nat → Nat := fun i => l.getD i 0

/-- Fallback used by the run extractors; never reached on the runs below. -/
def fallbackGame : Game :=
  { grid := Game.emptyGrid, game_state := GameState.BeforeGame, width := 0, height := 0, flags := 0, hidden := 0, total_mines := 0 }

def getGame (o : Option Game) : Game :=
  match o with
  | some g => g
  | none => fallbackGame

def getStep (o : Option (Game × List (Pos × CellImage))) :
    Game × List (Pos × CellImage) :=
  match o with
  | some r => r
  | none => (fallbackGame, [])

/-- Run A (2×1 board, 1 mine): the first click wins, then the game is
reset; the reset leaves `hidden` at its stale value `total_mines`. -/
def runA0 : Game := getGame (Game.new 2 1 1)

def runA1 : Game × List (Pos × CellImage) :=
  getStep (runA0.left_click (0, 0) (streamOf [0]))

def runA2 : Game := runA1.1.reset

/-- Run B (4×1 board, 1 mine): the mine lands on `(0, 2)`; `(0, 3)`
stays `Hidden`, and right-clicking it trips the transposed bounds
assertion of `toggle_tofrom_given` (`pos.1 < height`). -/
def runB0 : Game := getGame (Game.new 4 1 1)

def runB1 : Game × List (Pos × CellImage) :=
  getStep (runB0.left_click (0, 0) (streamOf [0, 0]))

/-- Run C (4×2 board, 2 mines at `(0,1)` and `(1,1)`): the base position
for the flag/loss/question-mark scenarios. -/
def runC0 : Game := getGame (Game.new 4 2 2)

def runC1 : Game × List (Pos × CellImage) :=
  getStep (runC0.left_click (0, 3) (streamOf [2, 0, 1, 0]))

/-- Flag the non-mine `(0, 0)`, then click the mine `(0, 1)`: a loss
with a wrongly flagged cell. -/
def runC4a : Game × List (Pos × CellImage) := getStep (runC1.1.right_click (0, 0))

def runC4b : Game × List (Pos × CellImage) :=
  getStep (runC4a.1.left_click (0, 1) (streamOf []))

/-- Flag the mine `(1, 1)`, then click the mine `(0, 1)`: a loss with a
flagged mine that keeps its `Flagged` image. -/
def runC5a : Game × List (Pos × CellImage) := getStep (runC1.1.right_click (1, 1))

def runC5b : Game × List (Pos × CellImage) :=
  getStep (runC5a.1.left_click (0, 1) (streamOf []))

/-- Left-click the flagged `(0, 0)`: it becomes `QuestionMarked`; the
next right click sends it back to `Hidden`. -/
def runC6a : Game × List (Pos × CellImage) :=
  getStep (runC4a.1.left_click (0, 0) (streamOf []))

def runC6b : Game × List (Pos × CellImage) := getStep (runC6a.1.right_click (0, 0))

/-- Run E (6×2 board, 1 mine at `(0,3)`): flag the zero-count cell
`(1, 1)`, then click the zero-count cell `(0, 0)`; the flood fill stops
at the flag. -/
def runE0 : Game := getGame (Game.new 6 2 1)

def runE1 : Game × List (Pos × CellImage) :=
  getStep (runE0.left_click (0, 5) (streamOf [1, 1, 1, 0, 0, 0, 0, 0]))

def runE2 : Game × List (Pos × CellImage) := getStep (runE1.1.right_click (1, 1))

def runE3 : Game × List (Pos × CellImage) :=
  getStep (runE2.1.left_click (0, 0) (streamOf []))

/-- Run W (2×2 board, 1 mine): a plain first click for the witnesses. -/
def runW0 : Game := getGame (Game.new 2 2 1)

def runW1 : Game × List (Pos × CellImage) :=
  getStep (runW0.left_click (0, 0) (streamOf [0]))

/-! ### Reachability of the run states -/

theorem reach_runA0 : Reachable runA0 := Reachable.init 2 1 1 runA0 rfl

theorem reach_runA1 : Reachable runA1.1 :=
  Reachable.step runA0 runA1.1 reach_runA0
    (Step.lclick runA0 (0, 0) (streamOf [0]) runA1.1 runA1.2 rfl)

theorem reach_runA2 : Reachable runA2 :=
  Reachable.step runA1.1 runA2 reach_runA1 (Step.reset runA1.1)

theorem reach_runB0 : Reachable runB0 := Reachable.init 4 1 1 runB0 rfl

theorem reach_runB1 : Reachable runB1.1 :=
  Reachable.step runB0 runB1.1 reach_runB0
    (Step.lclick runB0 (0, 0) (streamOf [0, 0]) runB1.1 runB1.2 rfl)

theorem reach_runC0 : Reachable runC0 := Reachable.init 4 2 2 runC0 rfl

theorem reach_runC1 : Reachable runC1.1 :=
  Reachable.step runC0 runC1.1 reach_runC0
    (Step.lclick runC0 (0, 3) (streamOf [2, 0, 1, 0]) runC1.1 runC1.2 rfl)

theorem reach_runC4a : Reachable runC4a.1 :=
  Reachable.step runC1.1 runC4a.1 reach_runC1
    (Step.rclick runC1.1 (0, 0) runC4a.1 runC4a.2 rfl)

theorem reach_runC4b : Reachable runC4b.1 :=
  Reachable.step runC4a.1 runC4b.1 reach_runC4a
    (Step.lclick runC4a.1 (0, 1) (streamOf []) runC4b.1 runC4b.2 rfl)

theorem reach_runC5a : Reachable runC5a.1 :=
  Reachable.step runC1.1 runC5a.1 reach_runC1
    (Step.rclick runC1.1 (1, 1) runC5a.1 runC5a.2 rfl)

theorem reach_runC6a : Reachable runC6a.1 :=
  Reachable.step runC4a.1 runC6a.1 reach_runC4a
    (Step.lclick runC4a.1 (0, 0) (streamOf []) runC6a.1 runC6a.2 rfl)

theorem reach_runE0 : Reachable runE0 := Reachable.init 6 2 1 runE0 rfl

theorem reach_runE1 : Reachable runE1.1 :=
  Reachable.step runE0 runE1.1 reach_runE0
    (Step.lclick runE0 (0, 5) (streamOf [1, 1, 1, 0, 0, 0, 0, 0]) runE1.1 runE1.2 rfl)

theorem reach_runE2 : Reachable runE2.1 :=
  Reachable.step runE1.1 runE2.1 reach_runE1
    (Step.rclick runE1.1 (1, 1) runE2.1 runE2.2 rfl)


/-! ## Claim theorems -/

/-- C2: the claim states that left/right clicks at an in-bounds position
(`pos.1 < height`, `pos.2 < width`) never panic on any reachable state.
This is refuted by the code: `toggle_tofrom_given` asserts the transposed
bounds (`pos.2 < height && pos.1 < width`), so on a non-square board a
right click on an in-bounds unrevealed cell panics.  Witnessed by a
reachable 4×1 game where the in-bounds right click at `(0, 3)` returns
`none` (the model of the Rust panic). -/
theorem c2_inbounds_right_click_panics :
    ∃ (g : Game) (pos : Pos), Reachable g ∧ pos.1 < g.height ∧ pos.2 < g.width ∧
      g.right_click pos = none :=
  ⟨runB1.1, (0, 3), reach_runB1, by decide, by decide, rfl⟩

/-- C4 (amended): on every reachable state, `flags` equals the number of
displayed `Flagged` cells plus the number of displayed `WronglyFlagged`
cells.  (The claim's bare equality with the `Flagged` count fails after a
losing click, where wrongly flagged cells are re-imaged without
decrementing `flags`; see the counterexample.) -/
theorem c4_flags_counts_flagged_and_wrongly (g : Game) (hR : Reachable g) :
    g.flags = countImage g CellImage.Flagged + countImage g CellImage.WronglyFlagged := by
  have hI := reachable_Inv hR
  cases hgs : g.game_state with
  | BeforeGame =>
    rw [hI.before_flags hgs, countImage_before hgs (by simp),
      countImage_before hgs (by simp)]
  | DuringGame =>
    have hP := hI.during hgs
    rw [countImage_eq_imgCount (by rw [hgs]; simp) hP.gw_eq hP.gh_eq,
      countImage_eq_imgCount (by rw [hgs]; simp) hP.gw_eq hP.gh_eq]
    exact hP.flags_eq
  | AfterGame =>
    rw [countImage_eq_imgCount (by rw [hgs]; simp) (hI.after_gw hgs) (hI.after_gh hgs),
      countImage_eq_imgCount (by rw [hgs]; simp) (hI.after_gw hgs) (hI.after_gh hgs)]
    exact hI.after_flags hgs

/-- Witness for C4 at a concrete reachable state with one flag set. -/
theorem c4_witness :
    runC4a.1.flags = countImage runC4a.1 CellImage.Flagged
      + countImage runC4a.1 CellImage.WronglyFlagged :=
  c4_flags_counts_flagged_and_wrongly runC4a.1 reach_runC4a

/-- Counterexample to C4 as stated: after a losing click the flagged
non-mine is re-imaged to `WronglyFlagged` but `flags` is not decremented,
so `flags` (here `1`) differs from the `Flagged` count (here `0`). -/
theorem c4_counterexample :
    ∃ g : Game, Reachable g ∧ g.flags ≠ countImage g CellImage.Flagged :=
  ⟨runC4b.1, reach_runC4b, by decide⟩

/-- C6 (amended): `right_click` on an in-bounds position (in both the
checked and the asserted orientation, cf. C2) is a no-op outside
`DuringGame` and on revealed cells; otherwise it toggles
`Hidden → Flagged` (incrementing `flags`), `Flagged → Hidden`
(decrementing `flags`), and `QuestionMarked → Hidden` (leaving `flags`
unchanged — not `QuestionMarked → Flagged` as claimed), returning the
single changed pair. -/
theorem c6_right_click_toggle (g : Game) (pos : Pos)
    (hb1 : pos.1 < g.height) (hb2 : pos.2 < g.width)
    (hb3 : pos.2 < g.height) (hb4 : pos.1 < g.width) :
    ((g.game_state = GameState.BeforeGame ∨ g.game_state = GameState.AfterGame ∨
        (g.getCell pos).image.shown = true) →
      g.right_click pos = some (g, [])) ∧
    (g.game_state = GameState.DuringGame →
      ((g.getCell pos).image = CellImage.Hidden →
        g.right_click pos = some ({ g.setImage pos CellImage.Flagged with
          flags := g.flags + 1 }, [(pos, CellImage.Flagged)])) ∧
      ((g.getCell pos).image = CellImage.Flagged →
        g.right_click pos = some (({ g with flags := g.flags - 1 }).setImage pos
          CellImage.Hidden, [(pos, CellImage.Hidden)])) ∧
      ((g.getCell pos).image = CellImage.QuestionMarked →
        g.right_click pos = some (g.setImage pos CellImage.Hidden,
          [(pos, CellImage.Hidden)]))) := by
  constructor
  · intro hg
    rw [Game.right_click, if_pos ⟨hb1, hb2⟩, if_pos hg]
  · intro hst
    have hguard : (g.getCell pos).image.shown = false →
        ¬(g.game_state = GameState.BeforeGame ∨ g.game_state = GameState.AfterGame ∨
          (g.getCell pos).image.shown = true) := by
      intro himg hcon
      rcases hcon with h | h | h
      · rw [hst] at h
        exact absurd h (by simp)
      · rw [hst] at h
        exact absurd h (by simp)
      · rw [himg] at h
        exact absurd h (by simp)
    refine ⟨?_, ?_, ?_⟩
    · intro himg
      have hs : (g.getCell pos).image.shown = false := by rw [himg]; rfl
      rw [Game.right_click, if_pos ⟨hb1, hb2⟩, if_neg (hguard hs),
        Game.toggle_tofrom_hidden, toggle_given_eq ⟨hb3, hb4⟩ himg]
      rfl
    · intro himg
      have hs : (g.getCell pos).image.shown = false := by rw [himg]; rfl
      rw [Game.right_click, if_pos ⟨hb1, hb2⟩, if_neg (hguard hs),
        Game.toggle_tofrom_hidden,
        toggle_given_ne ⟨hb3, hb4⟩ (by rw [himg]; simp), if_pos himg]
      rfl
    · intro himg
      have hs : (g.getCell pos).image.shown = false := by rw [himg]; rfl
      rw [Game.right_click, if_pos ⟨hb1, hb2⟩, if_neg (hguard hs),
        Game.toggle_tofrom_hidden,
        toggle_given_ne ⟨hb3, hb4⟩ (by rw [himg]; simp),
        if_neg (by rw [himg]; simp)]
      rfl

/-- Witness for C6: a concrete `QuestionMarked` cell toggles back to
`Hidden`. -/
theorem c6_witness :
    runC6a.1.right_click (0, 0)
      = some (runC6a.1.setImage (0, 0) CellImage.Hidden,
          [((0, 0), CellImage.Hidden)]) :=
  ((c6_right_click_toggle runC6a.1 (0, 0) (by decide) (by decide) (by decide)
    (by decide)).2 rfl).2.2 rfl

/-- Counterexample to C6 as stated: right-clicking a reachable
`QuestionMarked` cell yields `Hidden` with `flags` unchanged, not
`Flagged` with `flags` incremented. -/
theorem c6_counterexample :
    ∃ (g g' : Game) (res : List (Pos × CellImage)),
      Reachable g ∧ g.game_state = GameState.DuringGame ∧
      (g.getCell (0, 0)).image = CellImage.QuestionMarked ∧
      g.right_click (0, 0) = some (g', res) ∧
      (g'.getCell (0, 0)).image = CellImage.Hidden ∧
      g'.flags = g.flags ∧ res = [((0, 0), CellImage.Hidden)] :=
  ⟨runC6a.1, runC6b.1, runC6b.2, reach_runC6a, rfl, rfl, rfl, rfl, rfl, rfl⟩

/-- C7: every reachable state outside `BeforeGame` carries exactly
`total_mines` mines, and no click operation after placement changes any
cell's mine field. -/
theorem c7_mines_fixed (g : Game) (hR : Reachable g) :
    (g.game_state ≠ GameState.BeforeGame → mineCount g = g.total_mines) ∧
    (∀ (pos : Pos) (rng : Nat → Nat) (g' : Game) (res : List (Pos × CellImage)),
      g.game_state ≠ GameState.BeforeGame →
      g.left_click pos rng = some (g', res) →
      ∀ q, (g'.getCell q).mine = (g.getCell q).mine) ∧
    (∀ (pos : Pos) (g' : Game) (res : List (Pos × CellImage)),
      g.right_click pos = some (g', res) →
      ∀ q, (g'.getCell q).mine = (g.getCell q).mine) := by
  have hI := reachable_Inv hR
  refine ⟨?_, ?_, ?_⟩
  · intro hst
    cases hgs : g.game_state with
    | BeforeGame => exact absurd hgs hst
    | DuringGame => exact (hI.during hgs).mines_eq
    | AfterGame => exact hI.after_mines hgs
  · intro pos rng g' res hst hc
    exact left_click_mine_preserved hst hc
  · intro pos g' res hc
    exact right_click_mine_preserved hc

/-- Witness for C7 at a concrete reachable `DuringGame` state. -/
theorem c7_witness : mineCount runC1.1 = runC1.1.total_mines :=
  (c7_mines_fixed runC1.1 reach_runC1).1 (by decide)

/-- C9 (amended): `new` fails exactly on the claimed invalid inputs and
otherwise initialises the counters as claimed; `resize`, however,
performs no validation at all — it stores any `(width, height, mines)`
verbatim and resets, never surfacing a failure (the Rust method returns
`()` and cannot fail). -/
theorem c9_new_validates_resize_does_not :
    (∀ w h m : Nat, (∃ g, Game.new w h m = some g)
        ↔ (w ≠ 0 ∧ h ≠ 0 ∧ m ≠ 0 ∧ m < w * h)) ∧
    (∀ (w h m : Nat) (g : Game), Game.new w h m = some g →
      g.game_state = GameState.BeforeGame ∧ g.flags = 0 ∧ g.hidden = w * h) ∧
    (∀ (g : Game) (w h m : Nat),
      (g.resize w h m).width = w ∧ (g.resize w h m).height = h ∧
      (g.resize w h m).total_mines = m ∧
      (g.resize w h m).game_state = GameState.BeforeGame) := by
  refine ⟨?_, ?_, ?_⟩
  · intro w h m
    rw [Game.new]
    split
    case isTrue hc =>
      constructor
      · intro _
        exact ⟨hc.2.1, hc.2.2.1, hc.2.2.2, hc.1⟩
      · intro _
        exact ⟨_, rfl⟩
    case isFalse hc =>
      constructor
      · rintro ⟨g, hg⟩
        exact absurd hg (by simp)
      · intro hv
        exact absurd ⟨by omega, hv.1, hv.2.1, hv.2.2.1⟩ hc
  · intro w h m g hg
    rw [Game.new] at hg
    split at hg
    · have h2 : _ = g := Option.some_injective _ hg
      rw [← h2]
      exact ⟨rfl, rfl, rfl⟩
    · exact absurd hg (by simp)
  · intro g w h m
    exact ⟨rfl, rfl, rfl, rfl⟩

/-- Witness for C9 (the `new` initialisation conjunct at `new 2 2 1`). -/
theorem c9_witness :
    runW0.game_state = GameState.BeforeGame ∧ runW0.flags = 0 ∧
    runW0.hidden = 2 * 2 :=
  c9_new_validates_resize_does_not.2.1 2 2 1 runW0 rfl

/-- Counterexample to C9 as stated: `resize` with an invalid combination
(zero height, `mines ≥ cells`) is accepted without any failure — the
resized game is an ordinary reachable state storing the values verbatim. -/
theorem c9_counterexample :
    ∃ g : Game, Reachable g ∧ Reachable (g.resize 5 0 7) ∧
      (g.resize 5 0 7).width = 5 ∧ (g.resize 5 0 7).height = 0 ∧
      (g.resize 5 0 7).total_mines = 7 ∧
      (g.resize 5 0 7).game_state = GameState.BeforeGame :=
  ⟨runA0, reach_runA0,
    Reachable.step runA0 (runA0.resize 5 0 7) reach_runA0 (Step.resize runA0 5 0 7),
    rfl, rfl, rfl, rfl⟩

/-- C10: `AfterGame` is absorbing — both clicks at an in-bounds position
return `some (g, [])` with the state object unchanged (hence every cell
image, mine flag and counter is unchanged), and only `reset`/`resize`
leave `AfterGame`, moving to `BeforeGame`. -/
theorem c10_aftergame_absorbing (g : Game) (pos : Pos)
    (hst : g.game_state = GameState.AfterGame)
    (hb1 : pos.1 < g.height) (hb2 : pos.2 < g.width) :
    (∀ rng, g.left_click pos rng = some (g, [])) ∧
    g.right_click pos = some (g, []) ∧
    (g.reset).game_state = GameState.BeforeGame ∧
    (∀ w h m, (g.resize w h m).game_state = GameState.BeforeGame) := by
  refine ⟨fun rng => left_click_afterGame rng hst hb1 hb2, ?_, rfl, fun _ _ _ => rfl⟩
  rw [Game.right_click, if_pos ⟨hb1, hb2⟩, if_pos (Or.inr (Or.inl hst))]

/-- Witness for C10 at a concrete reachable lost game. -/
theorem c10_witness :
    runC4b.1.left_click (0, 0) (streamOf []) = some (runC4b.1, []) ∧
    runC4b.1.right_click (0, 0) = some (runC4b.1, []) :=
  ⟨(c10_aftergame_absorbing runC4b.1 (0, 0) rfl (by decide) (by decide)).1
      (streamOf []),
   (c10_aftergame_absorbing runC4b.1 (0, 0) rfl (by decide) (by decide)).2.1⟩


/-- C1: for every validly constructed game (state `BeforeGame`), every
in-bounds click and every outcome of the placement draws, a successful
first `left_click` leaves the clicked cell mine-free, and the call can
only reach `AfterGame` through the win condition — never by revealing a
mine at the clicked position. -/
theorem c1_first_click_safe {w h m : Nat} {g0 g1 : Game} {p : Pos}
    {rng : Nat → Nat} {res : List (Pos × CellImage)}
    (hnew : Game.new w h m = some g0)
    (hclick : g0.left_click p rng = some (g1, res)) :
    (g1.getCell p).mine = false ∧
    (g1.game_state = GameState.AfterGame → g1.hidden = g1.total_mines) := by
  have hB : g0.game_state = GameState.BeforeGame := by
    rw [Game.new] at hnew
    split at hnew
    · have h2 : _ = g0 := Option.some_injective _ hnew
      rw [← h2]
    · exact absurd hnew (by simp)
  rw [left_click_eq] at hclick
  split at hclick
  case isFalse => exact absurd hclick (by simp)
  case isTrue hb =>
    split at hclick
    case _ => exact absurd hclick (by simp)
    case _ gS hS =>
      obtain ⟨hPend, hlt, hpH, hpm, hh, hw2⟩ := start_game_PendInv hb.1 hb.2 hS
      rw [Game.left_click_during, if_pos hPend.st] at hclick
      split at hclick
      case _ => exact absurd hclick (by simp)
      case _ gm r hdisp =>
        dsimp only at hclick
        rw [if_pos hpH] at hdisp
        have hfind : [p].find? (fun q => (gS.getCell q).mine) = none := by
          rw [List.find?_cons, hpm]
          rfl
        rw [Game.show_cells, hfind] at hdisp
        have hmm : ∀ q, (gm.getCell q).mine = (gS.getCell q).mine :=
          showLoopF_mine_preserved _ _ _ _ _ hdisp
        obtain ⟨a1, a2, a3, a4, a5, a6, a7⟩ := showLoopF_frame _ _ _ _ _ hdisp
        split at hclick
        case isTrue hwin =>
          have hg1 : (gm.handle_win).1 = g1 :=
            congrArg Prod.fst (Option.some_injective _ hclick)
          obtain ⟨w1, w2, w3, w4, w5, w6, w7, w8, win, wout, wres⟩ :=
            handle_win_spec gm
          constructor
          · rw [← hg1, handle_win_mine_preserved gm p, hmm p, hpm]
          · intro _
            rw [← hg1, w5, w6, hwin]
        case isFalse hwin =>
          have hg1 : gm = g1 := congrArg Prod.fst (Option.some_injective _ hclick)
          constructor
          · rw [← hg1, hmm p, hpm]
          · intro hA
            rw [← hg1, a1, hPend.st] at hA
            exact absurd hA (by simp)

/-- Witness for C1: a concrete first click on a 2×2 board with 1 mine. -/
theorem c1_witness :
    Game.new 2 2 1 = some runW0 ∧
    runW0.left_click (0, 0) (streamOf [0]) = some (runW1.1, runW1.2) ∧
    (runW1.1.getCell (0, 0)).mine = false :=
  ⟨rfl, rfl,
    (c1_first_click_safe (show Game.new 2 2 1 = some runW0 from rfl)
      (show runW0.left_click (0, 0) (streamOf [0]) = some (runW1.1, runW1.2)
        from rfl)).1⟩

/-- The list of seed cells a reveal-dispatching `left_click` submits to
`Game::show`: the clicked cell itself when its image is `Hidden`, and
the clicked cell's hidden neighbours on a chord click of a revealed
cell — the arguments of the two `show` calls in `Game::left_click`'s
dispatch. -/
def Game.reveal_seeds (g : Game) (pos : Pos) : List Pos :=
  if (g.getCell pos).image = CellImage.Hidden then [pos]
  else g.get_hidden_neighbors pos

/-- When the clicked cell is `Hidden` or revealed, the dispatch of
`left_click_during` is `show_cells` on the seed list. -/
theorem left_click_dispatch_reveal {g gm : Game} {pos : Pos}
    {r : List (Pos × CellImage)}
    (hdisp : (g.getCell pos).image = CellImage.Hidden ∨
      (g.getCell pos).image.shown = true)
    (hshow : (if (g.getCell pos).image = CellImage.Hidden then
        g.show_cells [pos]
      else if (g.getCell pos).image.shown = false then
        (g.toggle_tofrom_question_marked pos).map fun x => (x.1, [x.2])
      else
        g.show_cells (g.get_hidden_neighbors pos)) = some (gm, r)) :
    g.show_cells (g.reveal_seeds pos) = some (gm, r) := by
  unfold Game.reveal_seeds
  rcases hdisp with h | h
  · rw [if_pos h]
    rw [if_pos h] at hshow
    exact hshow
  · have hne : (g.getCell pos).image ≠ CellImage.Hidden := by
      intro hc
      rw [hc] at h
      exact absurd h (by decide)
    rw [if_neg hne]
    rw [if_neg hne, if_neg (by rw [h]; simp)] at hshow
    exact hshow

/-- Every seed cell of a reveal is in bounds. -/
theorem reveal_seeds_bounds {g : Game} {pos : Pos}
    (hb : pos.1 < g.height ∧ pos.2 < g.width) :
    ∀ q ∈ g.reveal_seeds pos, q.1 < g.height ∧ q.2 < g.width := by
  intro q hq
  unfold Game.reveal_seeds at hq
  split at hq
  · rw [List.mem_singleton] at hq
    rw [hq]
    exact hb
  · have h3 := get_neighbors_subset (mem_get_hidden_neighbors.mp hq).1
    have h4 := mem_get_3x3.mp h3
    exact ⟨h4.1.1, h4.2.1⟩

/-- C5 (amended): when a `DuringGame` left click submits a seed cell
that is a mine — the clicked cell itself when it is `Hidden`, or one of
the clicked cell's hidden neighbours on a chord click of a revealed
cell, `m` being the first mine among the seeds — the game is lost: the
state moves to `AfterGame`, `m` becomes `SelectedMine` and heads the
change list, and every other in-range cell is mapped by `lossCell` — a
`Hidden` mine becomes `Mine`, a `Flagged` non-mine becomes
`WronglyFlagged`, and everything else (in particular a mine whose image
was `Flagged` or `QuestionMarked`) keeps its image; `hidden` and
`flags` are unchanged.  (The claim's assertion that mines with
`Flagged` or `QuestionMarked` images are also set to `Mine` is refuted
by the counterexample.) -/
theorem c5_loss_by_losscell {g g' : Game} {pos m : Pos} {rng : Nat → Nat}
    {res : List (Pos × CellImage)}
    (hR : Reachable g) (hst : g.game_state = GameState.DuringGame)
    (hdisp : (g.getCell pos).image = CellImage.Hidden ∨
      (g.getCell pos).image.shown = true)
    (hfind : (g.reveal_seeds pos).find? (fun q => (g.getCell q).mine) = some m)
    (hclick : g.left_click pos rng = some (g', res)) :
    g'.game_state = GameState.AfterGame ∧
    (g'.getCell m).image = CellImage.SelectedMine ∧
    (∃ resL, res = (m, CellImage.SelectedMine) :: resL) ∧
    (∀ q ∈ rowMajor g.height g.width, q ≠ m →
      g'.getCell q = lossCell (g.getCell q)) ∧
    g'.hidden = g.hidden ∧ g'.flags = g.flags := by
  have hI := reachable_Inv hR
  have hstrict := hI.not_won hst
  have hminem : (g.getCell m).mine = true := by
    have h0 := List.find?_some hfind
    simpa using h0
  rw [left_click_eq] at hclick
  split at hclick
  case isFalse => exact absurd hclick (by simp)
  case isTrue hb =>
    rw [if_neg (by rw [hst]; intro hc; exact absurd hc (by simp))] at hclick
    dsimp only at hclick
    rw [Game.left_click_during, if_pos hst] at hclick
    split at hclick
    case _ => exact absurd hclick (by simp)
    case _ gm r hshow =>
      dsimp only at hclick
      have hsw := left_click_dispatch_reveal hdisp hshow
      have hmb : m.1 < g.height ∧ m.2 < g.width :=
        reveal_seeds_bounds hb m (List.mem_of_find?_eq_some hfind)
      obtain ⟨gL, resL2, heq2, f1, f2, f3, f4, f5, f6, f7, f8, hin, hout, hres⟩ :=
        show_cells_spec_mine hfind
      have hgL : gL = gm ∧ (m, CellImage.SelectedMine) :: resL2 = r := by
        have h2 := heq2.symm.trans hsw
        have h3 := Option.some_injective _ h2
        exact ⟨congrArg Prod.fst h3, congrArg Prod.snd h3⟩
      obtain ⟨hgL1, hgL2⟩ := hgL
      rw [hgL1] at f1 f2 f3 f4 f5 f6 hin hout
      rw [if_neg (by rw [f5, f6]; omega)] at hclick
      have hg' : gm = g' := congrArg Prod.fst (Option.some_injective _ hclick)
      have hr : r = res := congrArg Prod.snd (Option.some_injective _ hclick)
      rw [hg'] at f1 f2 f3 f4 f5 hin
      have hsetcell : ∀ q, (g.setImage m CellImage.SelectedMine).getCell q
          = if q = m then { image := CellImage.SelectedMine, mine := (g.getCell m).mine }
            else g.getCell q := by
        intro q
        rw [Game.setImage, Game.getCell_setCell]
      have hmem : m ∈ rowMajor g.height g.width := mem_rowMajor.mpr hmb
      refine ⟨f1, ?_, ⟨resL2, by rw [← hr, ← hgL2]⟩, ?_, f5, f4⟩
      · rw [hin m hmem, hsetcell m, if_pos rfl]
        unfold lossCell
        rw [if_neg (by simp), if_neg (by rw [hminem]; simp)]
      · intro q hq hqm
        rw [hin q hq, hsetcell q, if_neg hqm]

/-- Witness for C5: clicking the hidden mine `(0, 1)` of the concrete
run; the flagged mine `(1, 1)` keeps its `Flagged` image under
`lossCell`. -/
theorem c5_witness :
    runC5b.1.game_state = GameState.AfterGame ∧
    (runC5b.1.getCell (0, 1)).image = CellImage.SelectedMine ∧
    runC5b.1.getCell (1, 1) = lossCell (runC5a.1.getCell (1, 1)) := by
  have h := c5_loss_by_losscell reach_runC5a rfl
    (Or.inl (show (runC5a.1.getCell (0, 1)).image = CellImage.Hidden from rfl))
    (show (runC5a.1.reveal_seeds (0, 1)).find?
        (fun q => (runC5a.1.getCell q).mine) = some (0, 1) from rfl)
    (show runC5a.1.left_click (0, 1) (streamOf []) = some (runC5b.1, runC5b.2)
      from rfl)
  exact ⟨h.1, h.2.1, h.2.2.2.1 (1, 1) (by decide) (by decide)⟩

/-- Counterexample to C5 as stated: in a reachable loss where the mine
`(1, 1)` was `Flagged`, its image stays `Flagged` instead of becoming
`Mine`. -/
theorem c5_counterexample :
    ∃ (g g' : Game) (res : List (Pos × CellImage)) (rng : Nat → Nat),
      Reachable g ∧ g.game_state = GameState.DuringGame ∧
      (g.getCell (0, 1)).mine = true ∧
      (g.getCell (0, 1)).image = CellImage.Hidden ∧
      (g.getCell (1, 1)).mine = true ∧
      (g.getCell (1, 1)).image = CellImage.Flagged ∧
      g.left_click (0, 1) rng = some (g', res) ∧
      (g'.getCell (1, 1)).image = CellImage.Flagged ∧
      (g'.getCell (1, 1)).image ≠ CellImage.Mine :=
  ⟨runC5a.1, runC5b.1, runC5b.2, streamOf [], reach_runC5a, rfl, rfl, rfl, rfl,
    rfl, rfl, rfl, by decide⟩


/-- When a `DuringGame` left click ends in the win condition, every mine
that was not yet flagged before the call gets a `(position, Flagged)`
entry in the returned change list (either from the question-mark toggle
or from `handle_win`). -/
theorem left_click_win_flag_updates {g g2 : Game} {pos : Pos} {rng : Nat → Nat}
    {res : List (Pos × CellImage)}
    (hP : PendInv g) (hstrict : g.total_mines < g.hidden)
    (heq : g.left_click pos rng = some (g2, res))
    (hwin : g2.hidden = g2.total_mines) :
    ∀ q ∈ rowMajor g.height g.width, (g.getCell q).mine = true →
      (g.getCell q).image ≠ CellImage.Flagged → (q, CellImage.Flagged) ∈ res := by
  rw [left_click_eq] at heq
  split at heq
  case isFalse => exact absurd heq (by simp)
  case isTrue hb =>
    rw [if_neg (by rw [hP.st]; intro hc; exact absurd hc (by simp))] at heq
    dsimp only at heq
    rw [Game.left_click_during, if_pos hP.st] at heq
    split at heq
    case _ => exact absurd heq (by simp)
    case _ gm r hdisp =>
      dsimp only at heq
      have hbr : (gm.hidden = g.hidden ∧ gm.total_mines = g.total_mines)
          ∨ (gm.height = g.height ∧ gm.width = g.width ∧
            ∀ q ∈ rowMajor g.height g.width, (g.getCell q).mine = true →
              (g.getCell q).image ≠ CellImage.Flagged →
              (((gm.getCell q).image = (g.getCell q).image ∧
                (gm.getCell q).mine = (g.getCell q).mine)
                ∨ (q, CellImage.Flagged) ∈ r)) := by
        split at hdisp
        case isTrue himg =>
          cases hfind : [pos].find? (fun q => (g.getCell q).mine) with
          | some mq =>
            obtain ⟨gL, resL2, heq2, f1, f2, f3, f4, f5, f6, f7, f8, hin, hout, hres⟩ :=
              show_cells_spec_mine hfind
            have hgL : gL = gm := by
              have h2 := heq2.symm.trans hdisp
              exact congrArg Prod.fst (Option.some_injective _ h2)
            rw [hgL] at f5 f6
            exact Or.inl ⟨f5, f6⟩
          | none =>
            have hno : ∀ q ∈ [pos], (g.getCell q).mine = false := by
              intro q hq
              have hq2 := List.find?_eq_none.mp hfind q hq
              cases hv : (g.getCell q).mine
              · rfl
              · exact absurd hv hq2
            have hbs : ∀ q ∈ [pos], q.1 < g.height ∧ q.2 < g.width := by
              intro q hq
              rw [List.mem_singleton] at hq
              rw [hq]
              exact hb
            have hhc : hiddenCountIn g ≤ g.hidden := by
              have h3 : g.hidden = imgCount g CellImage.Hidden
                  + imgCount g CellImage.Flagged
                  + imgCount g CellImage.QuestionMarked := hP.hid_sum
              have h4 : hiddenCountIn g = imgCount g CellImage.Hidden :=
                hiddenCountIn_eq_imgCount g
              omega
            obtain ⟨gx, rx, heqc, O⟩ := show_cells_spec_no_mine hno hbs hhc
            rw [heqc] at hdisp
            have h1 := Option.some_injective _ hdisp
            have hgx : gx = gm := congrArg Prod.fst h1
            subst hgx
            refine Or.inr ⟨O.height_eq, O.width_eq, ?_⟩
            intro q hq hm hf
            left
            refine ⟨?_, O.mine_eq q⟩
            rcases O.img_frame q with hsame | hmem
            · exact hsame
            · exfalso
              rw [List.mem_map] at hmem
              obtain ⟨e, he, heqe⟩ := hmem
              obtain ⟨_, _, e3, _, _, _⟩ := O.res_spec e he
              rw [heqe, hm] at e3
              exact absurd e3 (by simp)
        case isFalse himg =>
          split at hdisp
          case isTrue hsh =>
            rw [Option.map_eq_some'] at hdisp
            obtain ⟨⟨gt, upd⟩, ht, hpair⟩ := hdisp
            have hgt : gt = gm := congrArg Prod.fst hpair
            have hupd : [upd] = r := congrArg Prod.snd hpair
            rw [Game.toggle_tofrom_question_marked, Game.toggle_tofrom_given] at ht
            split at ht
            case isFalse => exact absurd ht (by simp)
            case isTrue hbnd =>
              dsimp only at ht
              split at ht
              case isTrue hQm =>
                have h2 := Option.some_injective _ ht
                have hgt2 : ({ g.setImage pos CellImage.Flagged with
                    flags := g.flags + 1 } : Game) = gt := congrArg Prod.fst h2
                have hupd2 : (pos, CellImage.Flagged) = upd := congrArg Prod.snd h2
                refine Or.inr ⟨by rw [← hgt, ← hgt2]; rfl,
                  by rw [← hgt, ← hgt2]; rfl, ?_⟩
                intro q hq hm hf
                by_cases hqp : q = pos
                · right
                  rw [← hupd, ← hupd2, hqp]
                  exact List.mem_singleton.mpr rfl
                · left
                  rw [← hgt, ← hgt2]
                  have hcell : (({ g.setImage pos CellImage.Flagged with
                      flags := g.flags + 1 } : Game).getCell q) = g.getCell q := by
                    have hacc : (({ g.setImage pos CellImage.Flagged with
                        flags := g.flags + 1 } : Game).getCell q)
                        = (g.setImage pos CellImage.Flagged).getCell q := rfl
                    rw [hacc, Game.setImage, Game.getCell_setCell, if_neg hqp]
                  rw [hcell]
                  exact ⟨rfl, rfl⟩
              case isFalse hQm =>
                have hFl : (g.getCell pos).image = CellImage.Flagged := by
                  cases hx : (g.getCell pos).image <;>
                    first
                      | rfl
                      | (exact absurd hx himg)
                      | (exact absurd hx hQm)
                      | (rw [hx] at hsh; exact absurd hsh (by decide))
                have h2 := Option.some_injective _ ht
                have hgt2 : ((if (g.getCell pos).image = CellImage.Flagged
                    then { g with flags := g.flags - 1 } else g).setImage pos
                      CellImage.QuestionMarked) = gt := congrArg Prod.fst h2
                refine Or.inr ⟨by rw [← hgt, ← hgt2, if_pos hFl]; rfl,
                  by rw [← hgt, ← hgt2, if_pos hFl]; rfl, ?_⟩
                intro q hq hm hf
                by_cases hqp : q = pos
                · exfalso
                  rw [hqp] at hf
                  exact hf hFl
                · left
                  rw [← hgt, ← hgt2, if_pos hFl]
                  have hcell : ((({ g with flags := g.flags - 1 } : Game).setImage
                      pos CellImage.QuestionMarked).getCell q) = g.getCell q := by
                    rw [Game.setImage, Game.getCell_setCell, if_neg hqp]
                    rfl
                  rw [hcell]
                  exact ⟨rfl, rfl⟩
          case isFalse hsh =>
            cases hfind : (g.get_hidden_neighbors pos).find?
                (fun q => (g.getCell q).mine) with
            | some mq =>
              obtain ⟨gL, resL2, heq2, f1, f2, f3, f4, f5, f6, f7, f8, hin, hout, hres⟩ :=
                show_cells_spec_mine hfind
              have hgL : gL = gm := by
                have h2 := heq2.symm.trans hdisp
                exact congrArg Prod.fst (Option.some_injective _ h2)
              rw [hgL] at f5 f6
              exact Or.inl ⟨f5, f6⟩
            | none =>
              have hno : ∀ q ∈ g.get_hidden_neighbors pos,
                  (g.getCell q).mine = false := by
                intro q hq
                have hq2 := List.find?_eq_none.mp hfind q hq
                cases hv : (g.getCell q).mine
                · rfl
                · exact absurd hv hq2
              have hbs : ∀ q ∈ g.get_hidden_neighbors pos,
                  q.1 < g.height ∧ q.2 < g.width := by
                intro q hq
                have h3 := get_neighbors_subset (mem_get_hidden_neighbors.mp hq).1
                rw [mem_get_3x3] at h3
                exact ⟨h3.1.1, h3.2.1⟩
              have hhc : hiddenCountIn g ≤ g.hidden := by
                have h3 : g.hidden = imgCount g CellImage.Hidden
                    + imgCount g CellImage.Flagged
                    + imgCount g CellImage.QuestionMarked := hP.hid_sum
                have h4 : hiddenCountIn g = imgCount g CellImage.Hidden :=
                  hiddenCountIn_eq_imgCount g
                omega
              obtain ⟨gx, rx, heqc, O⟩ := show_cells_spec_no_mine hno hbs hhc
              rw [heqc] at hdisp
              have h1 := Option.some_injective _ hdisp
              have hgx : gx = gm := congrArg Prod.fst h1
              subst hgx
              refine Or.inr ⟨O.height_eq, O.width_eq, ?_⟩
              intro q hq hm hf
              left
              refine ⟨?_, O.mine_eq q⟩
              rcases O.img_frame q with hsame | hmem
              · exact hsame
              · exfalso
                rw [List.mem_map] at hmem
                obtain ⟨e, he, heqe⟩ := hmem
                obtain ⟨_, _, e3, _, _, _⟩ := O.res_spec e he
                rw [heqe, hm] at e3
                exact absurd e3 (by simp)
      split at heq
      case isTrue hwinchk =>
        have hg2 : (gm.handle_win).1 = g2 :=
          congrArg Prod.fst (Option.some_injective _ heq)
        have hres2 : r ++ (gm.handle_win).2 = res :=
          congrArg Prod.snd (Option.some_injective _ heq)
        rcases hbr with ⟨h5, h6⟩ | ⟨hh, hw2, hcov⟩
        · rw [h5, h6] at hwinchk
          exact absurd hwinchk (by omega)
        · intro q hq hm hf
          obtain ⟨w1, w2, w3, w4, w5, w6, w7, w8, win, wout, wres⟩ := handle_win_spec gm
          rcases hcov q hq hm hf with ⟨hiq, hmq⟩ | hmem
          · rw [← hres2]
            apply List.mem_append.mpr
            right
            rw [wres]
            apply List.mem_filterMap.mpr
            refine ⟨q, ?_, ?_⟩
            · rw [hh, hw2]
              exact hq
            · unfold winUpd
              rw [if_pos ⟨by rw [hmq]; exact hm, by rw [hiq]; exact hf⟩]
          · rw [← hres2]
            exact List.mem_append.mpr (Or.inl hmem)
      case isFalse hwinchk =>
        have hg2 : gm = g2 := congrArg Prod.fst (Option.some_injective _ heq)
        rw [hg2] at hwinchk
        exact absurd hwin hwinchk

/-- C3 (amended): outside `BeforeGame`, `hidden = total_mines` can only
hold at a won `AfterGame` state, where every mine is `Flagged` and
`flags = total_mines`; and any `DuringGame` left click that ends with
`hidden = total_mines` performs exactly that transition, emitting a
`(position, Flagged)` update for every mine not already flagged before
the call.  (Stale counters after `reset` break the unconditional form of
the claim — see the counterexample, where `hidden = total_mines` in
`BeforeGame`.) -/
theorem c3_win_condition (g : Game) (hR : Reachable g) :
    (g.game_state ≠ GameState.BeforeGame → g.hidden = g.total_mines →
      g.game_state = GameState.AfterGame ∧ g.flags = g.total_mines ∧
      ∀ q ∈ rowMajor g.height g.width, (g.getCell q).mine = true →
        (g.getCell q).image = CellImage.Flagged) ∧
    (∀ (pos : Pos) (rng : Nat → Nat) (g2 : Game) (res : List (Pos × CellImage)),
      g.game_state = GameState.DuringGame →
      g.left_click pos rng = some (g2, res) →
      g2.hidden = g2.total_mines →
      g2.game_state = GameState.AfterGame ∧ g2.flags = g2.total_mines ∧
      (∀ q ∈ rowMajor g2.height g2.width, (g2.getCell q).mine = true →
        (g2.getCell q).image = CellImage.Flagged) ∧
      (∀ q ∈ rowMajor g.height g.width, (g.getCell q).mine = true →
        (g.getCell q).image ≠ CellImage.Flagged → (q, CellImage.Flagged) ∈ res)) := by
  have hI := reachable_Inv hR
  constructor
  · intro hnb hw
    cases hgs : g.game_state with
    | BeforeGame => exact absurd hgs hnb
    | DuringGame =>
      have := hI.not_won hgs
      exact absurd hw (by omega)
    | AfterGame =>
      obtain ⟨hflag, hfl⟩ := hI.won_flagged hgs hw
      exact ⟨rfl, hfl, hflag⟩
  · intro pos rng g2 res hst hclick hw2
    have hI2 : Inv g2 := left_click_Inv hI hclick
    have hst2 : g2.game_state = GameState.AfterGame := by
      rcases left_click_state_of_not_before
          (by rw [hst]; intro hc; exact absurd hc (by simp)) hclick with h | h
      · rw [hst] at h
        have := hI2.not_won h
        exact absurd hw2 (by omega)
      · exact h
    obtain ⟨hflag, hfl⟩ := hI2.won_flagged hst2 hw2
    refine ⟨hst2, hfl, hflag, ?_⟩
    exact left_click_win_flag_updates (hI.during hst) (hI.not_won hst) hclick hw2

/-- Witness for C3 at a concrete won game (2×1, one mine, first click
wins immediately). -/
theorem c3_witness :
    runA1.1.game_state = GameState.AfterGame ∧
    runA1.1.flags = runA1.1.total_mines :=
  ⟨((c3_win_condition runA1.1 reach_runA1).1 (by decide) rfl).1,
   ((c3_win_condition runA1.1 reach_runA1).1 (by decide) rfl).2.1⟩

/-- Counterexample to C3 as stated: after winning and then resetting,
`hidden` keeps its stale value `total_mines` while the state is
`BeforeGame`, so `hidden = total_mines` does not imply `AfterGame` on
every reachable state. -/
theorem c3_counterexample :
    ∃ g : Game, Reachable g ∧ g.hidden = g.total_mines ∧
      g.game_state ≠ GameState.AfterGame :=
  ⟨runA2, reach_runA2, rfl, by decide⟩


/-- C8 (amended): a `DuringGame` left click that reveals — directly on a
`Hidden` cell, or by chord on a revealed cell — with no mine among the
submitted seed cells, produces a list of revealed cells `r1` (possibly
followed by the win-flagging updates `r2`, all `Flagged`): every
revealed cell was `Hidden` and mine-free, receives the numeral for the
exact number of mines among its in-bounds neighbours, appears exactly
once, `hidden` drops by exactly `r1.length`, and every `Hidden` seed
cell is revealed; and after the call no cell of the 3×3 block of a
revealed zero-count cell is left `Hidden` — the flood fill exhausts the
`Hidden` part of each zero region, but cells whose image is `Flagged` or
`QuestionMarked` are skipped, not revealed (see the counterexample, where
a zero-count `Flagged` cell inside the zero region keeps its flag). -/
theorem c8_reveal_and_flood {g g' : Game} {pos : Pos} {rng : Nat → Nat}
    {res : List (Pos × CellImage)}
    (hR : Reachable g) (hst : g.game_state = GameState.DuringGame)
    (hdisp : (g.getCell pos).image = CellImage.Hidden ∨
      (g.getCell pos).image.shown = true)
    (hnm : ∀ q ∈ g.reveal_seeds pos, (g.getCell q).mine = false)
    (hclick : g.left_click pos rng = some (g', res)) :
    ∃ r1 r2, res = r1 ++ r2 ∧ (∀ e ∈ r2, e.2 = CellImage.Flagged) ∧
      (∀ e ∈ r1, (g.getCell e.1).image = CellImage.Hidden ∧
        (g.getCell e.1).mine = false ∧
        e.2 = CellImage.from_number
          ((g.get_neighbors e.1).countP fun t => (g.getCell t).mine) ∧
        (g'.getCell e.1).image = e.2) ∧
      (r1.map Prod.fst).Nodup ∧
      g'.hidden + r1.length = g.hidden ∧
      (∀ q ∈ g.reveal_seeds pos, (g.getCell q).image = CellImage.Hidden →
        q ∈ r1.map Prod.fst) ∧
      (∀ e ∈ r1, g.get_mines_around e.1 = 0 →
        ∀ t ∈ g.get_3x3 e.1, (g'.getCell t).image ≠ CellImage.Hidden) := by
  have hI := reachable_Inv hR
  have hP := hI.during hst
  rw [left_click_eq] at hclick
  split at hclick
  case isFalse => exact absurd hclick (by simp)
  case isTrue hb =>
    rw [if_neg (by rw [hst]; intro hc; exact absurd hc (by simp))] at hclick
    dsimp only at hclick
    rw [Game.left_click_during, if_pos hst] at hclick
    split at hclick
    case _ => exact absurd hclick (by simp)
    case _ gm r hshow =>
      dsimp only at hclick
      have hsw := left_click_dispatch_reveal hdisp hshow
      have hbs : ∀ q ∈ g.reveal_seeds pos, q.1 < g.height ∧ q.2 < g.width :=
        reveal_seeds_bounds hb
      have hhc : hiddenCountIn g ≤ g.hidden := by
        have h3 : g.hidden = imgCount g CellImage.Hidden + imgCount g CellImage.Flagged
            + imgCount g CellImage.QuestionMarked := hP.hid_sum
        have h4 : hiddenCountIn g = imgCount g CellImage.Hidden :=
          hiddenCountIn_eq_imgCount g
        omega
      obtain ⟨gx, rx, heqc, O⟩ := show_cells_spec_no_mine hnm hbs hhc
      have h1 := Option.some_injective _ (heqc.symm.trans hsw)
      have hgx : gm = gx := (congrArg Prod.fst h1).symm
      have hrx : r = rx := (congrArg Prod.snd h1).symm
      subst hgx
      subst hrx
      have hentry : ∀ e ∈ r, (g.getCell e.1).image = CellImage.Hidden ∧
          (g.getCell e.1).mine = false ∧
          e.2 = CellImage.from_number
            ((g.get_neighbors e.1).countP fun t => (g.getCell t).mine) ∧
          (gm.getCell e.1).image = e.2 ∧
          e.1.1 < g.height ∧ e.1.2 < g.width := by
        intro e he
        obtain ⟨e1, e2, e3, e4, e5, e6⟩ := O.res_spec e he
        refine ⟨e4, e3, ?_, e6, e1, e2⟩
        rw [e5, get_mines_around_eq_neighbors e1 e2 e3]
      have hseedmem : ∀ q ∈ g.reveal_seeds pos,
          (g.getCell q).image = CellImage.Hidden → q ∈ r.map Prod.fst := by
        intro q hq hqh
        rcases O.img_frame q with hsame | hmem
        · exfalso
          have hd := O.stack_done q (List.mem_reverse.mpr hq)
          rw [hsame, hqh] at hd
          exact hd rfl
        · exact hmem
      split at hclick
      case isFalse hwin =>
        have hg' : gm = g' := congrArg Prod.fst (Option.some_injective _ hclick)
        have hr : r = res := congrArg Prod.snd (Option.some_injective _ hclick)
        refine ⟨r, [], by rw [← hr, List.append_nil],
          by intro e he; exact absurd he (by simp), ?_, O.res_nodup, ?_, hseedmem, ?_⟩
        · intro e he
          obtain ⟨e1, e2, e3, e4, _, _⟩ := hentry e he
          refine ⟨e1, e2, e3, ?_⟩
          rw [← hg']
          exact e4
        · rw [← hg']
          exact O.hidden_eq
        · intro e he hz t ht
          rw [← hg']
          exact O.zero_closure e he hz t ht
      case isTrue hwin =>
        have hg' : (gm.handle_win).1 = g' :=
          congrArg Prod.fst (Option.some_injective _ hclick)
        have hr : r ++ (gm.handle_win).2 = res :=
          congrArg Prod.snd (Option.some_injective _ hclick)
        obtain ⟨w1, w2, w3, w4, w5, w6, w7, w8, win, wout, wres⟩ := handle_win_spec gm
        have hwc : ∀ c : Cell, c.image ≠ CellImage.Hidden →
            (winCell c).image ≠ CellImage.Hidden := by
          intro c hc
          unfold winCell
          split
          · simp
          · exact hc
        refine ⟨r, (gm.handle_win).2, hr.symm, ?_, ?_, O.res_nodup, ?_, hseedmem, ?_⟩
        · intro e he
          rw [wres] at he
          obtain ⟨q, hq, hupd⟩ := List.mem_filterMap.mp he
          unfold winUpd at hupd
          split at hupd
          · have h2 := Option.some_injective _ hupd
            rw [← h2]
          · exact absurd hupd (by simp)
        · intro e he
          obtain ⟨e1, e2, e3, e4, e5, e6⟩ := hentry e he
          refine ⟨e1, e2, e3, ?_⟩
          rw [← hg']
          have hqm : e.1 ∈ rowMajor gm.height gm.width := by
            rw [O.height_eq, O.width_eq]
            exact mem_rowMajor.mpr ⟨e5, e6⟩
          rw [win e.1 hqm]
          have hgm_mine : (gm.getCell e.1).mine = false := by
            rw [O.mine_eq e.1]
            exact e2
          unfold winCell
          rw [if_neg (by rw [hgm_mine]; simp)]
          exact e4
        · rw [← hg', w5]
          exact O.hidden_eq
        · intro e he hz t ht
          rw [← hg']
          have htb : t.1 < g.height ∧ t.2 < g.width := by
            rw [mem_get_3x3] at ht
            exact ⟨ht.1.1, ht.2.1⟩
          have htm : t ∈ rowMajor gm.height gm.width := by
            rw [O.height_eq, O.width_eq]
            exact mem_rowMajor.mpr htb
          rw [win t htm]
          exact hwc _ (O.zero_closure e he hz t ht)

/-- Witness for C8: the concrete 6×2 click at `(0, 0)` with a flagged
zero-count cell nearby. -/
theorem c8_witness :
    ∃ r1 r2, runE3.2 = r1 ++ r2 ∧ (∀ e ∈ r2, e.2 = CellImage.Flagged) ∧
      (∀ e ∈ r1, (runE2.1.getCell e.1).image = CellImage.Hidden ∧
        (runE2.1.getCell e.1).mine = false ∧
        e.2 = CellImage.from_number
          ((runE2.1.get_neighbors e.1).countP fun t => (runE2.1.getCell t).mine) ∧
        (runE3.1.getCell e.1).image = e.2) ∧
      (r1.map Prod.fst).Nodup ∧
      runE3.1.hidden + r1.length = runE2.1.hidden ∧
      (∀ q ∈ runE2.1.reveal_seeds (0, 0),
        (runE2.1.getCell q).image = CellImage.Hidden → q ∈ r1.map Prod.fst) ∧
      (∀ e ∈ r1, runE2.1.get_mines_around e.1 = 0 →
        ∀ t ∈ runE2.1.get_3x3 e.1, (runE3.1.getCell t).image ≠ CellImage.Hidden) :=
  c8_reveal_and_flood reach_runE2 rfl
    (Or.inl (show (runE2.1.getCell (0, 0)).image = CellImage.Hidden from rfl))
    (by decide)
    (show runE2.1.left_click (0, 0) (streamOf []) = some (runE3.1, runE3.2)
      from rfl)

/-- Counterexample to C8 as stated: in a reachable position, `(1, 1)` is
a zero-count cell inside the zero region of the clicked cell `(0, 0)`,
yet it is not revealed by the click — its `Flagged` image blocks the
flood fill. -/
theorem c8_counterexample :
    ∃ (g g' : Game) (rng : Nat → Nat) (res : List (Pos × CellImage)),
      Reachable g ∧ g.game_state = GameState.DuringGame ∧
      (g.getCell (0, 0)).mine = false ∧
      (g.getCell (0, 0)).image = CellImage.Hidden ∧
      g.get_mines_around (0, 0) = 0 ∧
      ((1 : Nat), (1 : Nat)) ∈ g.get_3x3 (0, 0) ∧
      g.get_mines_around (1, 1) = 0 ∧
      (g.getCell (1, 1)).mine = false ∧
      g.left_click (0, 0) rng = some (g', res) ∧
      ((1 : Nat), (1 : Nat)) ∉ res.map Prod.fst ∧
      (g'.getCell (1, 1)).image = CellImage.Flagged :=
  ⟨runE2.1, runE3.1, streamOf [], runE3.2, reach_runE2, rfl, rfl, rfl, by decide,
    by decide, by decide, rfl, rfl, by decide, rfl⟩

end Mines
